import Mathlib

/-!
# ts-query-workers: a verification development

A shallow embedding of the Go packages `genheap`, `stats`, `device` and `main`
of `sbward/ts-query-workers`, together with the parts of the Go standard
library they call (`container/heap`, `strconv.Atoi`, `strings.TrimPrefix`,
`hash/fnv`), and theorems about them.

Conventions of the embedding.

* A Go slice of numbers is a `List Int`; `nil` and the empty slice are both the
  empty list (Go's `len`, `range` and `append` do not tell them apart).
* A Go machine integer is an `Int`; where the Go operation can wrap, the
  embedding applies `IntKind.wrap` for the width and signedness of the type.
* A Go run-time panic is the `error` side of `Except GoPanic`.
* A Go `(T, error)` result keeps both components: the value and an optional
  error.
* A Go `float64` is a `GoFloat64`, a significand and a binary exponent; the conversion
  of an integer, `+` and `/` round to the nearest such value with a 53-bit significand,
  ties to even.  The `float64` results `Avg`, `Med` and `Median()` are given by the
  exact rational value (`GoFloat64.toRat`) of the `float64` that the code computes.
-/

namespace TsQueryWorkers

/-! ## Go run time -/

/-- Run-time panics that the embedded code can raise. -/
inductive GoPanic where
  | indexOutOfRange
  | sliceBoundsOutOfRange
  | integerDivideByZero
  | nilPointerDereference
  | makeLenOutOfRange
  deriving DecidableEq, Repr

deriving instance DecidableEq for Except

/-- Width and signedness of a Go integer type (`int` is `⟨true, 64⟩`). -/
structure IntKind where
  signed : Bool
  bits : Nat
  deriving DecidableEq, Repr

/-- Go `int` and `int64` (also `time.Duration`). -/
def int64 : IntKind := ⟨true, 64⟩

/-- Go `uint8`. -/
def uint8 : IntKind := ⟨false, 8⟩

/-- Reduction of a mathematical integer to the value a machine integer of kind `K` holds
(two's complement for signed kinds). -/
def IntKind.wrap (K : IntKind) (z : Int) : Int :=
  if K.signed then
    (z + ((2 ^ (K.bits - 1) : Nat) : Int)) % ((2 ^ K.bits : Nat) : Int) - ((2 ^ (K.bits - 1) : Nat) : Int)
  else
    z % ((2 ^ K.bits : Nat) : Int)

/-- Go unary minus on a machine integer of kind `K`. -/
def IntKind.neg (K : IntKind) (x : Int) : Int := K.wrap (-x)

/-- Go `+` on machine integers of kind `K`. -/
def IntKind.add (K : IntKind) (x y : Int) : Int := K.wrap (x + y)

/-- The values a machine integer of kind `K` can hold. -/
def IntKind.InRange (K : IntKind) (z : Int) : Prop :=
  if K.signed then
    -((2 ^ (K.bits - 1) : Nat) : Int) ≤ z ∧ z < ((2 ^ (K.bits - 1) : Nat) : Int)
  else
    0 ≤ z ∧ z < ((2 ^ K.bits : Nat) : Int)

instance (K : IntKind) (z : Int) : Decidable (K.InRange z) := by
  unfold IntKind.InRange; exact inferInstance

/-- The values of kind `K` whose negation is representable: `K.neg x = -x`. -/
def IntKind.Negatable (K : IntKind) (z : Int) : Prop := K.InRange z ∧ K.InRange (-z)

instance (K : IntKind) (z : Int) : Decidable (K.Negatable z) := by
  unfold IntKind.Negatable; exact inferInstance

/-! ## `float64`

The finite `float64` values and the three operations of the code on them: the
conversion `float64(x)` of an integer, `+` and `/`.  Each is the IEEE 754 operation:
the exact result rounded to the nearest value with a 53-bit significand, ties to the
even significand.  The exponent is not bounded: the integers of at most 64 bits, the
sums of two of them and their quotients by a count all lie inside the normal range of
`float64`, so neither overflow nor gradual underflow occurs on the values the code
computes. -/

/-- A finite `float64` value, `mant * 2 ^ exp`. -/
structure GoFloat64 where
  mant : Int
  exp : Int
  deriving DecidableEq, Repr

/-- The value of a `float64` read as an exact rational. -/
def GoFloat64.toRat (f : GoFloat64) : ℚ := (f.mant : ℚ) * (2 : ℚ) ^ f.exp

/-- The loop of `log2Floor`. -/
def log2Loop : Nat → Nat → Nat
  | 0, _ => 0
  | fuel + 1, n => if n < 2 then 0 else log2Loop fuel (n / 2) + 1

/-- The position of the leading binary digit of `n`: `2 ^ log2Floor n ≤ n < 2 ^ (log2Floor n + 1)`
for `n > 0`. -/
def log2Floor (n : Nat) : Nat := log2Loop n n

/-- Rounding of `n / d` to the nearest integer, a tie to the even one. -/
def roundHalfEven (n d : Nat) : Nat :=
  let q := n / d
  let r := n % d
  if 2 * r < d then q
  else if d < 2 * r then q + 1
  else if q % 2 = 0 then q else q + 1

/-- The `float64` nearest to `num / den` (`den > 0`), ties to even: with `e` the exponent of
the leading binary digit of `|num| / den`, the quotient is scaled by `2 ^ (52 - e)` into
`[2^52, 2^53)`, rounded to an integer significand, and scaled back.  Zero is `0 * 2^0`. -/
def roundRatio (num : Int) (den : Nat) : GoFloat64 :=
  if num = 0 ∨ den = 0 then ⟨0, 0⟩
  else
    let n := num.natAbs
    let a := log2Floor n
    let b := log2Floor den
    -- `e = a - b` when `2 ^ (a - b) ≤ n / den`, else `e = a - b - 1`
    let c := if n * 2 ^ b < den * 2 ^ a then 1 else 0
    -- scaling by `2 ^ (52 - e) = 2 ^ (52 + b + c) / 2 ^ a`
    let up := 52 + b + c
    let m := roundHalfEven (n * 2 ^ up) (den * 2 ^ a)
    ⟨if num < 0 then -(m : Int) else (m : Int), (a : Int) - (up : Int)⟩

/-- The `float64` nearest to `s * 2 ^ c`. -/
def roundScaled (s : Int) (c : Int) : GoFloat64 :=
  if 0 ≤ c then roundRatio (s * 2 ^ c.toNat) 1 else roundRatio s (2 ^ (-c).toNat)

/-- Go `float64(x)` for an integer `x`. -/
def float64OfInt (x : Int) : GoFloat64 := roundRatio x 1

/-- Go `x + y` on `float64`: the exact sum, rounded. -/
def float64Add (x y : GoFloat64) : GoFloat64 :=
  let c := min x.exp y.exp
  roundScaled (x.mant * 2 ^ (x.exp - c).toNat + y.mant * 2 ^ (y.exp - c).toNat) c

/-- Go `x / y` on `float64` for `y ≠ 0`: the exact quotient, rounded.  (For `y = 0` Go gives
an infinity or a NaN; the code divides by `2` and by a count that is at least `1`.) -/
def float64Div (x y : GoFloat64) : GoFloat64 :=
  let num := if y.mant < 0 then -x.mant else x.mant
  let den := y.mant.natAbs
  let k := x.exp - y.exp
  if 0 ≤ k then roundRatio (num * 2 ^ k.toNat) den else roundRatio num (den * 2 ^ (-k).toNat)

/-! ## Package `genheap` -/

/-- Go `genheap.Heap[T]` for an integer element type: the backing slice. -/
abbrev Heap := List Int

/-- Go `Heap.Len`. -/
def Heap.Len (h : Heap) : Nat := h.length

/-- Go `Heap.Less`: `h[i] < h[j]`. -/
def Heap.Less (h : Heap) (i j : Nat) : Bool := decide (h.getD i 0 < h.getD j 0)

/-- Go `Heap.Swap`: `h[i], h[j] = h[j], h[i]`. -/
def Heap.Swap (h : Heap) (i j : Nat) : Heap := (h.set i (h.getD j 0)).set j (h.getD i 0)

/-- Go `Heap.Push`: `append(*h, x)`. -/
def Heap.Push (h : Heap) (x : Int) : Heap := h ++ [x]

/-- Go `Heap.Pop`: returns `old[n-1]` and leaves `old[0 : n-1]`; slicing panics on an empty
heap. -/
def Heap.Pop (h : Heap) : Except GoPanic (Int × Heap) :=
  if h.length = 0 then .error .sliceBoundsOutOfRange
  else .ok (h.getD (h.length - 1) 0, h.take (h.length - 1))

/-! ## Standard library `container/heap` -/

/-- The loop of `heap.up`: `i := (j-1)/2; if i == j || !h.Less(j, i) break; h.Swap(i, j); j = i`.
Go's `(j-1)/2` truncates towards zero, so it is `0` at `j = 0`, as natural-number
subtraction gives.  The first argument bounds the number of iterations; `j` iterations
always suffice (`upLoop_fuel`). -/
def upLoop : Nat → Heap → Nat → Heap
  | 0, h, _ => h
  | fuel + 1, h, j =>
    let i := (j - 1) / 2
    if i = j ∨ h.Less j i = false then h
    else upLoop fuel (h.Swap i j) i

/-- Go `heap.up`. -/
def up (h : Heap) (j : Nat) : Heap := upLoop j h j

/-- The loop of `heap.down` (the boolean result of `down`, unused by `Push`, `Pop` and
`Init`, is dropped):
`j1 := 2*i+1; if j1 >= n break; j := j1; if j2 := j1+1; j2 < n && h.Less(j2, j1) { j = j2 };
if !h.Less(j, i) break; h.Swap(i, j); i = j`.
The first argument bounds the number of iterations; `n - i` iterations always suffice
(`downLoop_fuel`). -/
def downLoop : Nat → Heap → Nat → Nat → Heap
  | 0, h, _, _ => h
  | fuel + 1, h, i, n =>
    let j1 := 2 * i + 1
    if n ≤ j1 then h
    else
      let j := if j1 + 1 < n ∧ h.Less (j1 + 1) j1 = true then j1 + 1 else j1
      if h.Less j i = false then h
      else downLoop fuel (h.Swap i j) j n

/-- Go `heap.down` without its boolean result. -/
def down (h : Heap) (i0 n : Nat) : Heap := downLoop (n - i0) h i0 n

/-- Go `heap.Push`: `h.Push(x); up(h, h.Len()-1)`. -/
def heapPush (h : Heap) (x : Int) : Heap :=
  let h1 := h.Push x
  up h1 (h1.Len - 1)

/-- Go `heap.Pop`: `n := h.Len() - 1; h.Swap(0, n); down(h, 0, n); return h.Pop()`.
On an empty heap `n = -1` and `h.Swap(0, -1)` panics with an index out of range. -/
def heapPop (h : Heap) : Except GoPanic (Int × Heap) :=
  if h.Len = 0 then .error .indexOutOfRange
  else
    let n := h.Len - 1
    (down (h.Swap 0 n) 0 n).Pop

/-- The loop of `heap.Init`: `for i := n/2 - 1; i >= 0; i-- { down(h, i, n) }`; the first
argument is the number of indices still to visit, `i + 1`. -/
def initLoop : Nat → Heap → Nat → Heap
  | 0, h, _ => h
  | i + 1, h, n => initLoop i (down h i n) n

/-- Go `heap.Init`. -/
def heapInit (h : Heap) : Heap := initLoop (h.Len / 2) h h.Len

/-! ## Package `stats`: the streaming median -/

/-- Go `stats.Median[T]`: `low` holds the negated lower half in a min-heap, `high` the upper
half in a min-heap. -/
structure Median where
  low : Heap
  high : Heap
  deriving DecidableEq, Repr

/-- Go `stats.NewMedian`. -/
def NewMedian : Median := ⟨[], []⟩

/-- Go `Median.Push` for an element type of kind `K`:
`heap.Push(m.low, -x); heap.Push(m.high, -heap.Pop(m.low)); if m.high.Len() > m.low.Len()
{ heap.Push(m.low, -heap.Pop(m.high)) }`. -/
def Median.Push (K : IntKind) (m : Median) (x : Int) : Except GoPanic Median :=
  match heapPop (heapPush m.low (K.neg x)) with
  | .error e => .error e
  | .ok (a, low2) =>
    let high1 := heapPush m.high (K.neg a)
    if low2.Len < high1.Len then
      match heapPop high1 with
      | .error e => .error e
      | .ok (b, high2) => .ok ⟨heapPush low2 (K.neg b), high2⟩
    else .ok ⟨low2, high1⟩

/-- Go `Median.MedianRaw`; indexing an empty heap panics. -/
def Median.MedianRaw (K : IntKind) (m : Median) : Except GoPanic (List Int) :=
  if m.low.Len = 0 ∧ m.high.Len = 0 then .ok []
  else if m.low.Len = m.high.Len then
    match m.low, m.high with
    | l0 :: _, h0 :: _ => .ok [K.neg l0, h0]
    | _, _ => .error .indexOutOfRange
  else
    match m.low with
    | l0 :: _ => .ok [K.neg l0]
    | [] => .error .indexOutOfRange

/-- Go `Median.Median` (spelled `median`: inside the namespace of the structure the
capitalised name would shadow the structure):
`v := m.MedianRaw(); switch len(v) { case 0: return 0; case 1: return float64(v[0]) };
return (float64(v[0]) + float64(v[1])) / 2`.  The result is the exact rational value of
the `float64` that is returned. -/
def Median.median (K : IntKind) (m : Median) : Except GoPanic ℚ :=
  match m.MedianRaw K with
  | .error e => .error e
  | .ok [] => .ok 0
  | .ok [v0] => .ok (float64OfInt v0).toRat
  | .ok (v0 :: v1 :: _) =>
    .ok (float64Div (float64Add (float64OfInt v0) (float64OfInt v1)) (float64OfInt 2)).toRat

/-- Pushing a sequence of values, in order, into a median. -/
def Median.pushAll (K : IntKind) : Median → List Int → Except GoPanic Median
  | m, [] => .ok m
  | m, x :: xs =>
    match m.Push K x with
    | .error e => .error e
    | .ok m1 => Median.pushAll K m1 xs

/-! ## Heap order -/

/-- Heap order on the edges from `(k-1)/2` to `k`, for `k < n`, whose parent index is at
least `m`. -/
def HeapFrom (h : Heap) (m n : Nat) : Prop :=
  ∀ k p, 0 < k → k < n → p = (k - 1) / 2 → m ≤ p → h.getD p 0 ≤ h.getD k 0

/-- The min-heap property of the whole backing slice. -/
def IsHeap (h : Heap) : Prop := HeapFrom h 0 h.length

/-! ## Reference notions for the streaming median -/

/-- The pushed values in non-decreasing order. -/
def sortedValues (xs : List Int) : List Int := xs.insertionSort (· ≤ ·)

/-- The middle of the sorted sequence: nothing for an empty sequence, the middle element
for an odd length, the two middle elements (lower first) for an even length. -/
def middleValues (xs : List Int) : List Int :=
  if xs.length = 0 then []
  else if xs.length % 2 = 1 then [(sortedValues xs).getD (xs.length / 2) 0]
  else [(sortedValues xs).getD (xs.length / 2 - 1) 0, (sortedValues xs).getD (xs.length / 2) 0]

/-- The classical median of a non-empty sequence, as an exact rational. -/
def classicalMedian (xs : List Int) : ℚ :=
  if xs.length % 2 = 1 then ((sortedValues xs).getD (xs.length / 2) 0 : ℚ)
  else (((sortedValues xs).getD (xs.length / 2 - 1) 0 : ℚ)
    + ((sortedValues xs).getD (xs.length / 2) 0 : ℚ)) / 2

/-- The state of a streaming median that holds the values `xs`: both backing slices are
min-heaps, `low` (negated) and `high` together hold exactly `xs`, every value of the low
half is at most every value of the high half, and `low` has as many entries as `high` or
one more. -/
structure MedianInv (m : Median) (xs : List Int) : Prop where
  lowHeap : IsHeap m.low
  highHeap : IsHeap m.high
  perm : (m.low.map (fun a => -a) ++ m.high).Perm xs
  sep : ∀ a ∈ m.low, ∀ b ∈ m.high, -a ≤ b
  bal : m.low.length = m.high.length ∨ m.low.length = m.high.length + 1

/-- The two heaps of a streaming median are balanced: `low` has as many entries as `high`,
or one more. -/
def Median.Balanced (m : Median) : Prop :=
  m.low.length = m.high.length ∨ m.low.length = m.high.length + 1

/-! ## Package `stats`: the aggregator -/

/-- Go `stats.Aggregator[T]` for an integer element type; `Avg` and `Med` are `float64`
fields, given by the exact rational value of the `float64` they hold. -/
structure Aggregator where
  Count : Int
  Total : Int
  Min : Int
  Max : Int
  Avg : ℚ
  Med : ℚ
  median : Median
  deriving DecidableEq, Repr

/-- Go `stats.NewAggregator`: every field zero, a new median. -/
def NewAggregator : Aggregator := ⟨0, 0, 0, 0, 0, 0, NewMedian⟩

/-- Go `Aggregator.Push` for an element type of kind `K`:
`a.Total += x; if a.Min > x || a.Count == 0 { a.Min = x }; if a.Max < x || a.Count == 0
{ a.Max = x }; a.Count++; a.Avg = float64(a.Total) / float64(a.Count); a.median.Push(x);
a.Med = a.median.Median()`.  `Count` is a Go `int` that counts pushes; it stays far below
the point where `a.Count++` could wrap. -/
def Aggregator.Push (K : IntKind) (a : Aggregator) (x : Int) : Except GoPanic Aggregator :=
  let total := K.add a.Total x
  let mn := if a.Min > x ∨ a.Count = 0 then x else a.Min
  let mx := if a.Max < x ∨ a.Count = 0 then x else a.Max
  let count := a.Count + 1
  let avg := (float64Div (float64OfInt total) (float64OfInt count)).toRat
  match a.median.Push K x with
  | .error e => .error e
  | .ok med =>
    match med.median K with
    | .error e => .error e
    | .ok v => .ok ⟨count, total, mn, mx, avg, v, med⟩

/-- Pushing a sequence of values, in order, into an aggregator. -/
def Aggregator.pushAll (K : IntKind) : Aggregator → List Int → Except GoPanic Aggregator
  | a, [] => .ok a
  | a, x :: xs =>
    match a.Push K x with
    | .error e => .error e
    | .ok a1 => Aggregator.pushAll K a1 xs

/-- What an aggregator holds after the values `xs` were pushed into a new one. -/
structure AggInv (K : IntKind) (a : Aggregator) (xs : List Int) : Prop where
  count : a.Count = xs.length
  total : a.Total = K.wrap xs.sum
  minMem : xs ≠ [] → a.Min ∈ xs
  minLe : ∀ v ∈ xs, a.Min ≤ v
  maxMem : xs ≠ [] → a.Max ∈ xs
  maxGe : ∀ v ∈ xs, v ≤ a.Max
  avg : xs ≠ [] → a.Avg = (float64Div (float64OfInt a.Total) (float64OfInt a.Count)).toRat
  bal : a.median.Balanced

/-! ## Go strings -/

/-- A Go string: a sequence of bytes. -/
abbrev GoString := List UInt8

/-- The Go string with the UTF-8 bytes of a string literal. -/
def goString (s : String) : GoString := s.data.flatMap String.utf8EncodeChar

/-- Go `strings.TrimPrefix`: `s` without the leading `pre` if it starts with it, else `s`. -/
def TrimPrefix (s pre : GoString) : GoString :=
  if pre.isPrefixOf s then s.drop pre.length else s

/-! ## Standard library `strconv` -/

/-- The two errors of Go `strconv` (`ErrSyntax`, `ErrRange`), as carried by `*NumError`. -/
inductive NumError where
  | errSyntax
  | errRange
  deriving DecidableEq, Repr

/-- A byte is a decimal digit when `ch - '0'` (a byte subtraction) is at most `9`. -/
def isDigitByte (ch : UInt8) : Bool := decide (48 ≤ ch.toNat ∧ ch.toNat ≤ 57)

/-- The loop of Go `strconv.ParseUint(s, 10, 64)`: a byte that is no digit is a syntax
error; `n >= cutoff` (`cutoff = maxUint64/10 + 1`) before the multiplication, or a sum
`n*10 + d` beyond `maxUint64`, is a range error. -/
def parseUintLoop : List UInt8 → Nat → Except NumError Nat
  | [], n => .ok n
  | ch :: rest, n =>
    if isDigitByte ch = false then .error .errSyntax
    else if (2 ^ 64 - 1) / 10 + 1 ≤ n then .error .errRange
    else if 2 ^ 64 - 1 < n * 10 + (ch.toNat - 48) then .error .errRange
    else parseUintLoop rest (n * 10 + (ch.toNat - 48))

/-- Go `strconv.ParseUint(s, 10, 64)`: the empty string is a syntax error. -/
def ParseUint (s : GoString) : Except NumError Nat :=
  if s = [] then .error .errSyntax else parseUintLoop s 0

/-- Go `strconv.Atoi` on a platform with 64-bit `int`, through its general path
`ParseInt(s, 10, 0)` (the fast path for short strings computes the same result): an optional
sign `+` or `-`, then `ParseUint`; a magnitude of `2^63` or more (more than `2^63` after a
`-`) is a range error.  The result is the pair `(value, error)`; with a range error the
value is the nearest bound. -/
def Atoi (s : GoString) : Int × Option NumError :=
  match s with
  | [] => (0, some .errSyntax)
  | c :: rest =>
    let neg := decide (c.toNat = 45)
    let body := if c.toNat = 43 ∨ c.toNat = 45 then rest else s
    match ParseUint body with
    | .error .errSyntax => (0, some .errSyntax)
    | .error .errRange =>
      (if neg then -((2 ^ 63 : Nat) : Int) else ((2 ^ 63 - 1 : Nat) : Int), some .errRange)
    | .ok un =>
      if neg = false ∧ 2 ^ 63 ≤ un then (((2 ^ 63 - 1 : Nat) : Int), some .errRange)
      else if neg = true ∧ 2 ^ 63 < un then (-((2 ^ 63 : Nat) : Int), some .errRange)
      else (if neg then -(un : Int) else (un : Int), none)

/-! ## Package `device` -/

/-- Go `device.MinMaxCPUQuery`; the two `time.Time` fields are kept as instants on an
integer time line. -/
structure MinMaxCPUQuery where
  BucketSize : GoString
  Hostname : GoString
  StartTime : Int
  EndTime : Int
  deriving DecidableEq, Repr

/-- A Go value of interface type `any`, by dynamic type: a `string`, a
`*device.MinMaxCPUQuery` (possibly a nil pointer), an `int`, or the nil interface. -/
inductive Value where
  | str (s : GoString)
  | query (q : Option MinMaxCPUQuery)
  | int (n : Int)
  | nil
  deriving DecidableEq, Repr

/-- The errors the balancers and `device.ParseHostID` build with `fmt.Errorf`. -/
inductive BalancerError where
  /-- Go `fmt.Errorf("failed to parse host id: %w", err)` around the `*NumError` of `Atoi`
  for the string `num`. -/
  | parseHostID (num : GoString) (err : NumError)
  /-- Go `fmt.Errorf("value must be string but got %T", value)`, from `HostIDBalancer`. -/
  | mustBeString (value : Value)
  /-- Go `fmt.Errorf("value must be a string but got %T", value)`, from the hash balancer. -/
  | mustBeAString (value : Value)
  /-- Go `fmt.Errorf("value must be *device.MinMaxCPUQuery but got %T", value)`. -/
  | mustBeQuery (value : Value)
  deriving DecidableEq, Repr

/-- Go `device.ParseHostID`: `Atoi(strings.TrimPrefix(host, "host_"))`; on an error the
result is `(0, wrapped error)`. -/
def ParseHostID (host : GoString) : Int × Option BalancerError :=
  match Atoi (TrimPrefix host (goString "host_")) with
  | (_, some err) => (0, some (.parseHostID (TrimPrefix host (goString "host_")) err))
  | (id, none) => (id, none)

/-! ## Package `main`: balancers -/

/-- Go `x % y` on `int`: a run-time panic for `y = 0`, else the remainder of the division
truncated towards zero (it has the sign of `x`). -/
def goMod (x y : Int) : Except GoPanic Int :=
  if y = 0 then .error .integerDivideByZero else .ok (Int.tmod x y)

/-- What a call of a balancer yields: a panic, or the Go pair `(index, error)`. -/
abbrev BalancerResult := Except GoPanic (Int × Option BalancerError)

/-- Go `Balancer`, `func(value any, buckets int) (int, error)`, over values of type `α`;
`σ` is the state the function value closes over (a shared hasher, a random source), passed
in and out explicitly. -/
abbrev Balancer (σ α : Type) := σ → α → Int → BalancerResult × σ

/-- Go `HostIDBalancer`. -/
def HostIDBalancer (value : Value) (buckets : Int) : BalancerResult :=
  match value with
  | .str host =>
    match ParseHostID host with
    | (_, some err) => .ok (0, some err)
    | (id, none) =>
      match goMod id buckets with
      | .error p => .error p
      | .ok i => .ok (i, none)
  | v => .ok (0, some (.mustBeString v))

/-- Go `HostIDBalancer` as a `Balancer` value: it closes over no state. -/
def hostIDBalancer : Balancer Unit Value := fun s value buckets =>
  (HostIDBalancer value buckets, s)

/-- Go `hash.Hash32` as used by the hash balancer: the hasher's states, the state `Reset`
puts it in (its initial state), `Write` and `Sum32` (a `uint32`, which does not change the
state). -/
structure Hash32 where
  State : Type
  init : State
  Write : State → GoString → State
  Sum32 : State → Nat

/-- Go `Hash.Reset`: back to the initial state. -/
def Hash32.Reset (H : Hash32) (_ : H.State) : H.State := H.init

/-- Go `fnv.New32()`: 32-bit FNV-1; `Write` does `hash *= prime32; hash ^= c` for each byte,
in `uint32` arithmetic. -/
def fnv32 : Hash32 where
  State := Nat
  init := 2166136261
  Write := fun s data => data.foldl (fun hash c => (hash * 16777619 % 2 ^ 32) ^^^ c.toNat) s
  Sum32 := fun s => s

/-- Go `NewHashBalancer(h)`, applied to the current state of the shared hasher `h`:
`defer h.Reset()` runs on every way out, a panic included; `int(h.Sum32())` is the
non-negative value of a `uint32` (`int` has 64 bits). -/
def NewHashBalancer (H : Hash32) : Balancer H.State Value := fun s value buckets =>
  match value with
  | .str str =>
    let s1 := H.Write s str
    match goMod ((H.Sum32 s1 % 2 ^ 32 : Nat) : Int) buckets with
    | .error p => (.error p, H.Reset s1)
    | .ok i => (.ok (i, none), H.Reset s1)
  | v => (.ok (0, some (.mustBeAString v)), H.Reset s)

/-- Go `NewQueryHostnameBalancer(next)`; `query.Hostname` on a nil pointer panics. -/
def NewQueryHostnameBalancer {σ : Type} (next : Balancer σ Value) : Balancer σ Value :=
  fun s value buckets =>
    match value with
    | .query (some query) => next s (.str query.Hostname) buckets
    | .query none => (.error .nilPointerDereference, s)
    | v => (.ok (0, some (.mustBeQuery v)), s)

/-! ## Package `main`: `Buckets` -/

/-- Go `fmt.Errorf("balancer failed to assign value '%v': %w", value, err)`: the value it
names and the balancer error it wraps. -/
structure AssignError (α : Type) where
  value : α
  cause : BalancerError
  deriving DecidableEq, Repr

/-- What `Buckets` yields when it returns: the Go pair `(buckets, error)`, with `none` for
the nil slice, and the state the balancer is left in. -/
structure BucketsResult (σ α : Type) where
  buckets : Option (List (List α))
  err : Option (AssignError α)
  state : σ
  deriving DecidableEq, Repr

/-- The loop of `Buckets` over the remaining values: call the balancer; on an error return
`nil` and the wrapped error; else `buckets[i] = append(buckets[i], value)`, where indexing
outside `buckets` panics. -/
def bucketsLoop {σ α : Type} (n : Int) (balance : Balancer σ α) :
    List α → List (List α) → σ → Except GoPanic (BucketsResult σ α)
  | [], buckets, s => .ok ⟨some buckets, none, s⟩
  | value :: rest, buckets, s =>
    match balance s value n with
    | (.error p, _) => .error p
    | (.ok (_, some err), s1) => .ok ⟨none, some ⟨value, err⟩, s1⟩
    | (.ok (i, none), s1) =>
      if i < 0 ∨ (buckets.length : Int) ≤ i then .error .indexOutOfRange
      else bucketsLoop n balance rest
        (buckets.set i.toNat (buckets.getD i.toNat [] ++ [value])) s1

/-- Go `Buckets`: `make([][]T, n)` panics for a negative `n`; then the loop.  The balancer
receives each value boxed as `any`, which the embedding leaves to the caller of
`Buckets`. -/
def Buckets {σ α : Type} (values : List α) (n : Int) (balance : Balancer σ α) (s : σ) :
    Except GoPanic (BucketsResult σ α) :=
  if n < 0 then .error .makeLenOutOfRange
  else bucketsLoop n balance values (List.replicate n.toNat []) s

/-- The results of the balancer called on each value in turn (whatever each call returns),
and the state it ends in. -/
def balanceAll {σ α : Type} (n : Int) (balance : Balancer σ α) :
    List α → σ → List BalancerResult × σ
  | [], s => ([], s)
  | value :: rest, s =>
    ((balance s value n).1 :: (balanceAll n balance rest (balance s value n).2).1,
      (balanceAll n balance rest (balance s value n).2).2)

/-- The index a balancer call assigned, if it returned one without error. -/
def assignedIndex : BalancerResult → Option Int
  | .ok (i, none) => some i
  | _ => none

/-- The values among `values` whose balancer call, listed in `results`, assigned index `i`,
in input order. -/
def assignedTo {α : Type} (values : List α) (results : List BalancerResult) (i : Int) :
    List α :=
  ((values.zip results).filter (fun p => decide (assignedIndex p.2 = some i))).map Prod.fst

/-- The balancer `Exec` builds: `NewQueryHostnameBalancer(NewHashBalancer(fnv.New32()))`,
called on queries boxed as `any`. -/
def execBalancer : Balancer fnv32.State (Option MinMaxCPUQuery) := fun s q buckets =>
  NewQueryHostnameBalancer (NewHashBalancer fnv32) s (.query q) buckets

/-- The dispatch step of `Exec`: `Buckets(queries, *concurrency, balancer)` with the
balancer over a new FNV hasher.  `Exec` returns the wrapped error when `Buckets` returns
one, and otherwise starts one worker per bucket. -/
def execDispatch (concurrency : Int) (queries : List (Option MinMaxCPUQuery)) :
    Except GoPanic (BucketsResult fnv32.State (Option MinMaxCPUQuery)) :=
  Buckets queries concurrency execBalancer fnv32.init

/-! ## Package `main`: aggregation of the results -/

/-- The `float32` instantiation `stats.Aggregator[float32]` used for the cost figures.  The
embedding leaves floating-point arithmetic abstract: the type of cost values, the states of
the aggregator, `NewAggregator` and `Push` are parameters. -/
structure CostOps where
  Cost : Type
  Agg : Type
  new : Agg
  push : Agg → Cost → Agg

/-- Go `device.QueryStats`. -/
structure QueryStats (F : CostOps) where
  ExecutionTime : Int
  Cost : F.Cost

/-- The errors `MinMaxCPUQuery.ExplainAnalyze` returns, each with a nil `*QueryStats`:
the query failed, a row did not scan, the plan did not parse, or there was not exactly one
plan. -/
inductive ExecError where
  | query
  | scan
  | parsePlan
  | planCount (n : Int)
  deriving DecidableEq, Repr

/-- Go `QueryExecutionResult` (without the unused `Results` field); `Stats` is a pointer,
nil when the executor failed. -/
structure QueryExecutionResult (F : CostOps) where
  Query : Option MinMaxCPUQuery
  Stats : Option (QueryStats F)
  Error : Option ExecError
  Worker : Int

/-- The result `queryWorker` builds from what `ExplainAnalyze` returned for a query of its
bucket: `&QueryExecutionResult{Query: query, Stats: stats, Error: err, Worker: bucket}`. -/
def workerResult (F : CostOps) (query : MinMaxCPUQuery) (bucket : Int)
    (stats : Option (QueryStats F)) (err : Option ExecError) : QueryExecutionResult F :=
  ⟨some query, stats, err, bucket⟩

/-- Go `BenchmarkStats`; the per-worker slices hold pointers, nil until the worker's first
result. -/
structure BenchmarkStats (F : CostOps) where
  ExecTimeGlobal : Aggregator
  ExecTimeByWorker : List (Option Aggregator)
  CostGlobal : F.Agg
  CostByWorker : List (Option F.Agg)

/-- The loop of `aggregateStats` over the results received until the channel is closed
(printing the result is left out).  `result.Stats.ExecutionTime` dereferences `Stats`, and
`execTimeWorkers[result.Worker]`, `costWorkers[result.Worker]` index the per-worker
slices. -/
def aggregateLoop (F : CostOps) :
    List (QueryExecutionResult F) → BenchmarkStats F → Except GoPanic (BenchmarkStats F)
  | [], st => .ok st
  | result :: rest, st =>
    match result.Stats with
    | none => .error .nilPointerDereference
    | some stats =>
      match st.ExecTimeGlobal.Push int64 stats.ExecutionTime with
      | .error p => .error p
      | .ok execTimeGlobal =>
        let costGlobal := F.push st.CostGlobal stats.Cost
        if result.Worker < 0 ∨ (st.ExecTimeByWorker.length : Int) ≤ result.Worker then
          .error .indexOutOfRange
        else
          let workerTime :=
            (st.ExecTimeByWorker.getD result.Worker.toNat none).getD NewAggregator
          match workerTime.Push int64 stats.ExecutionTime with
          | .error p => .error p
          | .ok workerTime1 =>
            if result.Worker < 0 ∨ (st.CostByWorker.length : Int) ≤ result.Worker then
              .error .indexOutOfRange
            else
              let workerCost := (st.CostByWorker.getD result.Worker.toNat none).getD F.new
              aggregateLoop F rest
                ⟨execTimeGlobal, st.ExecTimeByWorker.set result.Worker.toNat (some workerTime1),
                  costGlobal,
                  st.CostByWorker.set result.Worker.toNat (some (F.push workerCost stats.Cost))⟩

/-- Go `aggregateStats`: new global aggregators, `make` of the two per-worker slices
(a panic for a negative `numWorkers`), then the loop. -/
def aggregateStats (F : CostOps) (numWorkers : Int) (results : List (QueryExecutionResult F)) :
    Except GoPanic (BenchmarkStats F) :=
  if numWorkers < 0 then .error .makeLenOutOfRange
  else aggregateLoop F results
    ⟨NewAggregator, List.replicate numWorkers.toNat none, F.new,
      List.replicate numWorkers.toNat none⟩

/-! ## Reference notions for the balancers -/

/-- A non-empty string of decimal digits. -/
def IsDecimal (s : GoString) : Prop := s ≠ [] ∧ ∀ ch ∈ s, isDigitByte ch = true

instance (s : GoString) : Decidable (IsDecimal s) := by
  unfold IsDecimal; exact inferInstance

/-- The number continued by a string of decimal digits, after the digits read so far
denote `n`. -/
def decimalFrom (n : Nat) (s : GoString) : Nat :=
  s.foldl (fun m ch => m * 10 + (ch.toNat - 48)) n

/-- The non-negative integer a string of decimal digits denotes. -/
def decimalValue (s : GoString) : Nat := decimalFrom 0 s

/-- The key without one leading `host_`. -/
def hostRemainder (key : GoString) : GoString := TrimPrefix key (goString "host_")

/-- The state of the shared hasher after a sequence of calls `(value, buckets)` of the
balancer built by `NewHashBalancer`, starting from the state `s`. -/
def hasherAfter (H : Hash32) (s : H.State) : List (Value × Int) → H.State
  | [] => s
  | call :: rest => hasherAfter H (NewHashBalancer H s call.1 call.2).2 rest

/-! ## Draining a heap -/

/-- The loop of the repository's heap test: `for h.Len() > 0 { popped = append(popped,
heap.Pop(h)) }`.  The first argument bounds the number of iterations; every iteration
removes one entry, so `h.Len()` iterations always suffice. -/
def popAllLoop : Nat → Heap → List Int → Except GoPanic (List Int)
  | 0, _, popped => .ok popped
  | fuel + 1, h, popped =>
    if 0 < h.Len then
      match heapPop h with
      | .error e => .error e
      | .ok (x, h2) => popAllLoop fuel h2 (popped ++ [x])
    else .ok popped

/-- Applying `heap.Pop` until the heap is empty; the popped values in the order they were
returned. -/
def popAll (h : Heap) : Except GoPanic (List Int) := popAllLoop h.Len h []

/-! ## Reference notions for the aggregation of results -/

/-- The execution times of the results that carry statistics, in stream order. -/
def execTimesOf (F : CostOps) (results : List (QueryExecutionResult F)) : List Int :=
  results.filterMap (fun r => r.Stats.map (fun stats => stats.ExecutionTime))

/-- The costs of the results that carry statistics, in stream order. -/
def costsOf (F : CostOps) (results : List (QueryExecutionResult F)) : List F.Cost :=
  results.filterMap (fun r => r.Stats.map (fun stats => stats.Cost))

/-- The results tagged with worker `w`, in stream order. -/
def taggedWith (F : CostOps) (w : Int) (results : List (QueryExecutionResult F)) :
    List (QueryExecutionResult F) :=
  results.filter (fun r => decide (r.Worker = w))

/-- A per-worker execution-time entry is as it must be for the pushed values `xs`: nil when
there are none, else the aggregator obtained by pushing `xs`, in order, into a new one. -/
def TimeEntry (entry : Option Aggregator) (xs : List Int) : Prop :=
  match entry with
  | none => xs = []
  | some a => xs ≠ [] ∧ Aggregator.pushAll int64 NewAggregator xs = .ok a

/-- A per-worker cost entry is as it must be for the pushed costs `cs`: nil when there are
none, else the aggregator obtained by pushing `cs`, in order, into a new one. -/
def CostEntry (F : CostOps) (entry : Option F.Agg) (cs : List F.Cost) : Prop :=
  match entry with
  | none => cs = []
  | some a => cs ≠ [] ∧ a = cs.foldl F.push F.new

/-- The `Count` a per-worker entry stands for (a nil entry is reported as an empty
aggregator). -/
def entryCount (entry : Option Aggregator) : Int :=
  match entry with
  | none => 0
  | some a => a.Count

/-- The statistics `st` are those of the results `pre` for `n` workers. -/
structure AggregatedInv (F : CostOps) (n : Nat) (st : BenchmarkStats F)
    (pre : List (QueryExecutionResult F)) : Prop where
  timeGlobal : Aggregator.pushAll int64 NewAggregator (execTimesOf F pre) = .ok st.ExecTimeGlobal
  costGlobal : st.CostGlobal = (costsOf F pre).foldl F.push F.new
  timeLen : st.ExecTimeByWorker.length = n
  costLen : st.CostByWorker.length = n
  timeEntry : ∀ w : Nat, w < n →
    TimeEntry (st.ExecTimeByWorker.getD w none) (execTimesOf F (taggedWith F (w : Int) pre))
  costEntry : ∀ w : Nat, w < n →
    CostEntry F (st.CostByWorker.getD w none) (costsOf F (taggedWith F (w : Int) pre))

/-! ## Package `main`: the worker and `Exec` -/

/-- What a worker does that other parties can see: a call of the executor
(`query.ExplainAnalyze(ctx, b.DB)`) and a result sent on the results channel. -/
inductive WorkerEvent (F : CostOps) where
  | executed (query : MinMaxCPUQuery)
  | published (result : QueryExecutionResult F)

/-- What a worker meets while it runs.  The worker of a bucket passes, for its item number
`i`, three points in time: `3*i`, when it is about to take the item; `3*i+1`, its first
`select`; `3*i+2`, its second `select`.  `done p` tells whether `ctx.Done()` is closed at
point `p`; `sendChosen i` tells which case Go picks in the second `select` of item `i` when
both the closed `ctx.Done()` and the send are ready; `explain i query` is what
`ExplainAnalyze` returns for the call on item `i`. -/
structure WorkerEnv (F : CostOps) where
  done : Nat → Bool
  sendChosen : Nat → Bool
  explain : Nat → MinMaxCPUQuery → Option (QueryStats F) × Option ExecError

/-- The cancellation signal stays set once it is set. -/
def WorkerEnv.Monotone {F : CostOps} (env : WorkerEnv F) : Prop :=
  ∀ p q, p ≤ q → env.done p = true → env.done q = true

/-- Go `BenchmarkCommand.queryWorker` on the items of its bucket from item number `i` on
(the queries of a bucket are non-nil pointers), as the sequence of its events:
`stats, err := query.ExplainAnalyze(ctx, b.DB)`, the result is built, then
`select { case <-ctx.Done(): return; default: }` and
`select { case <-ctx.Done(): return; case results <- result: }`; a send that is not
cancelled is taken to complete. -/
def queryWorker (F : CostOps) (env : WorkerEnv F) (bucket : Int) :
    Nat → List MinMaxCPUQuery → List (WorkerEvent F)
  | _, [] => []
  | i, query :: rest =>
    let result := workerResult F query bucket (env.explain i query).1 (env.explain i query).2
    .executed query ::
      (if env.done (3 * i + 1) = true then []
       else if env.done (3 * i + 2) = true ∧ env.sendChosen i = false then []
       else .published result :: queryWorker F env bucket (i + 1) rest)

/-- The executor calls among the events of a worker. -/
def executorCalls {F : CostOps} : List (WorkerEvent F) → List MinMaxCPUQuery
  | [] => []
  | .executed query :: rest => query :: executorCalls rest
  | .published _ :: rest => executorCalls rest

/-- The results published among the events of a worker. -/
def publishedResults {F : CostOps} : List (WorkerEvent F) → List (QueryExecutionResult F)
  | [] => []
  | .executed _ :: rest => publishedResults rest
  | .published result :: rest => result :: publishedResults rest

/-- Go `BenchmarkCommand`, of which the embedding keeps the `Concurrency` field ("the number
of workers to start"); the CSV file and the database stand behind the parsed queries and
the results. -/
structure BenchmarkCommand where
  Concurrency : Int
  deriving DecidableEq, Repr

/-- What a run of `Exec` set up and computed: the buckets, the number of workers started
(`for bucket, queries := range buckets` starts one per bucket) and the statistics. -/
structure ExecOutcome (F : CostOps) where
  buckets : List (List (Option MinMaxCPUQuery))
  workersStarted : Nat
  stats : BenchmarkStats F

/-- Go `BenchmarkCommand.Exec` after the CSV file was parsed into `queries`: `flag` is the
value of the package-level `concurrency` flag, `results` the sequence of results the fan-in
receives from the workers until the channel is closed.
`buckets, err := Buckets(queries, *concurrency, balancer)`; on an error `Exec` returns it
wrapped; else one worker per bucket is started and
`stats := aggregateStats(*concurrency, results)`.  The receiver `c` is not read for the
number of buckets, workers or statistics entries. -/
def Exec (F : CostOps) (_c : BenchmarkCommand) (flag : Int)
    (queries : List (Option MinMaxCPUQuery)) (results : List (QueryExecutionResult F)) :
    Except GoPanic (Except (AssignError (Option MinMaxCPUQuery)) (ExecOutcome F)) :=
  match execDispatch flag queries with
  | .error p => .error p
  | .ok ⟨_, some err, _⟩ => .ok (.error err)
  | .ok ⟨buckets, none, _⟩ =>
    match aggregateStats F flag results with
    | .error p => .error p
    | .ok stats => .ok (.ok ⟨buckets.getD [], (buckets.getD []).length, stats⟩)

/-! ## `float64` rounding -/

theorem log2Loop_spec : ∀ (fuel n : Nat), 0 < n → n < 2 ^ fuel →
    2 ^ log2Loop fuel n ≤ n ∧ n < 2 ^ (log2Loop fuel n + 1) := by
  intro fuel
  induction fuel with
  | zero => intro n h0 h; simp at h; omega
  | succ f ih =>
    intro n h0 h
    unfold log2Loop
    by_cases h2 : n < 2
    · rw [if_pos h2]; simp; omega
    · rw [if_neg h2]
      have hlt : n / 2 < 2 ^ f := by
        rw [pow_succ] at h; omega
      obtain ⟨l, u⟩ := ih (n / 2) (by omega) hlt
      constructor
      · rw [pow_succ]; omega
      · rw [pow_succ]; omega

theorem log2Floor_spec {n : Nat} (h0 : 0 < n) :
    2 ^ log2Floor n ≤ n ∧ n < 2 ^ (log2Floor n + 1) :=
  log2Loop_spec n n h0 (Nat.lt_two_pow n)

theorem roundHalfEven_of_dvd {n d : Nat} (hd : 0 < d) (h : d ∣ n) :
    roundHalfEven n d = n / d := by
  unfold roundHalfEven
  have : n % d = 0 := Nat.mod_eq_zero_of_dvd h
  simp [this, hd]

theorem roundHalfEven_error {n d : Nat} (hd : 0 < d) :
    |((roundHalfEven n d : Nat) : ℚ) - (n : ℚ) / (d : ℚ)| ≤ 1 / 2 := by
  have hdq : (0 : ℚ) < (d : ℚ) := by exact_mod_cast hd
  have hn : (n : ℚ) = (d : ℚ) * ((n / d : Nat) : ℚ) + ((n % d : Nat) : ℚ) := by
    exact_mod_cast (Nat.div_add_mod n d).symm
  have hr : n % d < d := Nat.mod_lt _ hd
  have hrq : ((n % d : Nat) : ℚ) < (d : ℚ) := by exact_mod_cast hr
  have hr0 : (0 : ℚ) ≤ ((n % d : Nat) : ℚ) := by positivity
  have key : (n : ℚ) / (d : ℚ) = ((n / d : Nat) : ℚ) + ((n % d : Nat) : ℚ) / (d : ℚ) := by
    rw [hn]; field_simp; ring
  unfold roundHalfEven
  simp only
  rw [key]
  have hfrac : ((n % d : Nat) : ℚ) / (d : ℚ) < 1 := by rw [div_lt_one hdq]; exact hrq
  have hfrac0 : 0 ≤ ((n % d : Nat) : ℚ) / (d : ℚ) := by positivity
  split_ifs with h1 h2 h3
  · have : (2 : ℚ) * ((n % d : Nat) : ℚ) < (d : ℚ) := by exact_mod_cast h1
    have : ((n % d : Nat) : ℚ) / (d : ℚ) < 1 / 2 := by
      rw [div_lt_iff₀ hdq]; linarith
    rw [abs_le]; constructor <;> linarith
  · have : (d : ℚ) < (2 : ℚ) * ((n % d : Nat) : ℚ) := by exact_mod_cast h2
    have : 1 / 2 < ((n % d : Nat) : ℚ) / (d : ℚ) := by
      rw [lt_div_iff₀ hdq]; linarith
    push_cast
    rw [abs_le]; constructor <;> linarith
  · have e : 2 * (n % d) = d := by omega
    have : (2 : ℚ) * ((n % d : Nat) : ℚ) = (d : ℚ) := by exact_mod_cast e
    have : ((n % d : Nat) : ℚ) / (d : ℚ) = 1 / 2 := by
      rw [div_eq_iff (ne_of_gt hdq)]; linarith
    rw [abs_le]; constructor <;> linarith
  · have e : 2 * (n % d) = d := by omega
    have : (2 : ℚ) * ((n % d : Nat) : ℚ) = (d : ℚ) := by exact_mod_cast e
    have : ((n % d : Nat) : ℚ) / (d : ℚ) = 1 / 2 := by
      rw [div_eq_iff (ne_of_gt hdq)]; linarith
    push_cast
    rw [abs_le]; constructor <;> linarith

theorem roundRatio_scale {n den : Nat} (hn : 0 < n) (hd : 0 < den) :
    2 ^ 52 * (den * 2 ^ log2Floor n) ≤
      n * 2 ^ (52 + log2Floor den +
        (if n * 2 ^ log2Floor den < den * 2 ^ log2Floor n then 1 else 0)) := by
  obtain ⟨la, ua⟩ := log2Floor_spec hn
  obtain ⟨lb, ub⟩ := log2Floor_spec hd
  split_ifs with h
  · have e : n * 2 ^ (52 + log2Floor den + 1) = 2 ^ 52 * (n * 2 ^ (log2Floor den + 1)) := by
      rw [show 52 + log2Floor den + 1 = 52 + (log2Floor den + 1) by omega, pow_add]; ring
    rw [e]
    apply Nat.mul_le_mul_left
    calc den * 2 ^ log2Floor n ≤ 2 ^ (log2Floor den + 1) * n :=
          Nat.mul_le_mul (le_of_lt ub) la
      _ = n * 2 ^ (log2Floor den + 1) := by ring
  · have e : n * 2 ^ (52 + log2Floor den + 0) = 2 ^ 52 * (n * 2 ^ log2Floor den) := by
      rw [Nat.add_zero, pow_add]; ring
    rw [e]
    apply Nat.mul_le_mul_left
    omega

theorem roundRatio_toRat {num : Int} {den : Nat} (hnum : num ≠ 0) (hd : 0 < den) :
    ∃ m up a : Nat,
      (roundRatio num den).toRat =
        (if num < 0 then -1 else 1) * ((m : ℚ) * (2 : ℚ) ^ a / (2 : ℚ) ^ up) ∧
      m = roundHalfEven (num.natAbs * 2 ^ up) (den * 2 ^ a) ∧
      2 ^ 52 * (den * 2 ^ a) ≤ num.natAbs * 2 ^ up := by
  have hn : 0 < num.natAbs := Int.natAbs_pos.mpr hnum
  refine ⟨_, _, _, ?_, rfl, roundRatio_scale hn hd⟩
  unfold roundRatio
  rw [if_neg (by omega)]
  simp only [GoFloat64.toRat]
  rw [zpow_sub₀ (by norm_num : (2 : ℚ) ≠ 0), zpow_natCast, zpow_natCast]
  split_ifs <;> simp only [Int.cast_neg, Int.cast_natCast] <;> ring

theorem natAbs_cast_rat (num : Int) :
    (num : ℚ) = (if num < 0 then -1 else 1) * ((num.natAbs : Nat) : ℚ) := by
  split_ifs with h
  · have : num = -((num.natAbs : Nat) : Int) := by omega
    have h2 : (num : ℚ) = -(((num.natAbs : Nat) : Int) : ℚ) := by exact_mod_cast this
    rw [h2, Int.cast_natCast]; ring
  · have : num = ((num.natAbs : Nat) : Int) := by omega
    have h2 : (num : ℚ) = (((num.natAbs : Nat) : Int) : ℚ) := by exact_mod_cast this
    rw [h2, Int.cast_natCast]; ring

theorem roundRatio_error (num : Int) {den : Nat} (hd : 0 < den) :
    |(roundRatio num den).toRat - (num : ℚ) / (den : ℚ)| ≤ |(num : ℚ) / (den : ℚ)| / 2 ^ 53 := by
  by_cases hnum : num = 0
  · subst hnum; simp [roundRatio, GoFloat64.toRat]
  obtain ⟨m, up, a, hv, hm, hs⟩ := roundRatio_toRat hnum hd
  have hdq : (0 : ℚ) < (den : ℚ) := by exact_mod_cast hd
  have hD : 0 < den * 2 ^ a := Nat.mul_pos hd (by positivity)
  have hDq : (0 : ℚ) < (den : ℚ) * (2 : ℚ) ^ a := by positivity
  have herr := roundHalfEven_error (n := num.natAbs * 2 ^ up) hD
  rw [← hm] at herr
  push_cast at herr
  have hsq : (2 : ℚ) ^ 52 * ((den : ℚ) * (2 : ℚ) ^ a) ≤ ((num.natAbs : Nat) : ℚ) * (2 : ℚ) ^ up := by
    exact_mod_cast hs
  set n : ℚ := ((num.natAbs : Nat) : ℚ) with hn
  set t : ℚ := (2 : ℚ) ^ a / (2 : ℚ) ^ up with ht
  have htpos : 0 < t := by positivity
  have hx : n * (2 : ℚ) ^ up / ((den : ℚ) * (2 : ℚ) ^ a) * t = n / (den : ℚ) := by
    rw [ht]; field_simp; ring
  have hge : (2 : ℚ) ^ 52 ≤ n * (2 : ℚ) ^ up / ((den : ℚ) * (2 : ℚ) ^ a) := by
    rw [le_div_iff₀ hDq]; exact hsq
  have hn0 : 0 ≤ n / (den : ℚ) := by positivity
  have hsgn : |(if num < 0 then (-1 : ℚ) else 1)| = 1 := by split_ifs <;> simp
  have e1 : (roundRatio num den).toRat - (num : ℚ) / (den : ℚ) =
      (if num < 0 then (-1 : ℚ) else 1) *
        (((m : ℚ) - n * (2 : ℚ) ^ up / ((den : ℚ) * (2 : ℚ) ^ a)) * t) := by
    rw [hv, natAbs_cast_rat num, ← hn]
    have hx2 := hx.symm
    rw [ht] at hx2 ⊢
    generalize (if num < 0 then (-1 : ℚ) else 1) = s
    linear_combination (-s) * hx2
  have e2 : |(num : ℚ) / (den : ℚ)| = n / (den : ℚ) := by
    rw [natAbs_cast_rat num, ← hn, mul_div_assoc, abs_mul, hsgn, one_mul, abs_of_nonneg hn0]
  rw [e1, e2, abs_mul, hsgn, one_mul, abs_mul, abs_of_pos htpos, ← hx]
  have : |(m : ℚ) - n * (2 : ℚ) ^ up / ((den : ℚ) * (2 : ℚ) ^ a)| * t ≤ 1 / 2 * t :=
    mul_le_mul_of_nonneg_right herr (le_of_lt htpos)
  have h3 : (1 : ℚ) / 2 * t ≤ n * (2 : ℚ) ^ up / ((den : ℚ) * (2 : ℚ) ^ a) * t / 2 ^ 53 := by
    rw [mul_div_right_comm]
    apply mul_le_mul_of_nonneg_right _ (le_of_lt htpos)
    rw [le_div_iff₀ (by positivity)]
    calc (1 : ℚ) / 2 * 2 ^ 53 = 2 ^ 52 := by norm_num
      _ ≤ _ := hge
  linarith

theorem roundRatio_exact {num : Int} {den : Nat} (hd : 0 < den) (z : Int) (r : Nat)
    (hz : z.natAbs < 2 ^ 53) (hq : num * 2 ^ r = z * (den : Int)) :
    (roundRatio num den).toRat = (num : ℚ) / (den : ℚ) := by
  by_cases hnum : num = 0
  · subst hnum; simp [roundRatio, GoFloat64.toRat]
  obtain ⟨m, up, a, hv, hm, hs⟩ := roundRatio_toRat hnum hd
  have hdq : (0 : ℚ) < (den : ℚ) := by exact_mod_cast hd
  have hD : 0 < den * 2 ^ a := Nat.mul_pos hd (by positivity)
  -- in naturals: `n * 2 ^ r = Z * den`
  have hq2 : num.natAbs * 2 ^ r = z.natAbs * den := by
    have := congrArg Int.natAbs hq
    simpa [Int.natAbs_mul, Int.natAbs_pow] using this
  -- the scaled significand has at least 53 bits, so `a + r ≤ up`
  have hle : a + r ≤ up := by
    by_contra hcon
    have hup : up + 1 ≤ a + r := by omega
    have h1 : 2 ^ 52 * (den * 2 ^ a) * 2 ^ r ≤ num.natAbs * 2 ^ up * 2 ^ r :=
      Nat.mul_le_mul_right _ hs
    have h2 : num.natAbs * 2 ^ up * 2 ^ r = z.natAbs * den * 2 ^ up := by
      rw [← hq2]; ring
    have h3 : z.natAbs * den * 2 ^ up < 2 ^ 53 * den * 2 ^ up := by
      apply Nat.mul_lt_mul_of_pos_right _ (by positivity)
      exact Nat.mul_lt_mul_of_pos_right hz hd
    have h4 : 2 ^ 53 * den * 2 ^ up ≤ 2 ^ 52 * (den * 2 ^ a) * 2 ^ r := by
      have : 2 ^ (up + 1) ≤ 2 ^ (a + r) := Nat.pow_le_pow_right (by norm_num) hup
      calc 2 ^ 53 * den * 2 ^ up = 2 ^ 52 * den * 2 ^ (up + 1) := by rw [pow_succ]; ring
        _ ≤ 2 ^ 52 * den * 2 ^ (a + r) := Nat.mul_le_mul_left _ this
        _ = 2 ^ 52 * (den * 2 ^ a) * 2 ^ r := by rw [pow_add]; ring
    omega
  have hdvd : den * 2 ^ a ∣ num.natAbs * 2 ^ up := by
    refine ⟨z.natAbs * 2 ^ (up - r - a), ?_⟩
    have e : up = r + (up - r - a) + a := by omega
    calc num.natAbs * 2 ^ up = num.natAbs * 2 ^ (r + (up - r - a) + a) := by rw [← e]
      _ = (num.natAbs * 2 ^ r) * 2 ^ (up - r - a) * 2 ^ a := by rw [pow_add, pow_add]; ring
      _ = den * 2 ^ a * (z.natAbs * 2 ^ (up - r - a)) := by rw [hq2]; ring
  have hm2 : (m : ℚ) = ((num.natAbs : Nat) : ℚ) * (2 : ℚ) ^ up / ((den : ℚ) * (2 : ℚ) ^ a) := by
    rw [hm, roundHalfEven_of_dvd hD hdvd, Nat.cast_div hdvd (by exact_mod_cast (ne_of_gt hD))]
    push_cast; rfl
  rw [hv, hm2]
  conv_rhs => rw [natAbs_cast_rat num]
  generalize (if num < 0 then (-1 : ℚ) else 1) = s
  field_simp
  ring

theorem two_zpow_of_nonneg {c : Int} (h : 0 ≤ c) : (2 : ℚ) ^ c = (2 : ℚ) ^ c.toNat := by
  conv_lhs => rw [← Int.toNat_of_nonneg h]
  exact zpow_natCast _ _

theorem two_zpow_of_neg {c : Int} (h : c < 0) : (2 : ℚ) ^ c = 1 / (2 : ℚ) ^ (-c).toNat := by
  have : c = -((-c).toNat : Int) := by omega
  conv_lhs => rw [this]
  rw [zpow_neg, zpow_natCast, one_div]

/-- `roundScaled s c` is the rounding of the rational `s * 2 ^ c`. -/
theorem roundScaled_spec (s c : Int) :
    ∃ (N : Int) (D : Nat), 0 < D ∧ roundScaled s c = roundRatio N D ∧
      (N : ℚ) / (D : ℚ) = (s : ℚ) * (2 : ℚ) ^ c := by
  unfold roundScaled
  by_cases h : 0 ≤ c
  · rw [if_pos h]
    refine ⟨s * 2 ^ c.toNat, 1, by norm_num, rfl, ?_⟩
    rw [two_zpow_of_nonneg h]; push_cast; ring
  · rw [if_neg h]
    refine ⟨s, 2 ^ (-c).toNat, by positivity, rfl, ?_⟩
    rw [two_zpow_of_neg (by omega)]; push_cast; ring

/-- `float64Add x y` is the rounding of the exact sum. -/
theorem float64Add_spec (x y : GoFloat64) :
    ∃ (N : Int) (D : Nat), 0 < D ∧ float64Add x y = roundRatio N D ∧
      (N : ℚ) / (D : ℚ) = x.toRat + y.toRat := by
  obtain ⟨N, D, hD, e, hv⟩ := roundScaled_spec
    (x.mant * 2 ^ (x.exp - min x.exp y.exp).toNat + y.mant * 2 ^ (y.exp - min x.exp y.exp).toNat)
    (min x.exp y.exp)
  refine ⟨N, D, hD, e, ?_⟩
  rw [hv]
  have h2 : (2 : ℚ) ≠ 0 := by norm_num
  have hx : (0 : Int) ≤ x.exp - min x.exp y.exp := by have := min_le_left x.exp y.exp; omega
  have hy : (0 : Int) ≤ y.exp - min x.exp y.exp := by have := min_le_right x.exp y.exp; omega
  have ex : (2 : ℚ) ^ (x.exp - min x.exp y.exp).toNat * (2 : ℚ) ^ (min x.exp y.exp) = (2 : ℚ) ^ x.exp := by
    rw [← two_zpow_of_nonneg hx, ← zpow_add₀ h2]; congr 1; omega
  have ey : (2 : ℚ) ^ (y.exp - min x.exp y.exp).toNat * (2 : ℚ) ^ (min x.exp y.exp) = (2 : ℚ) ^ y.exp := by
    rw [← two_zpow_of_nonneg hy, ← zpow_add₀ h2]; congr 1; omega
  simp only [GoFloat64.toRat]
  rw [← ex, ← ey]
  push_cast
  ring

/-- `float64Div x y` is the rounding of the exact quotient. -/
theorem float64Div_spec (x y : GoFloat64) (hy : y.mant ≠ 0) :
    ∃ (N : Int) (D : Nat), 0 < D ∧ float64Div x y = roundRatio N D ∧
      (N : ℚ) / (D : ℚ) = x.toRat / y.toRat := by
  have h2 : (2 : ℚ) ≠ 0 := by norm_num
  have hden : 0 < y.mant.natAbs := Int.natAbs_pos.mpr hy
  have hyq : (y.mant : ℚ) ≠ 0 := by exact_mod_cast hy
  have hdq : ((y.mant.natAbs : Nat) : ℚ) ≠ 0 := by exact_mod_cast (ne_of_gt hden)
  have hq : ((if y.mant < 0 then -x.mant else x.mant : Int) : ℚ) / ((y.mant.natAbs : Nat) : ℚ)
      = (x.mant : ℚ) / (y.mant : ℚ) := by
    rw [div_eq_div_iff hdq hyq]
    rw [natAbs_cast_rat y.mant]
    split_ifs <;> push_cast <;> ring
  have hval : x.toRat / y.toRat = (x.mant : ℚ) / (y.mant : ℚ) * (2 : ℚ) ^ (x.exp - y.exp) := by
    simp only [GoFloat64.toRat]
    rw [zpow_sub₀ h2]
    field_simp
  unfold float64Div
  simp only
  by_cases h : 0 ≤ x.exp - y.exp
  · rw [if_pos h]
    refine ⟨_, _, hden, rfl, ?_⟩
    rw [hval, ← hq, two_zpow_of_nonneg h]; push_cast; ring
  · rw [if_neg h]
    refine ⟨_, _, Nat.mul_pos hden (by positivity), rfl, ?_⟩
    rw [hval, ← hq, two_zpow_of_neg (by omega)]; push_cast
    field_simp

/-- A rounding is exact on a dyadic rational with a significand below `2^53`. -/
theorem roundRatio_exact_rat {N : Int} {D : Nat} (hD : 0 < D) (z : Int) (r : Nat)
    (hz : z.natAbs < 2 ^ 53) (hq : (N : ℚ) / (D : ℚ) = (z : ℚ) / (2 : ℚ) ^ r) :
    (roundRatio N D).toRat = (N : ℚ) / (D : ℚ) := by
  apply roundRatio_exact hD z r hz
  have hDq : (D : ℚ) ≠ 0 := by exact_mod_cast (ne_of_gt hD)
  have h2 : ((2 : ℚ) ^ r) ≠ 0 := by positivity
  rw [div_eq_div_iff hDq h2] at hq
  exact_mod_cast hq

theorem float64OfInt_exact {x : Int} (hx : x.natAbs < 2 ^ 53) :
    (float64OfInt x).toRat = (x : ℚ) := by
  have := @roundRatio_exact x 1 (by norm_num) x 0 hx (by simp)
  simpa [float64OfInt] using this

theorem float64Add_exact (x y : GoFloat64) (z : Int) (r : Nat) (hz : z.natAbs < 2 ^ 53)
    (hq : x.toRat + y.toRat = (z : ℚ) / (2 : ℚ) ^ r) :
    (float64Add x y).toRat = x.toRat + y.toRat := by
  obtain ⟨N, D, hD, e, hv⟩ := float64Add_spec x y
  rw [e, ← hv]
  exact roundRatio_exact_rat hD z r hz (hv.trans hq)

theorem float64Div_exact (x y : GoFloat64) (hy : y.mant ≠ 0) (z : Int) (r : Nat)
    (hz : z.natAbs < 2 ^ 53) (hq : x.toRat / y.toRat = (z : ℚ) / (2 : ℚ) ^ r) :
    (float64Div x y).toRat = x.toRat / y.toRat := by
  obtain ⟨N, D, hD, e, hv⟩ := float64Div_spec x y hy
  rw [e, ← hv]
  exact roundRatio_exact_rat hD z r hz (hv.trans hq)

theorem float64Div_error (x y : GoFloat64) (hy : y.mant ≠ 0) :
    |(float64Div x y).toRat - x.toRat / y.toRat| ≤ |x.toRat / y.toRat| / 2 ^ 53 := by
  obtain ⟨N, D, hD, e, hv⟩ := float64Div_spec x y hy
  rw [e, ← hv]
  exact roundRatio_error N hD

theorem float64OfInt_mant_ne_zero {x : Int} (hx : x ≠ 0) (hb : x.natAbs < 2 ^ 53) :
    (float64OfInt x).mant ≠ 0 := by
  intro h
  have := float64OfInt_exact hb
  rw [GoFloat64.toRat, h] at this
  simp at this
  exact hx (by exact_mod_cast this.symm)

theorem float64OfInt_two : (float64OfInt 2).mant ≠ 0 := by decide

/-- The `float64` expression of `Median()` for two middle values below `2^52` in magnitude
is exact. -/
theorem float64_mean_exact {a b : Int} (ha : a.natAbs < 2 ^ 52) (hb : b.natAbs < 2 ^ 52) :
    (float64Div (float64Add (float64OfInt a) (float64OfInt b)) (float64OfInt 2)).toRat =
      ((a : ℚ) + (b : ℚ)) / 2 := by
  have ea : (float64OfInt a).toRat = (a : ℚ) := float64OfInt_exact (by omega)
  have eb : (float64OfInt b).toRat = (b : ℚ) := float64OfInt_exact (by omega)
  have e2 : (float64OfInt 2).toRat = ((2 : Int) : ℚ) := float64OfInt_exact (by decide)
  have hz : (a + b).natAbs < 2 ^ 53 := by omega
  have es : (float64Add (float64OfInt a) (float64OfInt b)).toRat = (a : ℚ) + (b : ℚ) := by
    rw [float64Add_exact _ _ (a + b) 0 hz (by rw [ea, eb]; push_cast; ring), ea, eb]
  rw [float64Div_exact _ _ float64OfInt_two (a + b) 1 hz (by rw [es, e2]; push_cast; ring),
    es, e2]
  push_cast
  ring

/-! ## Lemmas on `genheap` and `container/heap` -/

theorem Heap.length_Swap (h : Heap) (i j : Nat) : (h.Swap i j).length = h.length := by
  simp [Heap.Swap]

theorem Heap.getD_Swap (h : Heap) (i j k : Nat) (hi : i < h.length) (hj : j < h.length) :
    (h.Swap i j).getD k 0 =
      if k = j then h.getD i 0 else if k = i then h.getD j 0 else h.getD k 0 := by
  unfold Heap.Swap
  simp only [List.getD_eq_getElem?_getD, List.getElem?_set, List.length_set]
  by_cases h1 : k = j
  · subst h1; simp [hj]
  · by_cases h2 : k = i
    · subst h2; simp [hi, h1, Ne.symm h1]
    · simp [h1, h2, Ne.symm h1, Ne.symm h2]

theorem Heap.Swap_perm (h : Heap) (i j : Nat) (hi : i < h.length) (hj : j < h.length) :
    (h.Swap i j).Perm h := by
  by_cases hij : i = j
  · subst hij
    unfold Heap.Swap
    have e : h.set i h[i] = h := by
      apply List.ext_getElem (by simp)
      intro n h1 h2
      rw [List.getElem_set]
      split
      · rename_i hn; subst hn; rfl
      · rfl
    simp [List.getD_eq_getElem, hi, e]
  · rw [List.perm_iff_count]
    intro b
    unfold Heap.Swap
    rw [List.count_set _ _ _ _ (by simpa using hj), List.count_set _ _ _ _ hi]
    have hA : (if (h[i] == b) = true then 1 else 0) ≤ List.count b h := by
      split
      · rename_i hb
        have : b ∈ h := by
          have : h[i] = b := by simpa using hb
          exact this ▸ List.getElem_mem _
        exact List.count_pos_iff.mpr this
      · exact Nat.zero_le _
    simp only [List.getD_eq_getElem _ _ hi, List.getD_eq_getElem _ _ hj, List.getElem_set, hij, if_false]
    omega


/-- More iterations than `j` do not change the result of the loop of `heap.up`: the bound
on the iterations is never what stops it. -/
theorem upLoop_fuel : ∀ (f1 f2 : Nat) (h : Heap) (j : Nat), j ≤ f1 → j ≤ f2 →
    upLoop f1 h j = upLoop f2 h j := by
  intro f1
  induction f1 with
  | zero =>
    intro f2 h j h1 _
    have hj : j = 0 := by omega
    subst hj
    cases f2 with
    | zero => rfl
    | succ f => simp [upLoop]
  | succ f ih =>
    intro f2 h j h1 h2
    cases f2 with
    | zero =>
      have hj : j = 0 := by omega
      subst hj
      simp [upLoop]
    | succ g =>
      simp only [upLoop]
      split
      · rfl
      · rename_i hc
        have hij : (j - 1) / 2 ≠ j := fun e => hc (Or.inl e)
        exact ih g _ _ (by omega) (by omega)

theorem upLoop_length : ∀ (fuel : Nat) (h : Heap) (j : Nat),
    (upLoop fuel h j).length = h.length := by
  intro fuel
  induction fuel with
  | zero => intro h j; rfl
  | succ f ih =>
    intro h j
    simp only [upLoop]
    split
    · rfl
    · rw [ih, Heap.length_Swap]

theorem upLoop_perm : ∀ (fuel : Nat) (h : Heap) (j : Nat), j < h.length →
    (upLoop fuel h j).Perm h := by
  intro fuel
  induction fuel with
  | zero => intro h j _; exact List.Perm.refl _
  | succ f ih =>
    intro h j hj
    simp only [upLoop]
    split
    · exact List.Perm.refl _
    · have hi : (j - 1) / 2 < h.length := by omega
      exact (ih _ _ (by rw [Heap.length_Swap]; exact hi)).trans (Heap.Swap_perm h _ _ hi hj)

theorem upLoop_isHeap : ∀ (fuel : Nat) (h : Heap) (j : Nat), j ≤ fuel → j < h.length →
    (∀ k p, 0 < k → k < h.length → p = (k - 1) / 2 → k ≠ j → h.getD p 0 ≤ h.getD k 0) →
    (∀ k g, 0 < j → 0 < k → k < h.length → j = (k - 1) / 2 → g = (j - 1) / 2 →
      h.getD g 0 ≤ h.getD k 0) →
    IsHeap (upLoop fuel h j) := by
  intro fuel
  induction fuel with
  | zero =>
    intro h j hf hj h1 _ k p hk hkn hp _
    exact h1 k p hk hkn hp (by omega)
  | succ f ih =>
    intro h j hf hj h1 h2
    simp only [upLoop]
    split
    · rename_i hc
      intro k p hk hkn hp _
      by_cases hkj : k = j
      · subst hkj
        rcases hc with hc | hc
        · omega
        · subst hp
          simpa [Heap.Less] using hc
      · exact h1 k p hk hkn hp hkj
    · rename_i hc
      have hij : (j - 1) / 2 ≠ j := fun e => hc (Or.inl e)
      have hlt : h.getD j 0 < h.getD ((j - 1) / 2) 0 := by
        have : ¬ h.Less j ((j - 1) / 2) = false := fun e => hc (Or.inr e)
        simpa [Heap.Less] using this
      have hi : (j - 1) / 2 < h.length := by omega
      have hlen := Heap.length_Swap h ((j - 1) / 2) j
      apply ih _ _ (by omega) (by omega)
      · intro k p hk hkn hp hki
        rw [hlen] at hkn
        rw [Heap.getD_Swap h _ _ p hi hj, Heap.getD_Swap h _ _ k hi hj]
        by_cases e1 : k = j
        · have e2 : p = (j - 1) / 2 := by omega
          have e3 : p ≠ j := by omega
          simp only [e1, e2, if_true, if_neg hij]
          omega
        · by_cases e2 : p = j
          · have := h2 k ((j - 1) / 2) (by omega) hk hkn (by omega) rfl
            simp only [if_neg e1, if_neg hki, e2, if_true]
            exact this
          · by_cases e3 : p = (j - 1) / 2
            · have := h1 k p hk hkn hp e1
              simp only [if_neg e1, if_neg hki, if_neg e2, e3, if_true]
              rw [e3] at this
              omega
            · have := h1 k p hk hkn hp e1
              simp only [if_neg e1, if_neg hki, if_neg e2, if_neg e3]
              exact this
      · intro k g hi0 hk hkn hkp hg
        rw [hlen] at hkn
        rw [Heap.getD_Swap h _ _ g hi hj, Heap.getD_Swap h _ _ k hi hj]
        have g1 : g ≠ j := by omega
        have g2 : g ≠ (j - 1) / 2 := by omega
        have k2 : k ≠ (j - 1) / 2 := by omega
        have hgi := h1 ((j - 1) / 2) g (by omega) hi hg hij
        by_cases e1 : k = j
        · simp only [e1, if_true, if_neg g1, if_neg g2]
          exact hgi
        · have := h1 k ((j - 1) / 2) hk hkn hkp e1
          simp only [if_neg e1, if_neg k2, if_neg g1, if_neg g2]
          omega


/-- The child chosen by one iteration of `heap.down` at `i`: the right child when it exists
and is smaller than the left one, else the left child. -/
theorem down_child (h : Heap) (i n : Nat) (hn : ¬ n ≤ 2 * i + 1) :
    ∀ j, (if 2 * i + 1 + 1 < n ∧ h.Less (2 * i + 1 + 1) (2 * i + 1) = true
        then 2 * i + 1 + 1 else 2 * i + 1) = j →
      (j = 2 * i + 1 ∨ j = 2 * i + 2) ∧ j < n ∧
      ∀ k, k < n → i = (k - 1) / 2 → 0 < k → h.getD j 0 ≤ h.getD k 0 := by
  intro j hj
  split at hj
  · rename_i hc
    have hl : h.getD (2 * i + 1 + 1) 0 < h.getD (2 * i + 1) 0 := by
      simpa [Heap.Less] using hc.2
    subst hj
    refine ⟨Or.inr rfl, hc.1, ?_⟩
    intro k hk hp hk0
    have : k = 2 * i + 1 ∨ k = 2 * i + 1 + 1 := by omega
    rcases this with e | e
    · subst e; omega
    · subst e; exact le_refl _
  · rename_i hc
    subst hj
    refine ⟨Or.inl rfl, by omega, ?_⟩
    intro k hk hp hk0
    have : k = 2 * i + 1 ∨ k = 2 * i + 1 + 1 := by omega
    rcases this with e | e
    · subst e; exact le_refl _
    · subst e
      have : ¬ h.Less (2 * i + 1 + 1) (2 * i + 1) = true := fun e => hc ⟨hk, e⟩
      simpa [Heap.Less] using this

/-- More iterations than `n - i` do not change the result of the loop of `heap.down`: the
bound on the iterations is never what stops it. -/
theorem downLoop_fuel : ∀ (f1 f2 : Nat) (h : Heap) (i n : Nat), n ≤ i + f1 → n ≤ i + f2 →
    downLoop f1 h i n = downLoop f2 h i n := by
  intro f1
  induction f1 with
  | zero =>
    intro f2 h i n h1 _
    cases f2 with
    | zero => rfl
    | succ f =>
      simp only [downLoop]
      rw [if_pos (by omega)]
  | succ f ih =>
    intro f2 h i n h1 h2
    cases f2 with
    | zero =>
      simp only [downLoop]
      rw [if_pos (by omega)]
    | succ g =>
      simp only [downLoop]
      by_cases hc : n ≤ 2 * i + 1
      · rw [if_pos hc, if_pos hc]
      · rw [if_neg hc, if_neg hc]
        obtain ⟨hj1, -, -⟩ := down_child h i n hc _ rfl
        generalize (if 2 * i + 1 + 1 < n ∧ h.Less (2 * i + 1 + 1) (2 * i + 1) = true
          then 2 * i + 1 + 1 else 2 * i + 1) = j at hj1 ⊢
        by_cases hl : h.Less j i = false
        · rw [if_pos hl, if_pos hl]
        · rw [if_neg hl, if_neg hl]
          exact ih g _ _ _ (by omega) (by omega)

theorem downLoop_length : ∀ (fuel : Nat) (h : Heap) (i n : Nat),
    (downLoop fuel h i n).length = h.length := by
  intro fuel
  induction fuel with
  | zero => intro h i n; rfl
  | succ f ih =>
    intro h i n
    simp only [downLoop]
    by_cases hc : n ≤ 2 * i + 1
    · rw [if_pos hc]
    · rw [if_neg hc]
      generalize (if 2 * i + 1 + 1 < n ∧ h.Less (2 * i + 1 + 1) (2 * i + 1) = true
        then 2 * i + 1 + 1 else 2 * i + 1) = j
      by_cases hl : h.Less j i = false
      · rw [if_pos hl]
      · rw [if_neg hl, ih, Heap.length_Swap]

theorem downLoop_perm : ∀ (fuel : Nat) (h : Heap) (i n : Nat), n ≤ h.length →
    (downLoop fuel h i n).Perm h := by
  intro fuel
  induction fuel with
  | zero => intro h i n _; exact List.Perm.refl _
  | succ f ih =>
    intro h i n hn
    simp only [downLoop]
    by_cases hc : n ≤ 2 * i + 1
    · rw [if_pos hc]
    · rw [if_neg hc]
      obtain ⟨hj1, hj2, -⟩ := down_child h i n hc _ rfl
      generalize (if 2 * i + 1 + 1 < n ∧ h.Less (2 * i + 1 + 1) (2 * i + 1) = true
        then 2 * i + 1 + 1 else 2 * i + 1) = j at hj1 hj2 ⊢
      by_cases hl : h.Less j i = false
      · rw [if_pos hl]
      · rw [if_neg hl]
        exact (ih _ _ _ (by rw [Heap.length_Swap]; exact hn)).trans
          (Heap.Swap_perm h _ _ (by omega) (by omega))

/-- The loop of `heap.down` leaves the entries at indices `n` and above in place. -/
theorem downLoop_getD_ge : ∀ (fuel : Nat) (h : Heap) (i n k : Nat), n ≤ h.length → n ≤ k →
    (downLoop fuel h i n).getD k 0 = h.getD k 0 := by
  intro fuel
  induction fuel with
  | zero => intro h i n k _ _; rfl
  | succ f ih =>
    intro h i n k hn hk
    simp only [downLoop]
    by_cases hc : n ≤ 2 * i + 1
    · rw [if_pos hc]
    · rw [if_neg hc]
      obtain ⟨hj1, hj2, -⟩ := down_child h i n hc _ rfl
      generalize (if 2 * i + 1 + 1 < n ∧ h.Less (2 * i + 1 + 1) (2 * i + 1) = true
        then 2 * i + 1 + 1 else 2 * i + 1) = j at hj1 hj2 ⊢
      by_cases hl : h.Less j i = false
      · rw [if_pos hl]
      · rw [if_neg hl, ih _ _ _ _ (by rw [Heap.length_Swap]; exact hn) hk,
          Heap.getD_Swap h _ _ k (by omega) (by omega)]
        rw [if_neg (by omega), if_neg (by omega)]

theorem downLoop_heapFrom : ∀ (fuel : Nat) (h : Heap) (i n m : Nat), n ≤ i + fuel →
    n ≤ h.length → m ≤ i →
    (∀ k p, 0 < k → k < n → p = (k - 1) / 2 → m ≤ p → p ≠ i → h.getD p 0 ≤ h.getD k 0) →
    (∀ k g, 0 < i → 0 < k → k < n → i = (k - 1) / 2 → g = (i - 1) / 2 → m ≤ g →
      h.getD g 0 ≤ h.getD k 0) →
    HeapFrom (downLoop fuel h i n) m n := by
  intro fuel
  induction fuel with
  | zero =>
    intro h i n m hf hn hm h1 _ k p hk hkn hp hmp
    exact h1 k p hk hkn hp hmp (by omega)
  | succ f ih =>
    intro h i n m hf hn hm h1 h2
    simp only [downLoop]
    by_cases hc : n ≤ 2 * i + 1
    · rw [if_pos hc]
      intro k p hk hkn hp hmp
      exact h1 k p hk hkn hp hmp (by omega)
    · rw [if_neg hc]
      obtain ⟨hj1, hj2, hj3⟩ := down_child h i n hc _ rfl
      generalize (if 2 * i + 1 + 1 < n ∧ h.Less (2 * i + 1 + 1) (2 * i + 1) = true
        then 2 * i + 1 + 1 else 2 * i + 1) = j at hj1 hj2 hj3 ⊢
      by_cases hl : h.Less j i = false
      · rw [if_pos hl]
        have hle : h.getD i 0 ≤ h.getD j 0 := by simpa [Heap.Less] using hl
        intro k p hk hkn hp hmp
        by_cases e : p = i
        · have := hj3 k hkn (by omega) hk
          rw [e]; omega
        · exact h1 k p hk hkn hp hmp e
      · rw [if_neg hl]
        have hlt : h.getD j 0 < h.getD i 0 := by simpa [Heap.Less] using hl
        have hi : i < h.length := by omega
        have hj : j < h.length := by omega
        have hij : i ≠ j := by omega
        apply ih _ _ _ _ (by omega) (by rw [Heap.length_Swap]; exact hn) (by omega)
        · intro k p hk hkn hp hmp hpj
          rw [Heap.getD_Swap h _ _ p hi hj, Heap.getD_Swap h _ _ k hi hj]
          rw [if_neg hpj]
          by_cases e1 : k = j
          · have e2 : p = i := by omega
            simp only [e1, e2, if_true]
            omega
          · by_cases e2 : k = i
            · have e3 : p ≠ i := by omega
              have := h2 j p (by omega) (by omega) hj2 (by omega) (by omega) hmp
              rw [if_neg e3, if_neg e1, if_pos e2]
              exact this
            · by_cases e3 : p = i
              · have := hj3 k hkn (by omega) hk
                rw [if_pos e3, if_neg e1, if_neg e2]
                exact this
              · have := h1 k p hk hkn hp hmp e3
                rw [if_neg e3, if_neg e1, if_neg e2]
                exact this
        · intro k g hj0 hk hkn hkp hg hmg
          rw [Heap.getD_Swap h _ _ g hi hj, Heap.getD_Swap h _ _ k hi hj]
          have g1 : g = i := by omega
          have k1 : k ≠ j := by omega
          have k2 : k ≠ i := by omega
          have := h1 k j hk hkn hkp (by omega) (by omega)
          rw [if_neg (by omega), if_pos g1, if_neg k1, if_neg k2]
          exact this


theorem getD_take_lt (l : List Int) (n k : Nat) (hk : k < n) :
    (l.take n).getD k 0 = l.getD k 0 := by
  simp [List.getD_eq_getElem?_getD, List.getElem?_take, hk]

theorem getD_append_lt (l : List Int) (x : Int) (k : Nat) (hk : k < l.length) :
    (l ++ [x]).getD k 0 = l.getD k 0 := by
  simp [List.getD_eq_getElem?_getD, List.getElem?_append_left hk]

theorem take_append_getD (l : List Int) (n : Nat) (hn : l.length = n + 1) :
    l.take n ++ [l.getD n 0] = l := by
  have h1 : n < l.length := by omega
  rw [List.getD_eq_getElem _ _ h1]
  have := List.take_append_drop n l
  conv_rhs => rw [← this]
  congr 1
  rw [List.drop_eq_getElem_cons h1, List.drop_of_length_le (by omega)]

theorem heapPush_length (h : Heap) (x : Int) : (heapPush h x).length = h.length + 1 := by
  simp [heapPush, up, upLoop_length, Heap.Push]

theorem heapPush_perm (h : Heap) (x : Int) : (heapPush h x).Perm (x :: h) := by
  unfold heapPush up
  refine (upLoop_perm _ _ _ (by simp [Heap.Push, Heap.Len])).trans ?_
  simp only [Heap.Push]
  exact List.perm_append_singleton x h

theorem heapPush_isHeap (h : Heap) (x : Int) (hh : IsHeap h) : IsHeap (heapPush h x) := by
  unfold heapPush up
  have hl : (h.Push x).Len - 1 = h.length := by simp [Heap.Push, Heap.Len]
  simp only [hl]
  apply upLoop_isHeap _ _ _ (le_refl _) (by simp [Heap.Push])
  · intro k p hk hkn hp hkj
    have hkn2 : k < h.length := by
      simp [Heap.Push] at hkn; omega
    simp only [Heap.Push]
    rw [getD_append_lt _ _ _ hkn2, getD_append_lt _ _ _ (by omega)]
    exact hh k p hk hkn2 hp (Nat.zero_le _)
  · intro k g _ hk hkn hkp _
    simp [Heap.Push] at hkn
    omega

/-- In a min-heap the root is a least element. -/
theorem IsHeap.root_le {h : Heap} (hh : IsHeap h) : ∀ k, k < h.length →
    h.getD 0 0 ≤ h.getD k 0 := by
  intro k
  induction k using Nat.strong_induction_on with
  | _ k ih =>
    intro hk
    by_cases h0 : k = 0
    · subst h0; exact le_refl _
    · have h1 := ih ((k - 1) / 2) (by omega) (by omega)
      have h2 := hh k ((k - 1) / 2) (by omega) hk rfl (Nat.zero_le _)
      omega

theorem IsHeap.root_le_mem {h : Heap} (hh : IsHeap h) : ∀ a ∈ h, h.getD 0 0 ≤ a := by
  intro a ha
  obtain ⟨k, hk, rfl⟩ := List.getElem_of_mem ha
  have := hh.root_le k hk
  rwa [List.getD_eq_getElem _ _ hk] at this

/-- Go `heap.Pop` on a non-empty heap returns its first entry and leaves the other
entries. -/
theorem heapPop_ok (h : Heap) (hne : h ≠ []) :
    ∃ h2, heapPop h = .ok (h.getD 0 0, h2) ∧ (h.getD 0 0 :: h2).Perm h ∧
      h2.length + 1 = h.length ∧ (IsHeap h → IsHeap h2) := by
  have hpos : 0 < h.length := List.length_pos.mpr hne
  obtain ⟨n, hn⟩ : ∃ n, h.length = n + 1 := ⟨h.length - 1, by omega⟩
  have hsl : (h.Swap 0 n).length = n + 1 := by rw [Heap.length_Swap, hn]
  have hdl : (down (h.Swap 0 n) 0 n).length = n + 1 := by
    unfold down; rw [downLoop_length, hsl]
  have hlast : (down (h.Swap 0 n) 0 n).getD n 0 = h.getD 0 0 := by
    unfold down
    rw [downLoop_getD_ge _ _ _ _ _ (by omega) (le_refl _),
      Heap.getD_Swap h 0 n n hpos (by omega), if_pos rfl]
  refine ⟨(down (h.Swap 0 n) 0 n).take n, ?_, ?_, ?_, ?_⟩
  · unfold heapPop
    have e1 : h.Len - 1 = n := by simp [Heap.Len, hn]
    have e2 : ¬ h.Len = 0 := by simp [Heap.Len, hn]
    simp only [e1, if_neg e2, Heap.Pop, hdl]
    rw [if_neg (by omega)]
    simp only [Nat.add_sub_cancel, hlast]
  · have e := take_append_getD _ n hdl
    rw [hlast] at e
    have p1 : (h.getD 0 0 :: (down (h.Swap 0 n) 0 n).take n).Perm
        (down (h.Swap 0 n) 0 n) := by
      conv_rhs => rw [← e]
      exact (List.perm_append_singleton _ _).symm
    refine p1.trans ?_
    unfold down
    exact (downLoop_perm _ _ _ _ (by omega)).trans (Heap.Swap_perm h 0 n hpos (by omega))
  · simp [hdl, hn]
  · intro hh
    have hf : HeapFrom (down (h.Swap 0 n) 0 n) 0 n := by
      unfold down
      apply downLoop_heapFrom _ _ _ _ _ (by omega) (by omega) (le_refl _)
      · intro k p hk hkn hp _ hp0
        rw [Heap.getD_Swap h 0 n p hpos (by omega), Heap.getD_Swap h 0 n k hpos (by omega),
          if_neg (by omega), if_neg hp0, if_neg (by omega), if_neg (by omega)]
        exact hh k p hk (by omega) hp (Nat.zero_le _)
      · intro k g h0 _ _ _ _ _
        omega
    intro k p hk hkn hp hmp
    have hkn2 : k < n := by
      simp [hdl] at hkn; exact hkn
    rw [getD_take_lt _ _ _ hkn2, getD_take_lt _ _ _ (by omega)]
    exact hf k p hk hkn2 hp hmp

/-! ## Machine integers -/

theorem int64_wrap_of_inRange (z : Int) (hz : int64.InRange z) : int64.wrap z = z := by
  simp only [IntKind.InRange, IntKind.wrap, int64] at hz ⊢
  norm_num at hz ⊢
  omega

theorem int64_neg_of_negatable (x : Int) (hx : int64.Negatable x) : int64.neg x = -x :=
  int64_wrap_of_inRange _ hx.2

theorem int64_negatable_neg (x : Int) (hx : int64.Negatable x) : int64.Negatable (-x) :=
  ⟨hx.2, by simpa using hx.1⟩

/-! ## The streaming median -/

theorem MedianInv.negatable_low {m : Median} {xs : List Int} (inv : MedianInv m xs)
    (hx : ∀ x ∈ xs, int64.Negatable x) : ∀ a ∈ m.low, int64.Negatable a := by
  intro a ha
  have h1 : -a ∈ m.low.map (fun a => -a) ++ m.high :=
    List.mem_append_left _ (List.mem_map_of_mem _ ha)
  have := int64_negatable_neg _ (hx _ (inv.perm.subset h1))
  simpa using this

theorem MedianInv.negatable_high {m : Median} {xs : List Int} (inv : MedianInv m xs)
    (hx : ∀ x ∈ xs, int64.Negatable x) : ∀ b ∈ m.high, int64.Negatable b := by
  intro b hb
  exact hx _ (inv.perm.subset (List.mem_append_right _ hb))

theorem MedianInv.median_new : MedianInv NewMedian [] := by
  refine ⟨?_, ?_, ?_, ?_, ?_⟩
  · intro k p _ hk; simp [NewMedian] at hk
  · intro k p _ hk; simp [NewMedian] at hk
  · simp [NewMedian]
  · intro a ha; simp [NewMedian] at ha
  · left; rfl

/-- One `Push` of a value with a representable negation keeps the invariant of the
streaming median and does not panic. -/
theorem MedianInv.median_push {m : Median} {xs : List Int} (inv : MedianInv m xs)
    (hxs : ∀ x ∈ xs, int64.Negatable x) (x : Int) (hx : int64.Negatable x) :
    ∃ m2, m.Push int64 x = .ok m2 ∧ MedianInv m2 (xs ++ [x]) := by
  have hnx := int64_neg_of_negatable x hx
  unfold Median.Push
  rw [hnx]
  generalize hl1 : heapPush m.low (-x) = low1
  have l1heap : IsHeap low1 := hl1 ▸ heapPush_isHeap _ _ inv.lowHeap
  have l1perm : low1.Perm (-x :: m.low) := hl1 ▸ heapPush_perm _ _
  have l1len : low1.length = m.low.length + 1 := hl1 ▸ heapPush_length _ _
  have l1ne : low1 ≠ [] := by intro e; rw [e] at l1len; simp at l1len
  obtain ⟨low2, hpop1, l2perm, l2len, l2heap⟩ := heapPop_ok low1 l1ne
  rw [hpop1]
  generalize ha : low1.getD 0 0 = a at l2perm
  have a_mem : a ∈ low1 := l2perm.subset (List.mem_cons_self _ _)
  have a_min : ∀ c ∈ low1, a ≤ c := ha ▸ l1heap.root_le_mem
  have a_cases : a = -x ∨ a ∈ m.low := by simpa using l1perm.subset a_mem
  have a_neg : int64.Negatable a := by
    rcases a_cases with e | e
    · rw [e]; exact int64_negatable_neg _ hx
    · exact inv.negatable_low hxs a e
  have hna := int64_neg_of_negatable a a_neg
  have l2sub : ∀ c ∈ low2, c ∈ low1 := fun c hc => l2perm.subset (List.mem_cons_of_mem _ hc)
  -- the low half stays below the old high half
  have sep2 : ∀ c ∈ low2, ∀ d ∈ m.high, -c ≤ d := by
    intro c hc d hd
    have hc1 : c = -x ∨ c ∈ m.low := by simpa using l1perm.subset (l2sub c hc)
    rcases hc1 with e | e
    · rcases a_cases with e2 | e2
      · have p : low2.Perm m.low := by
          have := l2perm.trans l1perm
          rw [e2] at this
          exact List.Perm.cons_inv this
        exact inv.sep c (p.subset hc) d hd
      · have h1 := inv.sep a e2 d hd
        have h2 := a_min c (l2sub c hc)
        omega
    · exact inv.sep c e d hd
  -- the values held after the first two heap operations
  have perm2 : (low2.map (fun a => -a) ++ (-a :: m.high)).Perm (xs ++ [x]) := by
    have p1 : ((a :: low2).map (fun a => -a)).Perm ((-x :: m.low).map (fun a => -a)) :=
      (l2perm.trans l1perm).map _
    simp only [List.map_cons, neg_neg] at p1
    have p2 : (-a :: (low2.map (fun a => -a) ++ m.high)).Perm
        (x :: (m.low.map (fun a => -a) ++ m.high)) := by
      have := p1.append_right m.high
      simpa using this
    exact (List.perm_middle).trans (p2.trans ((inv.perm.cons x).trans
      (List.perm_append_singleton x xs).symm))
  dsimp only
  rw [hna]
  generalize hh1 : heapPush m.high (-a) = high1
  have h1heap : IsHeap high1 := hh1 ▸ heapPush_isHeap _ _ inv.highHeap
  have h1perm : high1.Perm (-a :: m.high) := hh1 ▸ heapPush_perm _ _
  have h1len : high1.length = m.high.length + 1 := hh1 ▸ heapPush_length _ _
  have sep3 : ∀ c ∈ low2, ∀ d ∈ high1, -c ≤ d := by
    intro c hc d hd
    have hd1 : d = -a ∨ d ∈ m.high := by simpa using h1perm.subset hd
    rcases hd1 with e | e
    · have := a_min c (l2sub c hc)
      omega
    · exact sep2 c hc d e
  by_cases hlt : low2.Len < high1.Len
  · rw [if_pos hlt]
    have h1ne : high1 ≠ [] := by intro e; rw [e] at h1len; simp at h1len
    obtain ⟨high2, hpop2, h2perm, h2len, h2heap⟩ := heapPop_ok high1 h1ne
    rw [hpop2]
    generalize hb : high1.getD 0 0 = b at h2perm
    have b_mem : b ∈ high1 := h2perm.subset (List.mem_cons_self _ _)
    have b_min : ∀ d ∈ high1, b ≤ d := hb ▸ h1heap.root_le_mem
    have b_neg : int64.Negatable b := by
      have hb1 : b = -a ∨ b ∈ m.high := by simpa using h1perm.subset b_mem
      rcases hb1 with e | e
      · rw [e]; exact int64_negatable_neg _ a_neg
      · exact inv.negatable_high hxs b e
    have hnb := int64_neg_of_negatable b b_neg
    dsimp only
    rw [hnb]
    refine ⟨_, rfl, ?_, ?_, ?_, ?_, ?_⟩
    · exact heapPush_isHeap _ _ (l2heap l1heap)
    · exact h2heap h1heap
    · have q1 : ((heapPush low2 (-b)).map (fun a => -a)).Perm (b :: low2.map (fun a => -a)) := by
        have := (heapPush_perm low2 (-b)).map (fun a => -a)
        simpa using this
      have q2 : (b :: low2.map (fun a => -a) ++ high2).Perm
          (low2.map (fun a => -a) ++ (b :: high2)) := List.perm_middle.symm
      exact (q1.append_right high2).trans (q2.trans
        (((h2perm.trans h1perm).append_left _).trans perm2))
    · intro c hc d hd
      have hd1 : d ∈ high1 := h2perm.subset (List.mem_cons_of_mem _ hd)
      have hc1 : c = -b ∨ c ∈ low2 := by simpa using (heapPush_perm low2 (-b)).subset hc
      rcases hc1 with e | e
      · have := b_min d hd1
        omega
      · exact sep3 c e d hd1
    · right
      simp only [Heap.Len] at hlt
      show (heapPush low2 (-b)).length = high2.length + 1
      rw [heapPush_length]
      have := inv.bal
      omega
  · rw [if_neg hlt]
    refine ⟨_, rfl, l2heap l1heap, h1heap, ?_, sep3, ?_⟩
    · exact (h1perm.append_left _).trans perm2
    · left
      simp only [Heap.Len] at hlt
      have := inv.bal
      show low2.length = high1.length
      omega

theorem MedianInv.median_pushAll : ∀ (ys : List Int) {m : Median} {xs : List Int}, MedianInv m xs →
    (∀ x ∈ xs, int64.Negatable x) → (∀ y ∈ ys, int64.Negatable y) →
    ∃ m2, Median.pushAll int64 m ys = .ok m2 ∧ MedianInv m2 (xs ++ ys) := by
  intro ys
  induction ys with
  | nil =>
    intro m xs inv _ _
    exact ⟨m, rfl, by simpa using inv⟩
  | cons y ys ih =>
    intro m xs inv hxs hys
    obtain ⟨m1, e1, inv1⟩ := inv.median_push hxs y (hys y (List.mem_cons_self _ _))
    have hxs1 : ∀ x ∈ xs ++ [y], int64.Negatable x := by
      intro x hx
      rcases List.mem_append.mp hx with h | h
      · exact hxs x h
      · have : x = y := by simpa using h
        exact this ▸ hys y (List.mem_cons_self _ _)
    obtain ⟨m2, e2, inv2⟩ := ih inv1 hxs1 (fun z hz => hys z (List.mem_cons_of_mem _ hz))
    refine ⟨m2, ?_, by simpa using inv2⟩
    simp only [Median.pushAll, e1, e2]

/-! ## Sorted reference -/

theorem sortedValues_sorted (xs : List Int) : (sortedValues xs).Sorted (· ≤ ·) :=
  List.sorted_insertionSort _ _

theorem sortedValues_perm (xs : List Int) : (sortedValues xs).Perm xs :=
  List.perm_insertionSort _ _

theorem sortedValues_length (xs : List Int) : (sortedValues xs).length = xs.length :=
  List.length_insertionSort _ _

/-- A sequence split into a lower and an upper part sorts to the sorted lower part followed
by the sorted upper part. -/
theorem sortedValues_of_split (l1 l2 xs : List Int) (p : (l1 ++ l2).Perm xs)
    (h : ∀ a ∈ l1, ∀ b ∈ l2, a ≤ b) :
    sortedValues xs = sortedValues l1 ++ sortedValues l2 := by
  apply List.eq_of_perm_of_sorted (r := (· ≤ ·))
  · exact (sortedValues_perm xs).trans
      (p.symm.trans (((sortedValues_perm l1).append (sortedValues_perm l2)).symm))
  · exact sortedValues_sorted xs
  · unfold List.Sorted
    rw [List.pairwise_append]
    refine ⟨sortedValues_sorted l1, sortedValues_sorted l2, ?_⟩
    intro a ha b hb
    exact h a ((sortedValues_perm l1).subset ha) b ((sortedValues_perm l2).subset hb)

/-- The first entry of the sorted sequence is any least element of the sequence. -/
theorem sortedValues_getD_zero (l : List Int) (v : Int) (hv : v ∈ l) (hmin : ∀ a ∈ l, v ≤ a) :
    (sortedValues l).getD 0 0 = v := by
  have hlen : 0 < (sortedValues l).length := by
    rw [sortedValues_length]; exact List.length_pos_of_mem hv
  rw [List.getD_eq_getElem _ _ hlen]
  have h1 : v ≤ (sortedValues l)[0] :=
    hmin _ ((sortedValues_perm l).subset (List.getElem_mem _))
  obtain ⟨k, hk, e⟩ := List.getElem_of_mem ((sortedValues_perm l).symm.subset hv)
  have h2 : (sortedValues l)[0] ≤ (sortedValues l)[k] :=
    (sortedValues_sorted l).rel_get_of_le (a := ⟨0, hlen⟩) (b := ⟨k, hk⟩) (Nat.zero_le _)
  rw [e] at h2
  omega

/-- The last entry of the sorted sequence is any greatest element of the sequence. -/
theorem sortedValues_getD_last (l : List Int) (v : Int) (hv : v ∈ l) (hmax : ∀ a ∈ l, a ≤ v) :
    (sortedValues l).getD (l.length - 1) 0 = v := by
  have hpos : 0 < l.length := List.length_pos_of_mem hv
  have hlen : l.length - 1 < (sortedValues l).length := by
    rw [sortedValues_length]; omega
  rw [List.getD_eq_getElem _ _ hlen]
  have h1 : (sortedValues l)[l.length - 1] ≤ v :=
    hmax _ ((sortedValues_perm l).subset (List.getElem_mem _))
  obtain ⟨k, hk, e⟩ := List.getElem_of_mem ((sortedValues_perm l).symm.subset hv)
  have h2 : (sortedValues l)[k] ≤ (sortedValues l)[l.length - 1] :=
    (sortedValues_sorted l).rel_get_of_le (a := ⟨k, hk⟩) (b := ⟨l.length - 1, hlen⟩)
      (by rw [sortedValues_length] at hk; show k ≤ l.length - 1; omega)
  rw [e] at h2
  omega

/-- The greatest value of the low half sits, negated, at the root of `low`, and it is the
entry of the sorted sequence at index `low.Len() - 1`. -/
theorem MedianInv.sorted_low {m : Median} {xs : List Int} (inv : MedianInv m xs)
    (l0 : Int) (lt : List Int) (hl : m.low = l0 :: lt) :
    (sortedValues xs).getD (m.low.length - 1) 0 = -l0 := by
  have hs := sortedValues_of_split _ _ _ inv.perm (by
    intro a ha b hb
    obtain ⟨c, hc, rfl⟩ := List.mem_map.mp ha
    exact inv.sep c hc b hb)
  have hroot : ∀ a ∈ m.low, l0 ≤ a := by
    have := inv.lowHeap.root_le_mem
    rw [hl] at this ⊢
    simpa using this
  have hmem : -l0 ∈ m.low.map (fun a => -a) :=
    List.mem_map_of_mem _ (by rw [hl]; exact List.mem_cons_self _ _)
  have hmax : ∀ a ∈ m.low.map (fun a => -a), a ≤ -l0 := by
    intro a ha
    obtain ⟨c, hc, rfl⟩ := List.mem_map.mp ha
    have := hroot c hc
    show -c ≤ -l0
    omega
  have h1 := sortedValues_getD_last _ _ hmem hmax
  rw [List.length_map] at h1
  rw [hs, List.getD_append _ _ _ _ (by
    rw [sortedValues_length, List.length_map, hl]; simp)]
  exact h1

/-- The least value of the high half sits at the root of `high`, and it is the entry of the
sorted sequence at index `low.Len()`. -/
theorem MedianInv.sorted_high {m : Median} {xs : List Int} (inv : MedianInv m xs)
    (h0 : Int) (ht : List Int) (hh : m.high = h0 :: ht) :
    (sortedValues xs).getD m.low.length 0 = h0 := by
  have hs := sortedValues_of_split _ _ _ inv.perm (by
    intro a ha b hb
    obtain ⟨c, hc, rfl⟩ := List.mem_map.mp ha
    exact inv.sep c hc b hb)
  have hroot : ∀ a ∈ m.high, h0 ≤ a := by
    have := inv.highHeap.root_le_mem
    rw [hh] at this ⊢
    simpa using this
  have h1 := sortedValues_getD_zero m.high h0 (by rw [hh]; exact List.mem_cons_self _ _) hroot
  rw [hs, List.getD_append_right _ _ _ _ (by rw [sortedValues_length, List.length_map]),
    sortedValues_length, List.length_map, Nat.sub_self]
  exact h1

theorem MedianInv.length_eq {m : Median} {xs : List Int} (inv : MedianInv m xs) :
    xs.length = m.low.length + m.high.length := by
  have := inv.perm.length_eq
  simpa using this.symm

/-- With the invariant, `MedianRaw` returns the middle of the sorted sequence. -/
theorem MedianInv.medianRaw {m : Median} {xs : List Int} (inv : MedianInv m xs)
    (hxs : ∀ x ∈ xs, int64.Negatable x) :
    m.MedianRaw int64 = .ok (middleValues xs) := by
  have hlen := inv.length_eq
  have hbal := inv.bal
  have hlow := inv.negatable_low hxs
  rcases hm : m with ⟨low, high⟩
  rw [hm] at hlen hbal hlow
  simp only at hlen hbal hlow
  cases low with
  | nil =>
    have hh : high = [] := by
      cases high with
      | nil => rfl
      | cons b t => simp at hbal
    subst hh
    have : xs.length = 0 := by simpa using hlen
    simp [Median.MedianRaw, Heap.Len, middleValues, this]
  | cons l0 lt =>
    have hn0 := int64_neg_of_negatable l0 (hlow l0 (List.mem_cons_self _ _))
    have hsl := inv.sorted_low l0 lt (by rw [hm])
    rw [hm] at hsl
    simp only [List.length_cons, Nat.add_sub_cancel] at hsl
    cases high with
    | nil =>
      have hlt : lt.length = 0 := by
        simp only [List.length_cons, List.length_nil] at hbal
        omega
      have hx1 : xs.length = 1 := by
        simp only [List.length_cons, List.length_nil] at hlen
        omega
      rw [hlt, List.getD_eq_getElem?_getD] at hsl
      simp [Median.MedianRaw, Heap.Len, middleValues, hx1, hn0, hsl]
    | cons h0 ht =>
      have hsh := inv.sorted_high h0 ht (by rw [hm])
      rw [hm] at hsh
      simp only [List.length_cons] at hsh hbal hlen
      rcases hbal with hb | hb
      · have hx1 : xs.length = 2 * (lt.length + 1) := by omega
        have e1 : xs.length / 2 = lt.length + 1 := by omega
        have e2 : xs.length % 2 = 0 := by omega
        have e3 : ¬ xs.length = 0 := by omega
        have e4 : lt.length = ht.length := by omega
        rw [e4] at hsl hsh e1
        rw [List.getD_eq_getElem?_getD] at hsl hsh
        simp [Median.MedianRaw, Heap.Len, middleValues, e1, e2, e3, hn0, hsl, hsh, e4]
      · have e1 : xs.length / 2 = lt.length := by omega
        have e2 : xs.length % 2 = 1 := by omega
        have e3 : ¬ xs.length = 0 := by omega
        have e4 : ¬ lt.length = ht.length := by omega
        rw [List.getD_eq_getElem?_getD] at hsl
        simp [Median.MedianRaw, Heap.Len, middleValues, e1, e2, e3, hn0, hsl, e4]

/-! ## Claims on the streaming median -/

/-- C1, as amended: for every finite sequence of Go `int` values with a representable
negation pushed in order into a median created by `NewMedian`, no push panics and
`MedianRaw` returns the middle of the sorted sequence: no element for the empty sequence,
the middle element for an odd length, the two middle elements (lower first) for an even
length; consequently, for a non-empty sequence whose middle values are below `2^52` in
magnitude, `Median()`, the exact value of the `float64` it returns, is the classical
median. -/
theorem median_is_classical_median (xs : List Int) (hxs : ∀ x ∈ xs, int64.Negatable x) :
    ∃ m, Median.pushAll int64 NewMedian xs = .ok m ∧
      m.MedianRaw int64 = .ok (middleValues xs) ∧
      ((∀ v ∈ middleValues xs, v.natAbs < 2 ^ 52) → xs ≠ [] →
        m.median int64 = .ok (classicalMedian xs)) := by
  obtain ⟨m, hm, inv⟩ := MedianInv.median_new.median_pushAll xs (by simp) hxs
  rw [List.nil_append] at inv
  have hraw := inv.medianRaw hxs
  refine ⟨m, hm, hraw, ?_⟩
  intro hsmall hne
  have hpos : xs.length ≠ 0 := fun e => hne (List.length_eq_zero.mp e)
  unfold Median.median
  rw [hraw]
  unfold middleValues classicalMedian at *
  rw [if_neg hpos] at hsmall ⊢
  by_cases hodd : xs.length % 2 = 1
  · rw [if_pos hodd] at hsmall
    simp only [if_pos hodd]
    rw [float64OfInt_exact (by have := hsmall _ (List.mem_singleton_self _); omega)]
  · rw [if_neg hodd] at hsmall
    simp only [if_neg hodd]
    rw [float64_mean_exact (hsmall _ (List.mem_cons_self _ _))
      (hsmall _ (List.mem_cons_of_mem _ (List.mem_singleton_self _)))]

/-- C1, witness: the sequence of the repository's median test. -/
theorem median_is_classical_median_witness :
    ∃ m, Median.pushAll int64 NewMedian [-1, 9, 2, 8, 3, 7] = .ok m ∧
      m.MedianRaw int64 = .ok (middleValues [-1, 9, 2, 8, 3, 7]) ∧
      ((∀ v ∈ middleValues [-1, 9, 2, 8, 3, 7], v.natAbs < 2 ^ 52) →
        [-1, 9, 2, 8, 3, 7] ≠ [] →
        m.median int64 = .ok (classicalMedian [-1, 9, 2, 8, 3, 7])) :=
  median_is_classical_median [-1, 9, 2, 8, 3, 7] (by decide)

/-- C1, counterexample to the claim as first stated: the greatest Go `int`,
`2^63 - 1`, pushed twice.  Its negation is representable, `MedianRaw` returns it twice, and
the classical median is `2^63 - 1`; but `float64(2^63 - 1)` is `2^63`, so `Median()` returns
`2^63`. -/
theorem median_is_classical_median_counterexample :
    (∀ x ∈ [9223372036854775807, (9223372036854775807 : Int)], int64.Negatable x) ∧
    (∃ m, Median.pushAll int64 NewMedian [9223372036854775807, 9223372036854775807] = .ok m ∧
      m.MedianRaw int64 = .ok [9223372036854775807, 9223372036854775807] ∧
      m.median int64 = .ok 9223372036854775808) ∧
    classicalMedian [9223372036854775807, 9223372036854775807] = 9223372036854775807 := by
  refine ⟨by decide, ⟨⟨[-9223372036854775807], [9223372036854775807]⟩, by decide, by decide,
    ?_⟩, ?_⟩
  · have h : Median.MedianRaw int64 ⟨[-9223372036854775807], [9223372036854775807]⟩
        = .ok [9223372036854775807, 9223372036854775807] := by decide
    have e : float64Div (float64Add (float64OfInt 9223372036854775807)
        (float64OfInt 9223372036854775807)) (float64OfInt 2) = ⟨4503599627370496, 11⟩ := by
      set_option maxRecDepth 100000 in decide
    simp only [Median.median, h, e, GoFloat64.toRat]
    norm_num
  · have h : sortedValues [9223372036854775807, 9223372036854775807]
        = [9223372036854775807, 9223372036854775807] := by decide
    simp only [classicalMedian, h]
    norm_num

/-! ## Totality of the streaming median -/

/-- On balanced heaps `Push` never panics, for every element kind and every value, and it
leaves the heaps balanced with one more entry. -/
theorem Median.Balanced.balanced_push (K : IntKind) {m : Median} (hb : m.Balanced) (x : Int) :
    ∃ m2, m.Push K x = .ok m2 ∧ m2.Balanced ∧
      m2.low.length + m2.high.length = m.low.length + m.high.length + 1 := by
  unfold Median.Push
  have l1len := heapPush_length m.low (K.neg x)
  have l1ne : heapPush m.low (K.neg x) ≠ [] := by
    intro e; rw [e] at l1len; simp at l1len
  obtain ⟨low2, hpop1, -, l2len, -⟩ := heapPop_ok _ l1ne
  rw [hpop1]
  dsimp only
  generalize (heapPush m.low (K.neg x)).getD 0 0 = a
  have h1len := heapPush_length m.high (K.neg a)
  unfold Median.Balanced at hb ⊢
  by_cases hlt : low2.Len < (heapPush m.high (K.neg a)).Len
  · rw [if_pos hlt]
    have h1ne : heapPush m.high (K.neg a) ≠ [] := by
      intro e; rw [e] at h1len; simp at h1len
    obtain ⟨high2, hpop2, -, h2len, -⟩ := heapPop_ok _ h1ne
    rw [hpop2]
    dsimp only
    generalize (heapPush m.high (K.neg a)).getD 0 0 = b
    have l3len := heapPush_length low2 (K.neg b)
    simp only [Heap.Len] at hlt
    refine ⟨_, rfl, ?_, ?_⟩
    · show (heapPush low2 (K.neg b)).length = high2.length ∨
        (heapPush low2 (K.neg b)).length = high2.length + 1
      omega
    · show (heapPush low2 (K.neg b)).length + high2.length = _
      omega
  · rw [if_neg hlt]
    simp only [Heap.Len] at hlt
    refine ⟨_, rfl, ?_, ?_⟩
    · show low2.length = (heapPush m.high (K.neg a)).length ∨
        low2.length = (heapPush m.high (K.neg a)).length + 1
      omega
    · show low2.length + (heapPush m.high (K.neg a)).length = _
      omega

/-- On balanced heaps `MedianRaw`, and so `Median()`, never panics. -/
theorem Median.Balanced.median_ok (K : IntKind) {m : Median} (hb : m.Balanced) :
    ∃ v, m.median K = .ok v := by
  unfold Median.Balanced at hb
  rcases m with ⟨low, high⟩
  simp only at hb
  cases low with
  | nil =>
    cases high with
    | nil => exact ⟨0, by simp [Median.median, Median.MedianRaw, Heap.Len]⟩
    | cons b t => simp at hb
  | cons l0 lt =>
    cases high with
    | nil =>
      have : lt.length = 0 := by
        simp only [List.length_cons, List.length_nil] at hb
        omega
      simp [Median.median, Median.MedianRaw, Heap.Len, this]
    | cons h0 ht =>
      by_cases e : lt.length = ht.length
      · simp [Median.median, Median.MedianRaw, Heap.Len, e]
      · simp [Median.median, Median.MedianRaw, Heap.Len, e]

/-! ## The aggregator -/

theorem int64_wrap_add (s x : Int) : int64.wrap (int64.wrap s + x) = int64.wrap (s + x) := by
  simp only [IntKind.wrap, int64]
  norm_num
  omega

theorem AggInv.agg_new (K : IntKind) (h0 : K.wrap 0 = 0) : AggInv K NewAggregator [] := by
  refine ⟨rfl, by simpa [NewAggregator] using h0.symm, by simp, by simp, by simp, by simp,
    by simp, Or.inl rfl⟩

/-- One `Push` into an aggregator never panics and keeps its invariant. -/
theorem AggInv.agg_push {a : Aggregator} {xs : List Int} (inv : AggInv int64 a xs) (x : Int) :
    ∃ a2, a.Push int64 x = .ok a2 ∧ AggInv int64 a2 (xs ++ [x]) := by
  obtain ⟨med, hmed, hbal, -⟩ := inv.bal.balanced_push int64 x
  obtain ⟨v, hv⟩ := hbal.median_ok int64
  refine ⟨⟨a.Count + 1, int64.add a.Total x, if a.Min > x ∨ a.Count = 0 then x else a.Min,
    if a.Max < x ∨ a.Count = 0 then x else a.Max,
    (float64Div (float64OfInt (int64.add a.Total x)) (float64OfInt (a.Count + 1))).toRat, v, med⟩,
    by simp only [Aggregator.Push, hmed, hv], ?_⟩
  have hcount : a.Count = 0 ↔ xs = [] := by
    rw [inv.count]
    simp
  refine ⟨?_, ?_, ?_, ?_, ?_, ?_, ?_, hbal⟩
  · simp [inv.count]
  · show int64.add a.Total x = _
    rw [IntKind.add, inv.total, int64_wrap_add, List.sum_append, List.sum_singleton]
  · intro _
    show (if a.Min > x ∨ a.Count = 0 then x else a.Min) ∈ xs ++ [x]
    split
    · simp
    · rename_i hc
      have hne : xs ≠ [] := fun e => hc (Or.inr (hcount.mpr e))
      exact List.mem_append_left _ (inv.minMem hne)
  · intro w hw
    show (if a.Min > x ∨ a.Count = 0 then x else a.Min) ≤ w
    rcases List.mem_append.mp hw with h | h
    · have h1 := inv.minLe w h
      split
      · rename_i hc
        rcases hc with hc | hc
        · omega
        · rw [hcount.mp hc] at h; simp at h
      · exact h1
    · have : w = x := by simpa using h
      subst this
      split
      · exact le_refl _
      · rename_i hc
        have : ¬ a.Min > w := fun e => hc (Or.inl e)
        omega
  · intro _
    show (if a.Max < x ∨ a.Count = 0 then x else a.Max) ∈ xs ++ [x]
    split
    · simp
    · rename_i hc
      have hne : xs ≠ [] := fun e => hc (Or.inr (hcount.mpr e))
      exact List.mem_append_left _ (inv.maxMem hne)
  · intro w hw
    show w ≤ (if a.Max < x ∨ a.Count = 0 then x else a.Max)
    rcases List.mem_append.mp hw with h | h
    · have h1 := inv.maxGe w h
      split
      · rename_i hc
        rcases hc with hc | hc
        · omega
        · rw [hcount.mp hc] at h; simp at h
      · exact h1
    · have : w = x := by simpa using h
      subst this
      split
      · exact le_refl _
      · rename_i hc
        have : ¬ a.Max < w := fun e => hc (Or.inl e)
        omega
  · intro _
    rfl

theorem AggInv.agg_pushAll : ∀ (ys : List Int) {a : Aggregator} {xs : List Int},
    AggInv int64 a xs →
    ∃ a2, Aggregator.pushAll int64 a ys = .ok a2 ∧ AggInv int64 a2 (xs ++ ys) := by
  intro ys
  induction ys with
  | nil =>
    intro a xs inv
    exact ⟨a, rfl, by simpa using inv⟩
  | cons y ys ih =>
    intro a xs inv
    obtain ⟨a1, e1, inv1⟩ := inv.agg_push y
    obtain ⟨a2, e2, inv2⟩ := ih inv1
    exact ⟨a2, by simp only [Aggregator.pushAll, e1, e2], by simpa using inv2⟩

/-! ## Claims on the aggregator -/

/-- C3, as amended: for every finite sequence of Go `int` values pushed into an aggregator
created by `NewAggregator` such that no running sum overflows, every push returns, and
afterwards `Count` is the number of pushes and `Total` is the exact sum; when at least one
value was pushed, `Avg` is the `float64` quotient `float64(Total) / float64(Count)`, and
when `Total` and `Count` are below `2^53` in magnitude its exact value differs from
`Total / Count` by at most `|Total / Count| / 2^53`, and equals `Total / Count` whenever
that quotient is `z / 2^r` for an integer `z` below `2^53` in magnitude. -/
theorem aggregator_count_total_avg (xs : List Int)
    (hsum : ∀ k, k ≤ xs.length → int64.InRange (xs.take k).sum) :
    ∃ a, Aggregator.pushAll int64 NewAggregator xs = .ok a ∧
      a.Count = xs.length ∧ a.Total = xs.sum ∧
      (1 ≤ xs.length →
        a.Avg = (float64Div (float64OfInt a.Total) (float64OfInt a.Count)).toRat ∧
        (a.Total.natAbs < 2 ^ 53 → a.Count.natAbs < 2 ^ 53 →
          |a.Avg - (a.Total : ℚ) / (a.Count : ℚ)| ≤ |(a.Total : ℚ) / (a.Count : ℚ)| / 2 ^ 53 ∧
          ∀ (z : Int) (r : Nat), z.natAbs < 2 ^ 53 →
            (a.Total : ℚ) / (a.Count : ℚ) = (z : ℚ) / (2 : ℚ) ^ r →
            a.Avg = (a.Total : ℚ) / (a.Count : ℚ))) := by
  obtain ⟨a, ha, inv⟩ := (AggInv.agg_new int64 (by decide)).agg_pushAll xs
  rw [List.nil_append] at inv
  refine ⟨a, ha, inv.count, ?_, ?_⟩
  · have h := hsum xs.length (le_refl _)
    rw [List.take_length] at h
    rw [inv.total, int64_wrap_of_inRange _ h]
  · intro h1
    have havg := inv.avg (by intro e; rw [e] at h1; simp at h1)
    refine ⟨havg, ?_⟩
    intro hT hC
    have hc0 : a.Count ≠ 0 := by rw [inv.count]; omega
    have eT : (float64OfInt a.Total).toRat = (a.Total : ℚ) := float64OfInt_exact hT
    have eC : (float64OfInt a.Count).toRat = (a.Count : ℚ) := float64OfInt_exact hC
    have hm := float64OfInt_mant_ne_zero hc0 hC
    constructor
    · have := float64Div_error (float64OfInt a.Total) (float64OfInt a.Count) hm
      rw [eT, eC] at this
      rw [havg]
      exact this
    · intro z r hz hq
      rw [havg, float64Div_exact _ _ hm z r hz (by rw [eT, eC]; exact hq), eT, eC]

/-- C3, witness: three pushes with total `6` and average `2`. -/
theorem aggregator_count_total_avg_witness :
    ∃ a, Aggregator.pushAll int64 NewAggregator [4, -1, 3] = .ok a ∧
      a.Count = ([4, -1, 3] : List Int).length ∧ a.Total = ([4, -1, 3] : List Int).sum ∧
      (1 ≤ ([4, -1, 3] : List Int).length →
        a.Avg = (float64Div (float64OfInt a.Total) (float64OfInt a.Count)).toRat ∧
        (a.Total.natAbs < 2 ^ 53 → a.Count.natAbs < 2 ^ 53 →
          |a.Avg - (a.Total : ℚ) / (a.Count : ℚ)| ≤ |(a.Total : ℚ) / (a.Count : ℚ)| / 2 ^ 53 ∧
          ∀ (z : Int) (r : Nat), z.natAbs < 2 ^ 53 →
            (a.Total : ℚ) / (a.Count : ℚ) = (z : ℚ) / (2 : ℚ) ^ r →
            a.Avg = (a.Total : ℚ) / (a.Count : ℚ))) :=
  aggregator_count_total_avg [4, -1, 3] (by decide)

/-- C3, counterexample to the claim as first stated: the pushes `5, 3, 9`.  No running sum
overflows, `Count` is `3` and `Total` is `17`, but `Avg` is the `float64` nearest to
`17 / 3`, whose exact value is `6380099472108203 / 2^50`, not `17 / 3`. -/
theorem aggregator_count_total_avg_counterexample :
    (∀ k, k ≤ ([5, 3, 9] : List Int).length → int64.InRange (([5, 3, 9] : List Int).take k).sum) ∧
    ∃ a, Aggregator.pushAll int64 NewAggregator [5, 3, 9] = .ok a ∧
      a.Count = 3 ∧ a.Total = 17 ∧
      a.Avg = 6380099472108203 / 1125899906842624 ∧
      a.Avg ≠ (a.Total : ℚ) / (a.Count : ℚ) := by
  refine ⟨by decide, ?_⟩
  obtain ⟨a, ha, inv⟩ := (AggInv.agg_new int64 (by decide)).agg_pushAll [5, 3, 9]
  rw [List.nil_append] at inv
  have hc : a.Count = 3 := inv.count
  have ht : a.Total = 17 := by rw [inv.total]; decide
  have e : float64Div (float64OfInt 17) (float64OfInt 3) = ⟨6380099472108203, -50⟩ := by decide
  have havg : a.Avg = 6380099472108203 / 1125899906842624 := by
    rw [inv.avg (by simp), hc, ht, e, GoFloat64.toRat]
    norm_num
  refine ⟨a, ha, hc, ht, havg, ?_⟩
  rw [havg, hc, ht]
  norm_num

/-- C4: for every non-empty sequence of Go `int` values pushed into an aggregator created by
`NewAggregator`, every push returns, and afterwards `Min` is the least and `Max` the
greatest pushed value: both are pushed values and `Min <= v <= Max` for every pushed value
`v`.  The zero initial `Min` and `Max` are not kept: the first push overwrites them. -/
theorem aggregator_min_max (xs : List Int) (hne : xs ≠ []) :
    ∃ a, Aggregator.pushAll int64 NewAggregator xs = .ok a ∧
      a.Min ∈ xs ∧ a.Max ∈ xs ∧ ∀ v ∈ xs, a.Min ≤ v ∧ v ≤ a.Max := by
  obtain ⟨a, ha, inv⟩ := (AggInv.agg_new int64 (by decide)).agg_pushAll xs
  rw [List.nil_append] at inv
  exact ⟨a, ha, inv.minMem hne, inv.maxMem hne, fun v hv => ⟨inv.minLe v hv, inv.maxGe v hv⟩⟩

/-- C4, witness: all values positive, so the zero initial `Min` must not survive. -/
theorem aggregator_min_max_witness :
    ∃ a, Aggregator.pushAll int64 NewAggregator [5, 3, 9] = .ok a ∧
      a.Min ∈ ([5, 3, 9] : List Int) ∧ a.Max ∈ ([5, 3, 9] : List Int) ∧
      ∀ v ∈ ([5, 3, 9] : List Int), a.Min ≤ v ∧ v ≤ a.Max :=
  aggregator_min_max [5, 3, 9] (by decide)

/-! ## `Buckets` -/

theorem flatten_set_append {α : Type} (v : α) : ∀ (buckets : List (List α)) (k : Nat),
    k < buckets.length →
    (buckets.set k (buckets.getD k [] ++ [v])).flatten.Perm (buckets.flatten ++ [v]) := by
  intro buckets
  induction buckets with
  | nil => intro k hk; simp at hk
  | cons b bs ih =>
    intro k hk
    cases k with
    | zero =>
      simp only [List.set_cons_zero, List.getD_cons_zero, List.flatten_cons, List.append_assoc]
      exact List.Perm.append_left b (List.perm_append_comm)
    | succ k =>
      simp only [List.set_cons_succ, List.getD_cons_succ, List.flatten_cons, List.append_assoc]
      exact List.Perm.append_left b (ih k (by simpa using hk))

theorem getD_set_bucket {α : Type} (buckets : List (List α)) (k j : Nat) (x : List α)
    (hk : k < buckets.length) :
    (buckets.set k x).getD j [] = if j = k then x else buckets.getD j [] := by
  simp only [List.getD_eq_getElem?_getD, List.getElem?_set]
  by_cases h : k = j
  · subst h; simp [hk]
  · simp [h, Ne.symm h]

theorem assignedTo_cons {α : Type} (v : α) (rest : List α) (r : BalancerResult)
    (rs : List BalancerResult) (i : Int) :
    assignedTo (v :: rest) (r :: rs) i =
      if assignedIndex r = some i then v :: assignedTo rest rs i else assignedTo rest rs i := by
  unfold assignedTo
  by_cases h : assignedIndex r = some i
  · simp [List.filter_cons, h]
  · simp [List.filter_cons, h]

/-- The loop of `Buckets`, when every balancer call assigns an index inside `buckets`:
it returns, each bucket has grown by the values assigned to it, in input order. -/
theorem bucketsLoop_ok {σ α : Type} (n : Int) (balance : Balancer σ α) :
    ∀ (values : List α) (buckets : List (List α)) (s : σ),
    (∀ r ∈ (balanceAll n balance values s).1,
      ∃ i, r = .ok (i, none) ∧ 0 ≤ i ∧ i < (buckets.length : Int)) →
    ∃ bs, bucketsLoop n balance values buckets s
        = .ok ⟨some bs, none, (balanceAll n balance values s).2⟩ ∧
      bs.length = buckets.length ∧
      (∀ j : Nat, j < buckets.length → bs.getD j [] =
        buckets.getD j [] ++ assignedTo values (balanceAll n balance values s).1 (j : Int)) ∧
      bs.flatten.Perm (buckets.flatten ++ values) := by
  intro values
  induction values with
  | nil =>
    intro buckets s _
    exact ⟨buckets, rfl, rfl, by intro j _; simp [assignedTo, balanceAll], by simp⟩
  | cons v rest ih =>
    intro buckets s hok
    rcases hb : balance s v n with ⟨r, s1⟩
    simp only [balanceAll, hb] at hok ⊢
    obtain ⟨i, hr, hi0, hik⟩ := hok r (List.mem_cons_self _ _)
    subst hr
    have hk : i.toNat < buckets.length := by omega
    have hlen : (buckets.set i.toNat (buckets.getD i.toNat [] ++ [v])).length = buckets.length :=
      List.length_set _ _ _
    obtain ⟨bs, e, hl, hget, hperm⟩ := ih (buckets.set i.toNat (buckets.getD i.toNat [] ++ [v])) s1
      (by
        intro r hr
        rw [hlen]
        exact hok r (List.mem_cons_of_mem _ hr))
    refine ⟨bs, ?_, by rw [hl, hlen], ?_, ?_⟩
    · simp only [bucketsLoop, hb]
      rw [if_neg (by omega)]
      exact e
    · intro j hj
      rw [hget j (by rw [hlen]; exact hj), getD_set_bucket _ _ _ _ hk, assignedTo_cons]
      by_cases hji : j = i.toNat
      · have hij : (j : Int) = i := by omega
        have ha : assignedIndex (.ok (i, none)) = some (j : Int) := by rw [hij]; rfl
        rw [if_pos hji, if_pos ha, ← hji, List.append_assoc, List.singleton_append]
      · have ha : ¬ assignedIndex (.ok (i, none)) = some (j : Int) := by
          intro e
          have : i = (j : Int) := by simpa [assignedIndex] using e
          omega
        rw [if_neg hji, if_neg ha]
    · refine hperm.trans ?_
      refine ((flatten_set_append v buckets _ hk).append_right rest).trans ?_
      simp

theorem getD_replicate_nil {α : Type} (k j : Nat) :
    (List.replicate k ([] : List α)).getD j [] = [] := by
  simp only [List.getD_eq_getElem?_getD, List.getElem?_replicate]
  split <;> rfl

theorem flatten_replicate_nil {α : Type} (k : Nat) :
    (List.replicate k ([] : List α)).flatten = [] := by
  induction k with
  | zero => rfl
  | succ k ih => simp [List.replicate_succ]

/-- C2: for every list of values, every bucket count `k >= 1` and every balancer (stateful
or not) that, called on the values in turn, returns each time no error and an index in
`[0, k)`, `Buckets` returns exactly `k` buckets and no error; bucket `i` is exactly the
subsequence of the input, in input order, of the values the balancer mapped to `i`; and the
concatenation of the buckets in bucket order is a permutation of the input. -/
theorem buckets_stable_partition {σ α : Type} (values : List α) (k : Int) (hk : 1 ≤ k)
    (balance : Balancer σ α) (s : σ)
    (hok : ∀ r ∈ (balanceAll k balance values s).1, ∃ i, r = .ok (i, none) ∧ 0 ≤ i ∧ i < k) :
    ∃ bs, Buckets values k balance s
        = .ok ⟨some bs, none, (balanceAll k balance values s).2⟩ ∧
      (bs.length : Int) = k ∧
      (∀ i : Nat, (i : Int) < k →
        bs.getD i [] = assignedTo values (balanceAll k balance values s).1 (i : Int)) ∧
      bs.flatten.Perm values := by
  have hlen : ((List.replicate k.toNat ([] : List α)).length : Int) = k := by
    rw [List.length_replicate]; omega
  obtain ⟨bs, e, hl, hget, hperm⟩ := bucketsLoop_ok k balance values
    (List.replicate k.toNat []) s (by rw [hlen]; exact hok)
  refine ⟨bs, ?_, by rw [hl]; exact hlen, ?_, ?_⟩
  · unfold Buckets
    rw [if_neg (by omega)]
    exact e
  · intro i hi
    rw [hget i (by rw [List.length_replicate]; omega), getD_replicate_nil, List.nil_append]
  · simpa [flatten_replicate_nil] using hperm

/-- C2, witness: three host keys, three buckets, the host-id balancer. -/
theorem buckets_stable_partition_witness :
    ∃ bs, Buckets [Value.str (goString "host_000001"), Value.str (goString "host_000002"),
          Value.str (goString "host_000004")] 3 hostIDBalancer ()
        = .ok ⟨some bs, none, (balanceAll 3 hostIDBalancer
            [Value.str (goString "host_000001"), Value.str (goString "host_000002"),
              Value.str (goString "host_000004")] ()).2⟩ ∧
      (bs.length : Int) = 3 ∧
      (∀ i : Nat, (i : Int) < 3 →
        bs.getD i [] = assignedTo [Value.str (goString "host_000001"),
          Value.str (goString "host_000002"), Value.str (goString "host_000004")]
          (balanceAll 3 hostIDBalancer [Value.str (goString "host_000001"),
            Value.str (goString "host_000002"), Value.str (goString "host_000004")] ()).1
          (i : Int)) ∧
      bs.flatten.Perm [Value.str (goString "host_000001"), Value.str (goString "host_000002"),
        Value.str (goString "host_000004")] :=
  buckets_stable_partition _ 3 (by decide) hostIDBalancer () (by
    have e : (balanceAll 3 hostIDBalancer [Value.str (goString "host_000001"),
        Value.str (goString "host_000002"), Value.str (goString "host_000004")] ()).1
        = [.ok (1, none), .ok (2, none), .ok (1, none)] := by decide
    rw [e]
    intro r hr
    simp only [List.mem_cons, List.mem_singleton, List.not_mem_nil, or_false] at hr
    rcases hr with rfl | rfl | rfl
    · exact ⟨1, rfl, by decide, by decide⟩
    · exact ⟨2, rfl, by decide, by decide⟩
    · exact ⟨1, rfl, by decide, by decide⟩)

/-- The loop of `Buckets` stops at the first value on which the balancer returns an error,
when the calls before it assigned indices inside `buckets`. -/
theorem bucketsLoop_first_error {σ α : Type} (n : Int) (balance : Balancer σ α)
    (v : α) (post : List α) (i : Int) (err : BalancerError) :
    ∀ (pre : List α) (buckets : List (List α)) (s : σ),
    (∀ r ∈ (balanceAll n balance pre s).1,
      ∃ j, r = .ok (j, none) ∧ 0 ≤ j ∧ j < (buckets.length : Int)) →
    (balance (balanceAll n balance pre s).2 v n).1 = .ok (i, some err) →
    bucketsLoop n balance (pre ++ v :: post) buckets s
      = .ok ⟨none, some ⟨v, err⟩, (balance (balanceAll n balance pre s).2 v n).2⟩ := by
  intro pre
  induction pre with
  | nil =>
    intro buckets s _ hv
    simp only [balanceAll] at hv ⊢
    rcases hb : balance s v n with ⟨r, s1⟩
    rw [hb] at hv
    simp only at hv
    subst hv
    simp only [List.nil_append, bucketsLoop, hb]
  | cons w rest ih =>
    intro buckets s hok hv
    rcases hb : balance s w n with ⟨r, s1⟩
    simp only [balanceAll, hb] at hok hv ⊢
    obtain ⟨j, hr, hj0, hjk⟩ := hok r (List.mem_cons_self _ _)
    subst hr
    simp only [List.cons_append, bucketsLoop, hb]
    rw [if_neg (by omega)]
    exact ih _ s1 (by
      intro r hr
      rw [List.length_set]
      exact hok r (List.mem_cons_of_mem _ hr)) hv

/-- C8, as amended: for every list of values, bucket count `k >= 1` and balancer, if the
balancer returns an error on a value and, on every value before it, returned no error and
an index in `[0, k)`, then `Buckets` returns no buckets at all (nil) together with the error
that wraps the balancer's error for that first failing value and names the value; the
balancer is left in the state of that call: it is not invoked on any later value. -/
theorem buckets_first_error {σ α : Type} (pre post : List α) (v : α) (k : Int) (hk : 1 ≤ k)
    (balance : Balancer σ α) (s : σ) (i : Int) (err : BalancerError)
    (hpre : ∀ r ∈ (balanceAll k balance pre s).1, ∃ j, r = .ok (j, none) ∧ 0 ≤ j ∧ j < k)
    (hv : (balance (balanceAll k balance pre s).2 v k).1 = .ok (i, some err)) :
    Buckets (pre ++ v :: post) k balance s
      = .ok ⟨none, some ⟨v, err⟩, (balance (balanceAll k balance pre s).2 v k).2⟩ := by
  unfold Buckets
  rw [if_neg (by omega)]
  apply bucketsLoop_first_error
  · rw [List.length_replicate]
    intro r hr
    obtain ⟨j, h1, h2, h3⟩ := hpre r hr
    exact ⟨j, h1, h2, by omega⟩
  · exact hv

/-- C8, witness: the second of three keys has no host id. -/
theorem buckets_first_error_witness :
    Buckets ([Value.str (goString "host_000001")] ++ Value.str (goString "host_x")
        :: [Value.str (goString "host_000002")]) 3 hostIDBalancer ()
      = .ok ⟨none, some ⟨Value.str (goString "host_x"),
          .parseHostID (goString "x") .errSyntax⟩,
          (hostIDBalancer (balanceAll 3 hostIDBalancer [Value.str (goString "host_000001")] ()).2
            (Value.str (goString "host_x")) 3).2⟩ :=
  buckets_first_error [Value.str (goString "host_000001")] [Value.str (goString "host_000002")]
    (Value.str (goString "host_x")) 3 (by decide) hostIDBalancer () 0
    (.parseHostID (goString "x") .errSyntax)
    (by
      have e : (balanceAll 3 hostIDBalancer [Value.str (goString "host_000001")] ()).1
          = [.ok (1, none)] := by decide
      rw [e]
      intro r hr
      simp only [List.mem_singleton] at hr
      subst hr
      exact ⟨1, rfl, by decide, by decide⟩)
    (by decide)

/-- C8, counterexample to the claim as stated: with three buckets, the host-id balancer
returns the index `-2` for `host_-5` and an error for `x`; `Buckets` on these two values
panics at `buckets[-2]` and returns neither nil buckets nor an error. -/
theorem buckets_first_error_counterexample :
    HostIDBalancer (Value.str (goString "x")) 3
      = .ok (0, some (.parseHostID (goString "x") .errSyntax)) ∧
    Buckets [Value.str (goString "host_-5"), Value.str (goString "x")] 3 hostIDBalancer ()
      = .error .indexOutOfRange :=
  ⟨by decide, by decide⟩

/-! ## Claims on the balancers and on the dispatch step -/

/-- C5, the failing input: for the key `host_-5` and three buckets `HostIDBalancer` returns
no error and the index `-2`, outside `[0, 3)`; `Buckets` with this balancer then panics at
`buckets[-2]`. -/
theorem hostIDBalancer_negative_index :
    HostIDBalancer (Value.str (goString "host_-5")) 3 = .ok (-2, none) ∧
    Buckets [Value.str (goString "host_-5")] 3 hostIDBalancer () = .error .indexOutOfRange :=
  ⟨by decide, by decide⟩

/-- C7, counterexample to the claim as stated: with an empty list of work items and a
concurrency of three, the dispatch step returns no error but three empty buckets. -/
theorem dispatch_config_error_counterexample :
    execDispatch 3 [] = .ok ⟨some [[], [], []], none, fnv32.init⟩ := by
  rfl

/-- C7, as amended: the dispatch step of a run never returns a configuration error.  With
an empty list of work items and a concurrency `c >= 0` it returns no error and `c` empty
buckets (so `Exec` starts `c` workers); with a negative concurrency `make` panics; with
concurrency `0` and a first work item that is a query, the hash balancer panics on the
division by zero. -/
theorem dispatch_without_config_check (c : Int) :
    (0 ≤ c → execDispatch c [] = .ok ⟨some (List.replicate c.toNat []), none, fnv32.init⟩) ∧
    (c < 0 → ∀ queries, execDispatch c queries = .error .makeLenOutOfRange) ∧
    (∀ q rest, execDispatch 0 (some q :: rest) = .error .integerDivideByZero) := by
  refine ⟨?_, ?_, ?_⟩
  · intro hc
    unfold execDispatch Buckets
    rw [if_neg (by omega)]
    rfl
  · intro hc queries
    unfold execDispatch Buckets
    rw [if_pos hc]
  · intro q rest
    rfl

/-! ## Claims on the aggregation of results -/

/-- C6, the failing input: the worker builds the result of a failed executor call with the
nil `Stats` that `ExplainAnalyze` returned; when such a result is the next one on the
stream, `aggregateStats` panics on `result.Stats.ExecutionTime` (a nil pointer dereference)
instead of skipping the result: the aggregation is aborted and returns no statistics. -/
theorem aggregateStats_failed_result_panics (F : CostOps) (numWorkers : Int)
    (query : MinMaxCPUQuery) (bucket : Int) (e : ExecError)
    (rest : List (QueryExecutionResult F)) :
    0 ≤ numWorkers →
    aggregateStats F numWorkers (workerResult F query bucket none (some e) :: rest)
      = .error .nilPointerDereference := by
  intro h
  unfold aggregateStats
  rw [if_neg (by omega)]
  rfl

/-- C6, the failing input at one worker and a stream of one failed result. -/
theorem aggregateStats_failed_result_panics_witness :
    aggregateStats ⟨Int, Int, 0, fun a c => a + c⟩ 1
        [workerResult ⟨Int, Int, 0, fun a c => a + c⟩
          ⟨goString "1m", goString "host_000001", 0, 60⟩ 0 none (some .query)]
      = .error .nilPointerDereference :=
  aggregateStats_failed_result_panics _ 1 _ 0 .query [] (by decide)

/-! ## `strconv.Atoi` and `device.ParseHostID` -/

theorem decimalFrom_ge (s : GoString) : ∀ n, n ≤ decimalFrom n s := by
  induction s with
  | nil => intro n; exact le_refl _
  | cons ch rest ih =>
    intro n
    have := ih (n * 10 + (ch.toNat - 48))
    simp only [decimalFrom, List.foldl_cons] at this ⊢
    omega

/-- `ParseUint` accepts a string of digits whose value fits 64 bits. -/
theorem parseUintLoop_of_digits (s : GoString) : ∀ n, (∀ ch ∈ s, isDigitByte ch = true) →
    decimalFrom n s < 2 ^ 64 → parseUintLoop s n = .ok (decimalFrom n s) := by
  induction s with
  | nil => intro n _ _; rfl
  | cons ch rest ih =>
    intro n hd hv
    have hge := decimalFrom_ge rest (n * 10 + (ch.toNat - 48))
    have hv2 : decimalFrom (n * 10 + (ch.toNat - 48)) rest < 2 ^ 64 := by
      simpa [decimalFrom] using hv
    have hdc : ¬ isDigitByte ch = false := by
      rw [hd ch (List.mem_cons_self _ _)]; simp
    simp only [parseUintLoop]
    rw [if_neg hdc, if_neg (by omega), if_neg (by omega),
      ih _ (fun c hc => hd c (List.mem_cons_of_mem _ hc)) hv2]
    simp [decimalFrom]

/-- What `ParseUint` accepts is a string of digits, and its value fits 64 bits. -/
theorem parseUintLoop_ok (s : GoString) : ∀ n v, n < 2 ^ 64 → parseUintLoop s n = .ok v →
    (∀ ch ∈ s, isDigitByte ch = true) ∧ v = decimalFrom n s ∧ v < 2 ^ 64 := by
  induction s with
  | nil =>
    intro n v hn h
    simp only [parseUintLoop, Except.ok.injEq] at h
    subst h
    exact ⟨by simp, rfl, hn⟩
  | cons ch rest ih =>
    intro n v hn h
    simp only [parseUintLoop] at h
    split at h
    · simp at h
    · rename_i hd
      split at h
      · simp at h
      · split at h
        · simp at h
        · rename_i h1 h2
          obtain ⟨a, b, c⟩ := ih _ v (by omega) h
          refine ⟨?_, by simpa [decimalFrom] using b, c⟩
          intro c hc
          rcases List.mem_cons.mp hc with e | e
          · subst e; simpa using hd
          · exact a c e

theorem ParseUint_of_decimal (s : GoString) (hd : IsDecimal s) (hv : decimalValue s < 2 ^ 64) :
    ParseUint s = .ok (decimalValue s) := by
  unfold ParseUint
  rw [if_neg hd.1]
  exact parseUintLoop_of_digits s 0 hd.2 hv

theorem ParseUint_ok (s : GoString) (v : Nat) (h : ParseUint s = .ok v) :
    IsDecimal s ∧ v = decimalValue s := by
  unfold ParseUint at h
  split at h
  · simp at h
  · rename_i hne
    obtain ⟨a, b, -⟩ := parseUintLoop_ok s 0 v (by norm_num) h
    exact ⟨⟨hne, a⟩, b⟩

theorem isDigitByte_not_sign (c : UInt8) (h : isDigitByte c = true) :
    ¬ (c.toNat = 43 ∨ c.toNat = 45) := by
  simp only [isDigitByte, decide_eq_true_eq] at h
  omega

/-- `Atoi` accepts a non-empty string of digits that denotes a number below `2^63`. -/
theorem Atoi_of_decimal (s : GoString) (hd : IsDecimal s) (hv : decimalValue s < 2 ^ 63) :
    Atoi s = ((decimalValue s : Int), none) := by
  obtain ⟨hne, hdig⟩ := hd
  cases s with
  | nil => exact absurd rfl hne
  | cons c rest =>
    have hc := isDigitByte_not_sign c (hdig c (List.mem_cons_self _ _))
    have hneg : decide (c.toNat = 45) = false := by
      simp only [decide_eq_false_iff_not]; omega
    have hp := ParseUint_of_decimal (c :: rest) ⟨hne, hdig⟩ (by omega)
    simp only [Atoi, if_neg hc, hp, hneg]
    rw [if_neg (by omega), if_neg (by simp)]
    simp

/-- `Atoi` accepts a `+` followed by a non-empty string of digits that denotes a number
below `2^63`. -/
theorem Atoi_of_plus (c : UInt8) (rest : GoString) (hc : c.toNat = 43) (hd : IsDecimal rest)
    (hv : decimalValue rest < 2 ^ 63) :
    Atoi (c :: rest) = ((decimalValue rest : Int), none) := by
  have hneg : decide (c.toNat = 45) = false := by
    simp only [decide_eq_false_iff_not]; omega
  have hp := ParseUint_of_decimal rest hd (by omega)
  simp only [Atoi, if_pos (Or.inl hc), hp, hneg]
  rw [if_neg (by omega), if_neg (by simp)]
  simp

/-- `Atoi` rejects a string of digits that denotes `2^63` or more. -/
theorem Atoi_of_big (s : GoString) (hd : IsDecimal s) (hv : 2 ^ 63 ≤ decimalValue s) :
    ∃ e, (Atoi s).2 = some e := by
  obtain ⟨hne, hdig⟩ := hd
  cases s with
  | nil => exact absurd rfl hne
  | cons c rest =>
    have hc := isDigitByte_not_sign c (hdig c (List.mem_cons_self _ _))
    have hneg : decide (c.toNat = 45) = false := by
      simp only [decide_eq_false_iff_not]; omega
    simp only [Atoi, if_neg hc, hneg]
    rcases hp : ParseUint (c :: rest) with e | un
    · cases e
      · exact ⟨_, rfl⟩
      · exact ⟨_, rfl⟩
    · obtain ⟨-, hun⟩ := ParseUint_ok _ _ hp
      simp only
      rw [if_pos ⟨trivial, by omega⟩]
      exact ⟨_, rfl⟩

/-- What `Atoi` accepts is a non-empty string of digits, possibly after one sign. -/
theorem Atoi_ok (s : GoString) (h : (Atoi s).2 = none) :
    IsDecimal s ∨ ∃ c rest, s = c :: rest ∧ (c.toNat = 43 ∨ c.toNat = 45) ∧ IsDecimal rest := by
  cases s with
  | nil => simp [Atoi] at h
  | cons c rest =>
    simp only [Atoi] at h
    by_cases hc : c.toNat = 43 ∨ c.toNat = 45
    · rw [if_pos hc] at h
      rcases hp : ParseUint rest with e | un
      · rw [hp] at h
        cases e <;> simp at h
      · exact Or.inr ⟨c, rest, rfl, hc, (ParseUint_ok _ _ hp).1⟩
    · rw [if_neg hc] at h
      rcases hp : ParseUint (c :: rest) with e | un
      · rw [hp] at h
        cases e <;> simp at h
      · exact Or.inl (ParseUint_ok _ _ hp).1

theorem HostIDBalancer_of_atoi_error (key : GoString) (k : Int) (v : Int) (e : NumError)
    (h : Atoi (hostRemainder key) = (v, some e)) :
    HostIDBalancer (.str key) k = .ok (0, some (.parseHostID (hostRemainder key) e)) := by
  unfold hostRemainder at h
  simp only [HostIDBalancer, ParseHostID, h, hostRemainder]

theorem HostIDBalancer_of_atoi_ok (key : GoString) (k : Int) (hk : k ≠ 0) (id : Int)
    (h : Atoi (hostRemainder key) = (id, none)) :
    HostIDBalancer (.str key) k = .ok (Int.tmod id k, none) := by
  unfold hostRemainder at h
  simp only [HostIDBalancer, ParseHostID, h, goMod, if_neg hk]

/-- C10, as amended: for every string key and bucket count `k >= 1`, `HostIDBalancer` returns
an error and index `0` whenever the key, after removal of one leading `host_`, is neither a
non-empty string of decimal digits nor such a string after one sign byte (`+`, 43, or `-`,
45), and also whenever it is a string of digits that denotes `2^63` or more; it returns no
error, and the denoted number modulo `k`, whenever the remainder is a non-empty string of
decimal digits, possibly after one `+`, that denotes a number below `2^63`. -/
theorem hostIDBalancer_parse (key : GoString) (k : Int) (hk : 1 ≤ k) :
    ((¬ IsDecimal (hostRemainder key) ∧
        ¬ ∃ c rest, hostRemainder key = c :: rest ∧ (c.toNat = 43 ∨ c.toNat = 45) ∧
          IsDecimal rest) →
      ∃ e, HostIDBalancer (.str key) k = .ok (0, some e)) ∧
    (IsDecimal (hostRemainder key) → 2 ^ 63 ≤ decimalValue (hostRemainder key) →
      ∃ e, HostIDBalancer (.str key) k = .ok (0, some e)) ∧
    (IsDecimal (hostRemainder key) → decimalValue (hostRemainder key) < 2 ^ 63 →
      HostIDBalancer (.str key) k
        = .ok (Int.tmod (decimalValue (hostRemainder key)) k, none)) ∧
    (∀ c rest, hostRemainder key = c :: rest → c.toNat = 43 → IsDecimal rest →
      decimalValue rest < 2 ^ 63 →
      HostIDBalancer (.str key) k = .ok (Int.tmod (decimalValue rest) k, none)) := by
  have hk0 : k ≠ 0 := by omega
  refine ⟨?_, ?_, ?_, ?_⟩
  · intro ⟨h1, h2⟩
    rcases ha : Atoi (hostRemainder key) with ⟨v, e⟩
    cases e with
    | none =>
      have := Atoi_ok (hostRemainder key) (by rw [ha])
      rcases this with h | h
      · exact absurd h h1
      · exact absurd h h2
    | some e => exact ⟨_, HostIDBalancer_of_atoi_error key k v e ha⟩
  · intro hd hv
    obtain ⟨e, he⟩ := Atoi_of_big _ hd hv
    rcases ha : Atoi (hostRemainder key) with ⟨v, e2⟩
    rw [ha] at he
    simp only at he
    subst he
    exact ⟨_, HostIDBalancer_of_atoi_error key k v e ha⟩
  · intro hd hv
    exact HostIDBalancer_of_atoi_ok key k hk0 _ (Atoi_of_decimal _ hd hv)
  · intro c rest hr hc hd hv
    exact HostIDBalancer_of_atoi_ok key k hk0 _ (by rw [hr]; exact Atoi_of_plus c rest hc hd hv)

/-- C10, witness: the key `host_000007` with three buckets. -/
theorem hostIDBalancer_parse_witness :
    ((¬ IsDecimal (hostRemainder (goString "host_000007")) ∧
        ¬ ∃ c rest, hostRemainder (goString "host_000007") = c :: rest ∧
          (c.toNat = 43 ∨ c.toNat = 45) ∧ IsDecimal rest) →
      ∃ e, HostIDBalancer (.str (goString "host_000007")) 3 = .ok (0, some e)) ∧
    (IsDecimal (hostRemainder (goString "host_000007")) →
      2 ^ 63 ≤ decimalValue (hostRemainder (goString "host_000007")) →
      ∃ e, HostIDBalancer (.str (goString "host_000007")) 3 = .ok (0, some e)) ∧
    (IsDecimal (hostRemainder (goString "host_000007")) →
      decimalValue (hostRemainder (goString "host_000007")) < 2 ^ 63 →
      HostIDBalancer (.str (goString "host_000007")) 3
        = .ok (Int.tmod (decimalValue (hostRemainder (goString "host_000007"))) 3, none)) ∧
    (∀ c rest, hostRemainder (goString "host_000007") = c :: rest → c.toNat = 43 →
      IsDecimal rest → decimalValue rest < 2 ^ 63 →
      HostIDBalancer (.str (goString "host_000007")) 3
        = .ok (Int.tmod (decimalValue rest) 3, none)) :=
  hostIDBalancer_parse (goString "host_000007") 3 (by decide)

/-- C10, counterexample to the claim as stated: after removal of `host_` the key `host_+7`
leaves `+7`, which is not a string of decimal digits, and yet `HostIDBalancer` returns no
error and assigns bucket `1` of three. -/
theorem hostIDBalancer_parse_counterexample :
    ¬ IsDecimal (hostRemainder (goString "host_+7")) ∧
    HostIDBalancer (.str (goString "host_+7")) 3 = .ok (1, none) :=
  ⟨by decide, by decide⟩

/-! ## Determinism of the balancers -/

/-- After every call of the hash balancer, with a string or not, returning or panicking,
the shared hasher is in its reset state. -/
theorem NewHashBalancer_resets (H : Hash32) (s : H.State) (value : Value) (k : Int) :
    (NewHashBalancer H s value k).2 = H.init := by
  unfold NewHashBalancer
  cases value with
  | str str =>
    simp only
    split <;> rfl
  | query q => rfl
  | int n => rfl
  | nil => rfl

theorem hasherAfter_init (H : Hash32) : ∀ (calls : List (Value × Int)),
    hasherAfter H H.init calls = H.init := by
  intro calls
  induction calls with
  | nil => rfl
  | cons call rest ih =>
    simp only [hasherAfter, NewHashBalancer_resets]
    exact ih

theorem hasherAfter_of_ne_nil (H : Hash32) (s : H.State) (calls : List (Value × Int))
    (hne : calls ≠ []) : hasherAfter H s calls = H.init := by
  cases calls with
  | nil => exact absurd rfl hne
  | cons call rest =>
    simp only [hasherAfter, NewHashBalancer_resets]
    exact hasherAfter_init H rest

/-- C9, as amended: for every value and bucket count, `HostIDBalancer` reads and changes no
state, so every call on the same key and count returns the same result; a balancer built
by `NewHashBalancer(h)` leaves the shared hasher in its reset state after every call,
successful, failing or panicking; hence, when `h` is in its reset state at the time the
balancer is built (as `fnv.New32()` is in `Exec`), a call returns the same result no matter
which other calls were made before, and for a hasher in any state all calls after the first
one do. -/
theorem balancers_deterministic (H : Hash32) (calls : List (Value × Int)) (value : Value)
    (k : Int) :
    (∀ u : Unit, hostIDBalancer u value k = (HostIDBalancer value k, u)) ∧
    (∀ s, (NewHashBalancer H s value k).2 = H.init) ∧
    NewHashBalancer H (hasherAfter H H.init calls) value k = NewHashBalancer H H.init value k ∧
    (∀ s, calls ≠ [] →
      NewHashBalancer H (hasherAfter H s calls) value k = NewHashBalancer H H.init value k) := by
  refine ⟨fun _ => rfl, fun s => NewHashBalancer_resets H s value k, ?_, ?_⟩
  · rw [hasherAfter_init]
  · intro s hne
    rw [hasherAfter_of_ne_nil H s calls hne]

/-- C9, counterexample to the claim as stated: a balancer built over an FNV hasher to which
the byte `x` was written before returns bucket `0` of five for the key `a` at its first call
and bucket `1` for the same key at its second call. -/
theorem balancers_deterministic_counterexample :
    (NewHashBalancer fnv32 (fnv32.Write fnv32.init (goString "x"))
      (.str (goString "a")) 5).1 = .ok (0, none) ∧
    (NewHashBalancer fnv32
      (NewHashBalancer fnv32 (fnv32.Write fnv32.init (goString "x")) (.str (goString "a")) 5).2
      (.str (goString "a")) 5).1 = .ok (1, none) :=
  ⟨by decide, by decide⟩

/-! ## The host-id balancer on well-formed keys -/

theorem hostRemainder_host (d : GoString) : hostRemainder (goString "host_" ++ d) = d := by
  unfold hostRemainder TrimPrefix
  have hp : (goString "host_").isPrefixOf (goString "host_" ++ d) = true :=
    List.isPrefixOf_iff_prefix.mpr (List.prefix_append _ _)
  rw [if_pos hp, List.drop_left]

/-- C11: for every natural number `id < 2^63`, every decimal rendering `d` of `id` (a
non-empty string of decimal digits that denotes `id`, with any number of leading zeros) and
every bucket count `k >= 1`, `HostIDBalancer("host_" ++ d, k)` returns no error and the index
`id mod k`, which lies in `[0, k)`. -/
theorem hostIDBalancer_id_mod (id : Nat) (hid : id < 2 ^ 63) (d : GoString) (hd : IsDecimal d)
    (hval : decimalValue d = id) (k : Int) (hk : 1 ≤ k) :
    HostIDBalancer (.str (goString "host_" ++ d)) k = .ok ((id : Int) % k, none) ∧
      0 ≤ (id : Int) % k ∧ (id : Int) % k < k := by
  have hk0 : k ≠ 0 := by omega
  have hat : Atoi (hostRemainder (goString "host_" ++ d)) = ((id : Int), none) := by
    rw [hostRemainder_host, ← hval]
    exact Atoi_of_decimal d hd (by rw [hval]; exact hid)
  refine ⟨?_, Int.emod_nonneg _ hk0, Int.emod_lt_of_pos _ (by omega)⟩
  rw [HostIDBalancer_of_atoi_ok _ k hk0 _ hat,
    Int.tmod_eq_emod (Int.ofNat_nonneg id) (by omega)]

/-- C11, witness: the six-digit zero-padded rendering of `7`, three buckets. -/
theorem hostIDBalancer_id_mod_witness :
    HostIDBalancer (.str (goString "host_" ++ goString "000007")) 3
        = .ok (((7 : Nat) : Int) % 3, none) ∧
      0 ≤ ((7 : Nat) : Int) % 3 ∧ ((7 : Nat) : Int) % 3 < 3 :=
  hostIDBalancer_id_mod 7 (by decide) (goString "000007") (by decide) (by decide) 3 (by decide)

/-! ## Further claims on the streaming median -/

/-- C12, the failing input: with element type `uint8`, after the pushes `0, 1, 2` into a
median created by `NewMedian`, `MedianRaw` returns `[0]` and `Median()` is `0`, while the
middle element of the sorted sequence, the classical median, is `1`: the negation `-0`
wraps to `0`, so `low` orders `0` as the greatest value of the low half. -/
theorem median_uint8_wrong :
    (∃ m, Median.pushAll uint8 NewMedian [0, 1, 2] = .ok m ∧
      m.MedianRaw uint8 = .ok [0] ∧ m.median uint8 = .ok 0) ∧
    middleValues [0, 1, 2] = [1] ∧ classicalMedian [0, 1, 2] = 1 := by
  refine ⟨⟨⟨[0, 255], [2]⟩, by decide, by decide, ?_⟩, by decide, ?_⟩
  · have h : Median.MedianRaw uint8 ⟨[0, 255], [2]⟩ = .ok [0] := by decide
    simp [Median.median, h, float64OfInt, roundRatio, GoFloat64.toRat]
  · have h : sortedValues [0, 1, 2] = [0, 1, 2] := by decide
    simp [classicalMedian, h]

theorem balanced_pushAll (K : IntKind) : ∀ (xs : List Int) (m : Median), m.Balanced →
    ∃ m2, Median.pushAll K m xs = .ok m2 ∧ m2.Balanced ∧
      m2.low.length + m2.high.length = m.low.length + m.high.length + xs.length := by
  intro xs
  induction xs with
  | nil => intro m hb; exact ⟨m, rfl, hb, rfl⟩
  | cons x xs ih =>
    intro m hb
    obtain ⟨m1, e1, hb1, hl1⟩ := hb.balanced_push K x
    obtain ⟨m2, e2, hb2, hl2⟩ := ih m1 hb1
    refine ⟨m2, by simp only [Median.pushAll, e1, e2], hb2, ?_⟩
    simp only [List.length_cons]
    omega

/-- C13: after any finite sequence of pushes of integers of any kind into a median created
by `NewMedian`, no push has panicked and the two heaps are balanced: `low.Len() >=
high.Len()` and `low.Len() - high.Len() <= 1`; of the `n` pushed values `low` holds
`ceil(n/2)` and `high` holds `floor(n/2)`. -/
theorem median_heaps_balanced (K : IntKind) (xs : List Int) :
    ∃ m, Median.pushAll K NewMedian xs = .ok m ∧
      m.high.Len ≤ m.low.Len ∧ m.low.Len - m.high.Len ≤ 1 ∧
      m.low.Len = (xs.length + 1) / 2 ∧ m.high.Len = xs.length / 2 := by
  obtain ⟨m, e, hb, hl⟩ := balanced_pushAll K xs NewMedian (Or.inl rfl)
  refine ⟨m, e, ?_⟩
  simp only [NewMedian, List.length_nil] at hl
  unfold Median.Balanced at hb
  simp only [Heap.Len]
  omega

/-- C14: after any finite sequence of pushes of Go `int` values with a representable
negation into a median created by `NewMedian`, every value of the low half (the negation of
an entry of `low`) is at most every value of `high`; the backing slices of `low` and `high`
both have the min-heap property; `-low[0]` is the greatest value of the low half and
`high[0]` the least value of the high half. -/
theorem median_halves_ordered (xs : List Int) (hxs : ∀ x ∈ xs, int64.Negatable x) :
    ∃ m, Median.pushAll int64 NewMedian xs = .ok m ∧
      (∀ a ∈ m.low, ∀ b ∈ m.high, int64.neg a ≤ b) ∧
      IsHeap m.low ∧ IsHeap m.high ∧
      (∀ a ∈ m.low, int64.neg a ≤ int64.neg (m.low.getD 0 0)) ∧
      (∀ b ∈ m.high, m.high.getD 0 0 ≤ b) := by
  obtain ⟨m, hm, inv⟩ := MedianInv.median_new.median_pushAll xs (by simp) hxs
  rw [List.nil_append] at inv
  have hneg := inv.negatable_low hxs
  refine ⟨m, hm, ?_, inv.lowHeap, inv.highHeap, ?_, inv.highHeap.root_le_mem⟩
  · intro a ha b hb
    rw [int64_neg_of_negatable a (hneg a ha)]
    exact inv.sep a ha b hb
  · intro a ha
    have h0 : m.low.getD 0 0 ∈ m.low := by
      cases hl : m.low with
      | nil => rw [hl] at ha; simp at ha
      | cons l0 lt => simp
    rw [int64_neg_of_negatable a (hneg a ha), int64_neg_of_negatable _ (hneg _ h0)]
    have := inv.lowHeap.root_le_mem a ha
    omega

/-- C14, witness: the sequence of the repository's median test. -/
theorem median_halves_ordered_witness :
    ∃ m, Median.pushAll int64 NewMedian [-1, 9, 2, 8, 3, 7] = .ok m ∧
      (∀ a ∈ m.low, ∀ b ∈ m.high, int64.neg a ≤ b) ∧
      IsHeap m.low ∧ IsHeap m.high ∧
      (∀ a ∈ m.low, int64.neg a ≤ int64.neg (m.low.getD 0 0)) ∧
      (∀ b ∈ m.high, m.high.getD 0 0 ≤ b) :=
  median_halves_ordered [-1, 9, 2, 8, 3, 7] (by decide)

/-! ## Further claims on the balancers -/

/-- C16: for every string `s` and bucket count `k >= 1`, the balancer built by
`NewHashBalancer(h)`, called while the hasher `h` is in its reset state, returns no error
and the index `H(s) mod k`, where `H(s)` is the `uint32` sum of the hasher after the bytes
of `s` were written, a number in `[0, 2^32)`; the index lies in `[0, k)` and the hasher is
reset again; the same holds for `NewQueryHostnameBalancer(NewHashBalancer(fnv.New32()))`
applied to any query (a non-nil pointer), with the FNV-1 sum of its `Hostname`. -/
theorem hash_balancer_index (H : Hash32) (s : GoString) (k : Int) (hk : 1 ≤ k) :
    NewHashBalancer H H.init (.str s) k
      = (.ok (((H.Sum32 (H.Write H.init s) % 2 ^ 32 : Nat) : Int) % k, none), H.init) ∧
    0 ≤ ((H.Sum32 (H.Write H.init s) % 2 ^ 32 : Nat) : Int) % k ∧
    ((H.Sum32 (H.Write H.init s) % 2 ^ 32 : Nat) : Int) % k < k ∧
    H.Sum32 (H.Write H.init s) % 2 ^ 32 < 2 ^ 32 ∧
    ∀ q : MinMaxCPUQuery, execBalancer fnv32.init (some q) k
      = (.ok (((fnv32.Sum32 (fnv32.Write fnv32.init q.Hostname) % 2 ^ 32 : Nat) : Int) % k,
          none), fnv32.init) := by
  have hk0 : k ≠ 0 := by omega
  have key : ∀ (G : Hash32) (t : GoString), NewHashBalancer G G.init (.str t) k
      = (.ok (((G.Sum32 (G.Write G.init t) % 2 ^ 32 : Nat) : Int) % k, none), G.init) := by
    intro G t
    simp only [NewHashBalancer, goMod, if_neg hk0, Hash32.Reset]
    rw [Int.tmod_eq_emod (Int.ofNat_nonneg _) (by omega)]
  refine ⟨key H s, Int.emod_nonneg _ hk0, Int.emod_lt_of_pos _ (by omega),
    Nat.mod_lt _ (by norm_num), ?_⟩
  intro q
  exact key fnv32 q.Hostname

/-- C16, witness: the FNV-1 balancer on the key `host_000001` with three buckets. -/
theorem hash_balancer_index_witness :
    NewHashBalancer fnv32 fnv32.init (.str (goString "host_000001")) 3
      = (.ok (((fnv32.Sum32 (fnv32.Write fnv32.init (goString "host_000001")) % 2 ^ 32 : Nat)
          : Int) % 3, none), fnv32.init) ∧
    0 ≤ ((fnv32.Sum32 (fnv32.Write fnv32.init (goString "host_000001")) % 2 ^ 32 : Nat) : Int)
        % 3 ∧
    ((fnv32.Sum32 (fnv32.Write fnv32.init (goString "host_000001")) % 2 ^ 32 : Nat) : Int) % 3
        < 3 ∧
    fnv32.Sum32 (fnv32.Write fnv32.init (goString "host_000001")) % 2 ^ 32 < 2 ^ 32 ∧
    ∀ q : MinMaxCPUQuery, execBalancer fnv32.init (some q) 3
      = (.ok (((fnv32.Sum32 (fnv32.Write fnv32.init q.Hostname) % 2 ^ 32 : Nat) : Int) % 3,
          none), fnv32.init) :=
  hash_balancer_index fnv32 (goString "host_000001") 3 (by decide)

/-- C17: for every inner balancer `next`, in whatever state, every query `q` and every
bucket count `k`, `NewQueryHostnameBalancer(next)(q, k)` returns exactly what
`next(q.Hostname, k)` returns, index, error, panic and state of `next` alike; so two queries
with the same `Hostname` get the same result whatever their other fields; for a nil pointer
`q.Hostname` panics. -/
theorem query_balancer_delegates {σ : Type} (next : Balancer σ Value) (s : σ)
    (q : MinMaxCPUQuery) (k : Int) :
    NewQueryHostnameBalancer next s (.query (some q)) k = next s (.str q.Hostname) k ∧
    (∀ bucketSize startTime endTime,
      NewQueryHostnameBalancer next s
          (.query (some ⟨bucketSize, q.Hostname, startTime, endTime⟩)) k
        = NewQueryHostnameBalancer next s (.query (some q)) k) ∧
    NewQueryHostnameBalancer next s (.query none) k = (.error .nilPointerDereference, s) :=
  ⟨rfl, fun _ _ _ => rfl, rfl⟩

/-- C18: for every bucket count, `HostIDBalancer` and every balancer built by
`NewHashBalancer` return index `0` and an error for every value that is not a string, and
every balancer built by `NewQueryHostnameBalancer` returns index `0` and an error for every
value that is not a `*device.MinMaxCPUQuery`, whatever the inner balancer is and leaving its
state as it was: the inner balancer is not invoked. -/
theorem balancers_reject_other_types {σ : Type} (H : Hash32) (hs : H.State)
    (next next2 : Balancer σ Value) (s : σ) (value : Value) (k : Int) :
    ((∀ str, value ≠ .str str) →
      HostIDBalancer value k = .ok (0, some (.mustBeString value)) ∧
      NewHashBalancer H hs value k = (.ok (0, some (.mustBeAString value)), H.init)) ∧
    ((∀ q, value ≠ .query q) →
      NewQueryHostnameBalancer next s value k = (.ok (0, some (.mustBeQuery value)), s) ∧
      NewQueryHostnameBalancer next2 s value k = (.ok (0, some (.mustBeQuery value)), s)) := by
  constructor
  · intro h
    cases value with
    | str str => exact absurd rfl (h str)
    | query q => exact ⟨rfl, rfl⟩
    | int n => exact ⟨rfl, rfl⟩
    | nil => exact ⟨rfl, rfl⟩
  · intro h
    cases value with
    | str str => exact ⟨rfl, rfl⟩
    | query q => exact absurd rfl (h q)
    | int n => exact ⟨rfl, rfl⟩
    | nil => exact ⟨rfl, rfl⟩

/-! ## `heap.Init` and draining a heap -/

theorem down_length (h : Heap) (i n : Nat) : (down h i n).length = h.length :=
  downLoop_length _ _ _ _

theorem down_perm (h : Heap) (i n : Nat) (hn : n ≤ h.length) : (down h i n).Perm h :=
  downLoop_perm _ _ _ _ hn

/-- One `down(h, i, n)` of `heap.Init` extends the heap order from the edges whose parent
index is above `i` to those whose parent index is at least `i`. -/
theorem down_heapFrom (h : Heap) (i n : Nat) (hn : n ≤ h.length)
    (hf : HeapFrom h (i + 1) n) : HeapFrom (down h i n) i n := by
  unfold down
  apply downLoop_heapFrom _ _ _ _ _ (by omega) hn (le_refl _)
  · intro k p hk hkn hp hip hpi
    exact hf k p hk hkn hp (by omega)
  · intro k g hi hk hkn hik hg hig
    omega

theorem initLoop_spec : ∀ (i : Nat) (h : Heap) (n : Nat), n = h.length →
    HeapFrom h i n →
    (initLoop i h n).length = h.length ∧ (initLoop i h n).Perm h ∧
      HeapFrom (initLoop i h n) 0 n := by
  intro i
  induction i with
  | zero => intro h n _ hf; exact ⟨rfl, List.Perm.refl _, hf⟩
  | succ i ih =>
    intro h n hn hf
    have hl := down_length h i n
    obtain ⟨a, b, c⟩ := ih (down h i n) n (by rw [hl]; exact hn)
      (down_heapFrom h i n (by omega) hf)
    simp only [initLoop]
    exact ⟨by rw [a, hl], b.trans (down_perm h i n (by omega)), c⟩

/-- Go `heap.Init` rearranges the slice into a min-heap. -/
theorem heapInit_spec (h : Heap) :
    (heapInit h).length = h.length ∧ (heapInit h).Perm h ∧ IsHeap (heapInit h) := by
  obtain ⟨a, b, c⟩ := initLoop_spec (h.Len / 2) h h.Len rfl (by
    intro k p hk hkn hp hmp
    simp only [Heap.Len] at hkn hmp
    omega)
  refine ⟨a, b, ?_⟩
  unfold IsHeap heapInit
  rw [a]
  exact c

/-- The draining loop returns the popped values followed by the entries of the heap in
non-decreasing order. -/
theorem popAllLoop_spec : ∀ (fuel : Nat) (h : Heap) (popped : List Int), IsHeap h →
    h.length ≤ fuel → popped.Sorted (· ≤ ·) → (∀ a ∈ popped, ∀ b ∈ h, a ≤ b) →
    ∃ out, popAllLoop fuel h popped = .ok out ∧ out.Sorted (· ≤ ·) ∧
      out.Perm (popped ++ h) := by
  intro fuel
  induction fuel with
  | zero =>
    intro h popped _ hl hs _
    have : h = [] := List.length_eq_zero.mp (by omega)
    subst this
    exact ⟨popped, rfl, hs, by simp⟩
  | succ f ih =>
    intro h popped hh hl hs hle
    simp only [popAllLoop]
    by_cases hpos : 0 < h.Len
    · rw [if_pos hpos]
      have hne : h ≠ [] := by
        intro e; rw [e] at hpos; simp [Heap.Len] at hpos
      obtain ⟨h2, hpop, hperm, hlen, hheap⟩ := heapPop_ok h hne
      rw [hpop]
      have h0mem : h.getD 0 0 ∈ h := hperm.subset (List.mem_cons_self _ _)
      have hsub : ∀ b ∈ h2, b ∈ h := fun b hb => hperm.subset (List.mem_cons_of_mem _ hb)
      obtain ⟨out, e, so, po⟩ := ih h2 (popped ++ [h.getD 0 0]) (hheap hh) (by omega)
        (by
          unfold List.Sorted
          rw [List.pairwise_append]
          refine ⟨hs, by simp, ?_⟩
          intro a ha b hb
          have : b = h.getD 0 0 := by simpa using hb
          rw [this]
          exact hle a ha _ h0mem)
        (by
          intro a ha b hb
          rcases List.mem_append.mp ha with ha | ha
          · exact hle a ha b (hsub b hb)
          · have : a = h.getD 0 0 := by simpa using ha
            rw [this]
            exact hh.root_le_mem b (hsub b hb))
      refine ⟨out, e, so, po.trans ?_⟩
      rw [List.append_assoc]
      exact List.Perm.append_left popped (by simpa using hperm)
    · rw [if_neg hpos]
      have : h = [] := List.length_eq_zero.mp (by simp only [Heap.Len] at hpos; omega)
      subst this
      exact ⟨popped, rfl, hs, by simp⟩

/-- C20: for every list of integers, `heap.Init` on it as a `genheap.Heap` and then
`heap.Pop` until the heap is empty never panics and returns the elements in non-decreasing
order, as a permutation of the input list (so it returns the sorted list); after
`heap.Init` the entry at index `0` is at most every element of the list, and it is an
element of the list when the list is not empty. -/
theorem heapInit_popAll_sorted (xs : List Int) :
    (∃ popped, popAll (heapInit xs) = .ok popped ∧ popped.Sorted (· ≤ ·) ∧ popped.Perm xs ∧
      popped = sortedValues xs) ∧
    (∀ x ∈ xs, (heapInit xs).getD 0 0 ≤ x) ∧
    (xs ≠ [] → (heapInit xs).getD 0 0 ∈ xs) := by
  obtain ⟨hl, hp, hh⟩ := heapInit_spec xs
  refine ⟨?_, ?_, ?_⟩
  · obtain ⟨out, e, so, po⟩ := popAllLoop_spec (heapInit xs).Len (heapInit xs) [] hh
      (le_refl _) (by simp) (by simp)
    have po2 : out.Perm xs := by
      rw [List.nil_append] at po
      exact po.trans hp
    refine ⟨out, e, so, po2, ?_⟩
    exact List.eq_of_perm_of_sorted (r := (· ≤ ·))
      (po2.trans (sortedValues_perm xs).symm) so (sortedValues_sorted xs)
  · intro x hx
    exact hh.root_le_mem x (hp.symm.subset hx)
  · intro hne
    have hlen : 0 < (heapInit xs).length := by
      rw [hl]; exact List.length_pos.mpr hne
    have : (heapInit xs).getD 0 0 ∈ heapInit xs := by
      rw [List.getD_eq_getElem _ _ hlen]
      exact List.getElem_mem _
    exact hp.subset this

/-! ## The aggregation of successful results -/

theorem getD_set_of_lt {β : Type} (l : List β) (k j : Nat) (x d : β) (hk : k < l.length) :
    (l.set k x).getD j d = if j = k then x else l.getD j d := by
  simp only [List.getD_eq_getElem?_getD, List.getElem?_set]
  by_cases h : k = j
  · subst h; simp [hk]
  · simp [h, Ne.symm h]

theorem aggregator_pushAll_append (K : IntKind) : ∀ (xs ys : List Int) (a : Aggregator),
    Aggregator.pushAll K a (xs ++ ys) =
      match Aggregator.pushAll K a xs with
      | .error e => .error e
      | .ok a1 => Aggregator.pushAll K a1 ys := by
  intro xs
  induction xs with
  | nil => intro ys a; rfl
  | cons x xs ih =>
    intro ys a
    simp only [List.cons_append, Aggregator.pushAll]
    cases a.Push K x with
    | error e => rfl
    | ok a1 => exact ih ys a1

/-- What was pushed into a new aggregator determines its invariant. -/
theorem aggInv_of_pushAll (xs : List Int) (a : Aggregator)
    (h : Aggregator.pushAll int64 NewAggregator xs = .ok a) : AggInv int64 a xs := by
  obtain ⟨a2, e, inv⟩ := (AggInv.agg_new int64 (by decide)).agg_pushAll xs
  rw [List.nil_append] at inv
  rw [h] at e
  cases e
  exact inv

/-- One more push into an aggregator that holds `xs` returns the aggregator that holds
`xs` followed by the value. -/
theorem push_after_pushAll (xs : List Int) (a : Aggregator) (x : Int)
    (h : Aggregator.pushAll int64 NewAggregator xs = .ok a) :
    ∃ a2, a.Push int64 x = .ok a2 ∧
      Aggregator.pushAll int64 NewAggregator (xs ++ [x]) = .ok a2 := by
  obtain ⟨a2, e, -⟩ := (aggInv_of_pushAll xs a h).agg_push x
  refine ⟨a2, e, ?_⟩
  rw [aggregator_pushAll_append, h]
  simp only [Aggregator.pushAll, e]

theorem execTimesOf_append (F : CostOps) (pre : List (QueryExecutionResult F))
    (r : QueryExecutionResult F) (stats : QueryStats F) (hr : r.Stats = some stats) :
    execTimesOf F (pre ++ [r]) = execTimesOf F pre ++ [stats.ExecutionTime] := by
  simp [execTimesOf, List.filterMap_append, hr]

theorem costsOf_append (F : CostOps) (pre : List (QueryExecutionResult F))
    (r : QueryExecutionResult F) (stats : QueryStats F) (hr : r.Stats = some stats) :
    costsOf F (pre ++ [r]) = costsOf F pre ++ [stats.Cost] := by
  simp [costsOf, List.filterMap_append, hr]

theorem taggedWith_append_same (F : CostOps) (pre : List (QueryExecutionResult F))
    (r : QueryExecutionResult F) :
    taggedWith F r.Worker (pre ++ [r]) = taggedWith F r.Worker pre ++ [r] := by
  simp [taggedWith, List.filter_append]

theorem taggedWith_append_other (F : CostOps) (pre : List (QueryExecutionResult F))
    (r : QueryExecutionResult F) (w : Int) (hw : r.Worker ≠ w) :
    taggedWith F w (pre ++ [r]) = taggedWith F w pre := by
  simp [taggedWith, List.filter_append, hw]

theorem timeEntry_agg (entry : Option Aggregator) (xs : List Int) (h : TimeEntry entry xs) :
    Aggregator.pushAll int64 NewAggregator xs = .ok (entry.getD NewAggregator) := by
  cases entry with
  | none =>
    have : xs = [] := h
    subst this
    rfl
  | some a => exact h.2

theorem costEntry_agg (F : CostOps) (entry : Option F.Agg) (cs : List F.Cost)
    (h : CostEntry F entry cs) : entry.getD F.new = cs.foldl F.push F.new := by
  cases entry with
  | none =>
    have : cs = [] := h
    subst this
    rfl
  | some a => exact h.2

/-- The loop of `aggregateStats` on results that all carry statistics and a worker index
below `n`: it returns, and the statistics are those of all results seen. -/
theorem aggregateLoop_spec (F : CostOps) (n : Nat) :
    ∀ (rest : List (QueryExecutionResult F)) (st : BenchmarkStats F)
      (pre : List (QueryExecutionResult F)),
    AggregatedInv F n st pre →
    (∀ r ∈ rest, r.Stats.isSome = true ∧ 0 ≤ r.Worker ∧ r.Worker < (n : Int)) →
    ∃ st2, aggregateLoop F rest st = .ok st2 ∧ AggregatedInv F n st2 (pre ++ rest) := by
  intro rest
  induction rest with
  | nil =>
    intro st pre inv _
    exact ⟨st, rfl, by simpa using inv⟩
  | cons r rest ih =>
    intro st pre inv hall
    obtain ⟨hsome, hw0, hwn⟩ := hall r (List.mem_cons_self _ _)
    rcases hs : r.Stats with _ | stats
    · rw [hs] at hsome; simp at hsome
    · obtain ⟨tg, etg, htg⟩ := push_after_pushAll _ _ stats.ExecutionTime inv.timeGlobal
      have hwlt : r.Worker.toNat < n := by omega
      have hwc : ((r.Worker.toNat : Nat) : Int) = r.Worker := by omega
      have hte := inv.timeEntry r.Worker.toNat hwlt
      have hce := inv.costEntry r.Worker.toNat hwlt
      rw [hwc] at hte hce
      obtain ⟨wt, ewt, hwt⟩ := push_after_pushAll _ _ stats.ExecutionTime (timeEntry_agg _ _ hte)
      have hwcost := costEntry_agg F _ _ hce
      have hstep : AggregatedInv F n
          ⟨tg, st.ExecTimeByWorker.set r.Worker.toNat (some wt),
            F.push st.CostGlobal stats.Cost,
            st.CostByWorker.set r.Worker.toNat
              (some (F.push ((st.CostByWorker.getD r.Worker.toNat none).getD F.new)
                stats.Cost))⟩ (pre ++ [r]) := by
        refine ⟨?_, ?_, ?_, ?_, ?_, ?_⟩
        · rw [execTimesOf_append F pre r stats hs]
          exact htg
        · rw [costsOf_append F pre r stats hs, List.foldl_append, ← inv.costGlobal]
          rfl
        · simp only [List.length_set]
          exact inv.timeLen
        · simp only [List.length_set]
          exact inv.costLen
        · intro w hw
          simp only
          rw [getD_set_of_lt _ _ _ _ _ (by rw [inv.timeLen]; exact hwlt)]
          by_cases e : w = r.Worker.toNat
          · rw [if_pos e]
            have e2 : (w : Int) = r.Worker := by omega
            rw [e2, taggedWith_append_same, execTimesOf_append F _ r stats hs]
            exact ⟨by simp, hwt⟩
          · rw [if_neg e, taggedWith_append_other F pre r (w : Int) (by omega)]
            exact inv.timeEntry w hw
        · intro w hw
          simp only
          rw [getD_set_of_lt _ _ _ _ _ (by rw [inv.costLen]; exact hwlt)]
          by_cases e : w = r.Worker.toNat
          · rw [if_pos e]
            have e2 : (w : Int) = r.Worker := by omega
            rw [e2, taggedWith_append_same, costsOf_append F _ r stats hs]
            refine ⟨by simp, ?_⟩
            rw [List.foldl_append, ← hwcost]
            rfl
          · rw [if_neg e, taggedWith_append_other F pre r (w : Int) (by omega)]
            exact inv.costEntry w hw
      obtain ⟨st2, e2, inv2⟩ := ih _ (pre ++ [r]) hstep
        (fun x hx => hall x (List.mem_cons_of_mem _ hx))
      refine ⟨st2, ?_, by simpa using inv2⟩
      simp only [aggregateLoop, hs, etg]
      rw [if_neg (by rw [inv.timeLen]; omega)]
      simp only [ewt]
      rw [if_neg (by rw [inv.costLen]; omega)]
      exact e2

theorem sum_indicator_range (W : Int) : ∀ n : Nat,
    ((List.range n).map (fun w : Nat => if W = (w : Int) then (1 : Int) else 0)).sum
      = if 0 ≤ W ∧ W < (n : Int) then 1 else 0 := by
  intro n
  induction n with
  | zero =>
    simp only [List.range_zero, List.map_nil, List.sum_nil]
    rw [if_neg (by omega)]
  | succ n ih =>
    rw [List.range_succ, List.map_append, List.sum_append, ih]
    simp only [List.map_cons, List.map_nil, List.sum_cons, List.sum_nil, add_zero]
    by_cases h1 : 0 ≤ W ∧ W < (n : Int)
    · rw [if_pos h1, if_neg (by omega), if_pos (by push_cast; omega)]
      rfl
    · by_cases h2 : W = (n : Int)
      · rw [if_neg h1, if_pos h2, if_pos (by push_cast; omega)]
        rfl
      · rw [if_neg h1, if_neg h2, if_neg (by push_cast; omega)]
        rfl

/-- The results of the workers `0 .. n-1` are all the results, when every worker index is
below `n`. -/
theorem sum_tagged_lengths (F : CostOps) (n : Nat) :
    ∀ (results : List (QueryExecutionResult F)),
    (∀ r ∈ results, 0 ≤ r.Worker ∧ r.Worker < (n : Int)) →
    ((List.range n).map
      (fun w : Nat => ((taggedWith F (w : Int) results).length : Int))).sum
      = (results.length : Int) := by
  intro results
  induction results with
  | nil =>
    intro _
    simp [taggedWith]
  | cons r rs ih =>
    intro h
    have hr := h r (List.mem_cons_self _ _)
    have e : (fun w : Nat => ((taggedWith F (w : Int) (r :: rs)).length : Int))
        = (fun w : Nat => (if r.Worker = (w : Int) then (1 : Int) else 0)
            + ((taggedWith F (w : Int) rs).length : Int)) := by
      funext w
      unfold taggedWith
      by_cases hw : r.Worker = (w : Int)
      · simp [List.filter_cons, hw]
        omega
      · simp [List.filter_cons, hw]
    rw [e, List.sum_map_add, sum_indicator_range, if_pos hr,
      ih (fun x hx => h x (List.mem_cons_of_mem _ hx))]
    simp only [List.length_cons]
    push_cast
    omega

theorem map_eq_map_range {β γ : Type} (l : List β) (d : β) (f : β → γ) :
    l.map f = (List.range l.length).map (fun w => f (l.getD w d)) := by
  apply List.ext_getElem
  · simp
  · intro k h1 h2
    simp only [List.getElem_map, List.getElem_range]
    rw [List.getD_eq_getElem _ _ (by simpa using h1)]

theorem timeEntry_count (entry : Option Aggregator) (xs : List Int) (h : TimeEntry entry xs) :
    entryCount entry = (xs.length : Int) := by
  cases entry with
  | none =>
    have : xs = [] := h
    subst this
    rfl
  | some a => exact (aggInv_of_pushAll xs a h.2).count

theorem execTimesOf_length (F : CostOps) : ∀ (results : List (QueryExecutionResult F)),
    (∀ r ∈ results, r.Stats.isSome = true) →
    (execTimesOf F results).length = results.length := by
  intro results
  induction results with
  | nil => intro _; rfl
  | cons r rs ih =>
    intro h
    have hr := h r (List.mem_cons_self _ _)
    rcases hs : r.Stats with _ | stats
    · rw [hs] at hr; simp at hr
    · have := ih (fun x hx => h x (List.mem_cons_of_mem _ hx))
      simp only [execTimesOf] at this ⊢
      simp [List.filterMap_cons, hs, this]

/-- C19: for every finite stream of successful execution results (no error, statistics
present) whose worker indices lie in `[0, numWorkers)`, `aggregateStats` returns; its global
execution-time aggregator is the one obtained by pushing the execution time of every result
in stream order into a new aggregator, and its global cost aggregator the one obtained by
pushing every cost in stream order; there are `numWorkers` per-worker entries of each kind;
the entry of a worker with no result is nil, and the entry of any other worker is the
aggregator obtained by pushing the values of exactly the results tagged with that worker, in
stream order; the per-worker `Count`s sum to the global `Count`. -/
theorem aggregateStats_successful (F : CostOps) (numWorkers : Nat)
    (results : List (QueryExecutionResult F))
    (hall : ∀ r ∈ results, r.Error = none ∧ r.Stats.isSome = true ∧
      0 ≤ r.Worker ∧ r.Worker < (numWorkers : Int)) :
    ∃ st, aggregateStats F (numWorkers : Int) results = .ok st ∧
      Aggregator.pushAll int64 NewAggregator (execTimesOf F results) = .ok st.ExecTimeGlobal ∧
      st.CostGlobal = (costsOf F results).foldl F.push F.new ∧
      st.ExecTimeByWorker.length = numWorkers ∧ st.CostByWorker.length = numWorkers ∧
      (∀ w : Nat, w < numWorkers →
        TimeEntry (st.ExecTimeByWorker.getD w none)
          (execTimesOf F (taggedWith F (w : Int) results)) ∧
        CostEntry F (st.CostByWorker.getD w none)
          (costsOf F (taggedWith F (w : Int) results))) ∧
      (st.ExecTimeByWorker.map entryCount).sum = st.ExecTimeGlobal.Count := by
  have h0 : AggregatedInv F numWorkers
      ⟨NewAggregator, List.replicate numWorkers none, F.new, List.replicate numWorkers none⟩
      [] := by
    refine ⟨rfl, rfl, by simp, by simp, ?_, ?_⟩
    · intro w hw
      simp only [List.getD_eq_getElem?_getD, List.getElem?_replicate, if_pos hw]
      rfl
    · intro w hw
      simp only [List.getD_eq_getElem?_getD, List.getElem?_replicate, if_pos hw]
      rfl
  obtain ⟨st, e, inv⟩ := aggregateLoop_spec F numWorkers results _ [] h0
    (fun r hr => (hall r hr).2)
  rw [List.nil_append] at inv
  refine ⟨st, ?_, inv.timeGlobal, inv.costGlobal, inv.timeLen, inv.costLen,
    fun w hw => ⟨inv.timeEntry w hw, inv.costEntry w hw⟩, ?_⟩
  · unfold aggregateStats
    rw [if_neg (by omega)]
    simpa using e
  · rw [map_eq_map_range st.ExecTimeByWorker none entryCount, inv.timeLen]
    have e1 : (List.range numWorkers).map (fun w => entryCount (st.ExecTimeByWorker.getD w none))
        = (List.range numWorkers).map
            (fun w : Nat => ((taggedWith F (w : Int) results).length : Int)) := by
      apply List.map_congr_left
      intro w hw
      have hl : (execTimesOf F (taggedWith F (w : Int) results)).length
          = (taggedWith F (w : Int) results).length :=
        execTimesOf_length F _ (fun r hr => (hall r (List.mem_of_mem_filter hr)).2.1)
      rw [timeEntry_count _ _ (inv.timeEntry w (List.mem_range.mp hw)), hl]
    rw [e1, sum_tagged_lengths F numWorkers results (fun r hr => (hall r hr).2.2),
      (aggInv_of_pushAll _ _ inv.timeGlobal).count,
      execTimesOf_length F _ (fun r hr => (hall r hr).2.1)]

/-- C19, witness: two workers, three successful results, costs kept as integers that are
summed. -/
theorem aggregateStats_successful_witness :
    ∃ st, aggregateStats ⟨Int, Int, 0, fun a c => a + c⟩ ((2 : Nat) : Int)
        [⟨none, some ⟨5, 1⟩, none, 1⟩, ⟨none, some ⟨7, 2⟩, none, 0⟩,
          ⟨none, some ⟨3, 4⟩, none, 1⟩] = .ok st ∧
      Aggregator.pushAll int64 NewAggregator
        (execTimesOf ⟨Int, Int, 0, fun a c => a + c⟩
          [⟨none, some ⟨5, 1⟩, none, 1⟩, ⟨none, some ⟨7, 2⟩, none, 0⟩,
            ⟨none, some ⟨3, 4⟩, none, 1⟩]) = .ok st.ExecTimeGlobal ∧
      st.CostGlobal = (costsOf ⟨Int, Int, 0, fun a c => a + c⟩
          [⟨none, some ⟨5, 1⟩, none, 1⟩, ⟨none, some ⟨7, 2⟩, none, 0⟩,
            ⟨none, some ⟨3, 4⟩, none, 1⟩]).foldl (fun a c => a + c) 0 ∧
      st.ExecTimeByWorker.length = 2 ∧ st.CostByWorker.length = 2 ∧
      (∀ w : Nat, w < 2 →
        TimeEntry (st.ExecTimeByWorker.getD w none)
          (execTimesOf ⟨Int, Int, 0, fun a c => a + c⟩
            (taggedWith ⟨Int, Int, 0, fun a c => a + c⟩ (w : Int)
              [⟨none, some ⟨5, 1⟩, none, 1⟩, ⟨none, some ⟨7, 2⟩, none, 0⟩,
                ⟨none, some ⟨3, 4⟩, none, 1⟩])) ∧
        CostEntry ⟨Int, Int, 0, fun a c => a + c⟩ (st.CostByWorker.getD w none)
          (costsOf ⟨Int, Int, 0, fun a c => a + c⟩
            (taggedWith ⟨Int, Int, 0, fun a c => a + c⟩ (w : Int)
              [⟨none, some ⟨5, 1⟩, none, 1⟩, ⟨none, some ⟨7, 2⟩, none, 0⟩,
                ⟨none, some ⟨3, 4⟩, none, 1⟩]))) ∧
      (st.ExecTimeByWorker.map entryCount).sum = st.ExecTimeGlobal.Count :=
  aggregateStats_successful ⟨Int, Int, 0, fun a c => a + c⟩ 2
    [⟨none, some ⟨5, 1⟩, none, 1⟩, ⟨none, some ⟨7, 2⟩, none, 0⟩, ⟨none, some ⟨3, 4⟩, none, 1⟩]
    (by decide)

/-! ## Order of arrival and the aggregator -/

theorem aggregator_push_median (K : IntKind) (a a2 : Aggregator) (x : Int)
    (h : a.Push K x = .ok a2) :
    a.median.Push K x = .ok a2.median ∧ a2.median.median K = .ok a2.Med := by
  rcases hm : a.median.Push K x with e | med
  · simp [Aggregator.Push, hm] at h
  · rcases hv : med.median K with e | v
    · simp [Aggregator.Push, hm, hv] at h
    · simp only [Aggregator.Push, hm, hv, Except.ok.injEq] at h
      subst h
      exact ⟨rfl, hv⟩

/-- The `median` field of an aggregator is the streaming median of the pushed values, and
`Med` is its `Median()`. -/
theorem aggregator_pushAll_median (K : IntKind) : ∀ (xs : List Int) (a a2 : Aggregator),
    Aggregator.pushAll K a xs = .ok a2 →
    Median.pushAll K a.median xs = .ok a2.median ∧
      (xs ≠ [] → a2.median.median K = .ok a2.Med) := by
  intro xs
  induction xs with
  | nil =>
    intro a a2 h
    simp only [Aggregator.pushAll, Except.ok.injEq] at h
    subst h
    exact ⟨rfl, fun hne => absurd rfl hne⟩
  | cons x rest ih =>
    intro a a2 h
    simp only [Aggregator.pushAll] at h
    rcases hp : a.Push K x with e | a1
    · rw [hp] at h; simp at h
    · rw [hp] at h
      obtain ⟨hm1, hv1⟩ := aggregator_push_median K a a1 x hp
      obtain ⟨hm2, hv2⟩ := ih a1 a2 h
      refine ⟨by simp only [Median.pushAll, hm1, hm2], ?_⟩
      intro _
      cases rest with
      | nil =>
        simp only [Aggregator.pushAll, Except.ok.injEq] at h
        subst h
        exact hv1
      | cons y ys => exact hv2 (by simp)

/-- C15, the failing input: the sequences `-1, -1, min, min` and `min, min, -1, -1`, with
`min = -2^63` the least Go `int`, are permutations of each other, and pushing each into its
own new aggregator gives `Med = -2^63` for the first and `Med = -2^62` for the second (the
`float64` sum of `-1` and `-2^63` is `-2^63`): `Med` depends on the order of arrival.  The
negation `-min` wraps to `min`, so the low half orders `min` as its greatest value. -/
theorem aggregator_med_depends_on_order :
    List.Perm [-1, -1, -9223372036854775808, -9223372036854775808]
      [-9223372036854775808, -9223372036854775808, -1, (-1 : Int)] ∧
    (∃ a, Aggregator.pushAll int64 NewAggregator
        [-1, -1, -9223372036854775808, -9223372036854775808] = .ok a ∧
      a.Med = -9223372036854775808) ∧
    (∃ b, Aggregator.pushAll int64 NewAggregator
        [-9223372036854775808, -9223372036854775808, -1, -1] = .ok b ∧
      b.Med = -4611686018427387904) := by
  refine ⟨by decide, ?_, ?_⟩
  · obtain ⟨a, ha, -⟩ := (AggInv.agg_new int64 (by decide)).agg_pushAll
      [-1, -1, -9223372036854775808, -9223372036854775808]
    refine ⟨a, ha, ?_⟩
    obtain ⟨hm, hv⟩ := aggregator_pushAll_median int64 _ _ _ ha
    have e : Median.pushAll int64 NewAggregator.median
        [-1, -1, -9223372036854775808, -9223372036854775808]
        = .ok ⟨[-9223372036854775808, 1], [-9223372036854775808, -1]⟩ := by decide
    rw [e] at hm
    have hv2 := hv (by simp)
    simp only [Except.ok.injEq] at hm
    rw [← hm] at hv2
    have e2 : Median.MedianRaw int64 ⟨[-9223372036854775808, 1], [-9223372036854775808, -1]⟩
        = .ok [-9223372036854775808, -9223372036854775808] := by decide
    have e3 : float64Div (float64Add (float64OfInt (-9223372036854775808))
        (float64OfInt (-9223372036854775808))) (float64OfInt 2) = ⟨-4503599627370496, 11⟩ := by
      set_option maxRecDepth 100000 in decide
    simp only [Median.median, e2, e3, GoFloat64.toRat, Except.ok.injEq] at hv2
    rw [← hv2]
    norm_num
  · obtain ⟨b, hb, -⟩ := (AggInv.agg_new int64 (by decide)).agg_pushAll
      [-9223372036854775808, -9223372036854775808, -1, -1]
    refine ⟨b, hb, ?_⟩
    obtain ⟨hm, hv⟩ := aggregator_pushAll_median int64 _ _ _ hb
    have e : Median.pushAll int64 NewAggregator.median
        [-9223372036854775808, -9223372036854775808, -1, -1]
        = .ok ⟨[1, 1], [-9223372036854775808, -9223372036854775808]⟩ := by decide
    rw [e] at hm
    have hv2 := hv (by simp)
    simp only [Except.ok.injEq] at hm
    rw [← hm] at hv2
    have e2 : Median.MedianRaw int64 ⟨[1, 1], [-9223372036854775808, -9223372036854775808]⟩
        = .ok [-1, -9223372036854775808] := by decide
    have e3 : float64Div (float64Add (float64OfInt (-1))
        (float64OfInt (-9223372036854775808))) (float64OfInt 2) = ⟨-4503599627370496, 10⟩ := by
      set_option maxRecDepth 100000 in decide
    simp only [Median.median, e2, e3, GoFloat64.toRat, Except.ok.injEq] at hv2
    rw [← hv2]
    norm_num

theorem sortedValues_of_perm {xs ys : List Int} (hp : xs.Perm ys) :
    sortedValues xs = sortedValues ys :=
  List.eq_of_perm_of_sorted (r := (· ≤ ·))
    ((sortedValues_perm xs).trans (hp.trans (sortedValues_perm ys).symm))
    (sortedValues_sorted xs) (sortedValues_sorted ys)

theorem middleValues_of_perm {xs ys : List Int} (hp : xs.Perm ys) :
    middleValues xs = middleValues ys := by
  unfold middleValues
  rw [sortedValues_of_perm hp, hp.length_eq]

/-- For values with a representable negation, `Med` is a function of the middle of the
sorted sequence of pushed values. -/
theorem aggregator_med_of_middle (xs : List Int) (hne : xs ≠ [])
    (hxs : ∀ x ∈ xs, int64.Negatable x) (a : Aggregator)
    (ha : Aggregator.pushAll int64 NewAggregator xs = .ok a) :
    (match (Except.ok (middleValues xs) : Except GoPanic (List Int)) with
      | .error e => .error e
      | .ok [] => .ok 0
      | .ok [v0] => .ok (float64OfInt v0).toRat
      | .ok (v0 :: v1 :: _) =>
        .ok (float64Div (float64Add (float64OfInt v0) (float64OfInt v1))
          (float64OfInt 2)).toRat) = Except.ok a.Med := by
  obtain ⟨hm, hv⟩ := aggregator_pushAll_median int64 xs NewAggregator a ha
  obtain ⟨m, e, inv⟩ := MedianInv.median_new.median_pushAll xs (by simp) hxs
  rw [List.nil_append] at inv
  have hm2 : Median.pushAll int64 NewMedian xs = .ok a.median := hm
  rw [e] at hm2
  simp only [Except.ok.injEq] at hm2
  subst hm2
  have h := hv hne
  unfold Median.median at h
  rw [inv.medianRaw hxs] at h
  exact h

/-- For values with a representable negation the aggregate values do not depend on the
order of arrival: two sequences that are permutations of each other, pushed into new
aggregators, give equal `Count`, `Total`, `Min`, `Max`, `Avg` and `Med`. -/
theorem aggregator_order_independent (xs ys : List Int) (hp : xs.Perm ys)
    (hxs : ∀ x ∈ xs, int64.Negatable x) :
    ∃ a b, Aggregator.pushAll int64 NewAggregator xs = .ok a ∧
      Aggregator.pushAll int64 NewAggregator ys = .ok b ∧
      a.Count = b.Count ∧ a.Total = b.Total ∧ a.Min = b.Min ∧ a.Max = b.Max ∧
      a.Avg = b.Avg ∧ a.Med = b.Med := by
  obtain ⟨a, ha, ia⟩ := (AggInv.agg_new int64 (by decide)).agg_pushAll xs
  obtain ⟨b, hb, ib⟩ := (AggInv.agg_new int64 (by decide)).agg_pushAll ys
  rw [List.nil_append] at ia ib
  by_cases hne : xs = []
  · subst hne
    have : ys = [] := List.Perm.eq_nil hp.symm
    subst this
    simp only [Aggregator.pushAll, Except.ok.injEq] at ha hb
    subst ha hb
    exact ⟨_, _, rfl, rfl, rfl, rfl, rfl, rfl, rfl, rfl⟩
  · have hney : ys ≠ [] := fun e => hne (List.Perm.eq_nil (e ▸ hp))
    have hc : a.Count = b.Count := by rw [ia.count, ib.count, hp.length_eq]
    have ht : a.Total = b.Total := by rw [ia.total, ib.total, hp.sum_eq]
    refine ⟨a, b, ha, hb, hc, ht, ?_, ?_, ?_, ?_⟩
    · exact le_antisymm (ia.minLe _ (hp.symm.subset (ib.minMem hney)))
        (ib.minLe _ (hp.subset (ia.minMem hne)))
    · exact le_antisymm (ib.maxGe _ (hp.subset (ia.maxMem hne)))
        (ia.maxGe _ (hp.symm.subset (ib.maxMem hney)))
    · rw [ia.avg hne, ib.avg hney, hc, ht]
    · have h1 := aggregator_med_of_middle xs hne hxs a ha
      have h2 := aggregator_med_of_middle ys hney
        (fun y hy => hxs y (hp.symm.subset hy)) b hb
      rw [middleValues_of_perm hp] at h1
      rw [h1] at h2
      exact Except.ok.inj h2

/-! ## Safety of the heap operations of the streaming median -/

/-- Go `heap.Pop` panics exactly on an empty heap. -/
theorem heapPop_panics_iff (h : Heap) : (∃ p, heapPop h = .error p) ↔ h = [] := by
  constructor
  · intro ⟨p, hp⟩
    by_contra hne
    obtain ⟨h2, e, -⟩ := heapPop_ok h hne
    rw [e] at hp
    cases hp
  · intro e
    subst e
    exact ⟨_, rfl⟩

/-- C23: on a median created by `NewMedian`, for integers of any kind and after any finite
sequence of pushes, no heap operation meets an empty heap: every push has returned without
a panic; in a further `Push` of any value the heap that `heap.Pop` is applied to, `low`
after its `heap.Push` and `high` after its `heap.Push`, is not empty, and the `Push`
returns without a panic; `MedianRaw` returns without a panic, since `low` is not empty
whenever a value was pushed and `high` is not empty whenever the two lengths are equal and
not zero. -/
theorem median_no_empty_heap_access (K : IntKind) (xs : List Int) :
    ∃ m, Median.pushAll K NewMedian xs = .ok m ∧
      (∀ x a, heapPush m.low (K.neg x) ≠ [] ∧ heapPush m.high (K.neg a) ≠ []) ∧
      (∀ x, ∃ m2, m.Push K x = .ok m2) ∧
      (∃ v, m.MedianRaw K = .ok v) ∧
      (xs ≠ [] → m.low ≠ []) ∧
      (m.low.Len = m.high.Len → m.low.Len ≠ 0 → m.high ≠ []) := by
  obtain ⟨m, e, hb, hl⟩ := balanced_pushAll K xs NewMedian (Or.inl rfl)
  simp only [NewMedian, List.length_nil] at hl
  unfold Median.Balanced at hb
  have hne : ∀ (h : Heap) (y : Int), heapPush h y ≠ [] := by
    intro h y e
    have := heapPush_length h y
    rw [e] at this
    simp at this
  refine ⟨m, e, fun x a => ⟨hne _ _, hne _ _⟩, ?_, ?_, ?_, ?_⟩
  · intro x
    obtain ⟨m2, e2, -, -⟩ := Median.Balanced.balanced_push K (m := m) hb x
    exact ⟨m2, e2⟩
  · rcases hm : m with ⟨low, high⟩
    rw [hm] at hb
    simp only at hb
    cases low with
    | nil =>
      cases high with
      | nil => exact ⟨[], by simp [Median.MedianRaw, Heap.Len]⟩
      | cons b t => simp at hb
    | cons l0 lt =>
      cases high with
      | nil =>
        have : lt.length = 0 := by
          simp only [List.length_cons, List.length_nil] at hb
          omega
        exact ⟨[K.neg l0], by simp [Median.MedianRaw, Heap.Len, this]⟩
      | cons h0 ht =>
        by_cases e : lt.length = ht.length
        · exact ⟨[K.neg l0, h0], by simp [Median.MedianRaw, Heap.Len, e]⟩
        · exact ⟨[K.neg l0], by simp [Median.MedianRaw, Heap.Len, e]⟩
  · intro hx hlow
    have hxl : xs.length ≠ 0 := fun e => hx (List.length_eq_zero.mp e)
    rw [hlow] at hb hl
    simp only [List.length_nil] at hb hl
    omega
  · intro h1 h2 hhigh
    rw [hhigh] at h1
    simp only [Heap.Len, List.length_nil] at h1 h2
    omega

/-! ## The worker under cancellation -/

/-- C21, as amended: a worker whose cancellation signal is already set when it is about to
take its next bucket item (item number `i`, the first item included) still invokes the
executor on that one item, with the cancelled context, and then stops at its first
`select`: it publishes neither the result of that call nor any further result, and it makes
no further executor call. -/
theorem worker_cancelled_before_item (F : CostOps) (env : WorkerEnv F) (hmono : env.Monotone)
    (bucket : Int) (i : Nat) (query : MinMaxCPUQuery) (rest : List MinMaxCPUQuery)
    (hdone : env.done (3 * i) = true) :
    queryWorker F env bucket i (query :: rest) = [.executed query] ∧
    executorCalls (queryWorker F env bucket i (query :: rest)) = [query] ∧
    publishedResults (queryWorker F env bucket i (query :: rest)) = [] := by
  have h1 : env.done (3 * i + 1) = true := hmono (3 * i) (3 * i + 1) (by omega) hdone
  have e : queryWorker F env bucket i (query :: rest) = [.executed query] := by
    simp only [queryWorker, h1, if_true]
  rw [e]
  exact ⟨rfl, rfl, rfl⟩

/-- C21, witness: cancellation set before the first of two items. -/
theorem worker_cancelled_before_item_witness :
    queryWorker ⟨Int, Int, 0, fun a c => a + c⟩
        ⟨fun _ => true, fun _ => true, fun _ _ => (none, some .query)⟩ 0 0
        (⟨goString "1m", goString "host_000001", 0, 60⟩ ::
          [⟨goString "1m", goString "host_000002", 0, 60⟩])
      = [.executed ⟨goString "1m", goString "host_000001", 0, 60⟩] ∧
    executorCalls (queryWorker ⟨Int, Int, 0, fun a c => a + c⟩
        ⟨fun _ => true, fun _ => true, fun _ _ => (none, some .query)⟩ 0 0
        (⟨goString "1m", goString "host_000001", 0, 60⟩ ::
          [⟨goString "1m", goString "host_000002", 0, 60⟩]))
      = [⟨goString "1m", goString "host_000001", 0, 60⟩] ∧
    publishedResults (queryWorker ⟨Int, Int, 0, fun a c => a + c⟩
        ⟨fun _ => true, fun _ => true, fun _ _ => (none, some .query)⟩ 0 0
        (⟨goString "1m", goString "host_000001", 0, 60⟩ ::
          [⟨goString "1m", goString "host_000002", 0, 60⟩]))
      = [] :=
  worker_cancelled_before_item ⟨Int, Int, 0, fun a c => a + c⟩
    ⟨fun _ => true, fun _ => true, fun _ _ => (none, some .query)⟩
    (fun _ _ _ _ => rfl) 0 0 ⟨goString "1m", goString "host_000001", 0, 60⟩
    [⟨goString "1m", goString "host_000002", 0, 60⟩] rfl

/-- C21, counterexample to the claim as stated: the cancellation signal is set at every
point in time, so already before the worker takes its first item, and yet the worker
invokes the executor on that item. -/
theorem worker_cancelled_before_item_counterexample :
    (⟨fun _ => true, fun _ => true, fun _ _ => (none, some .query)⟩ :
      WorkerEnv ⟨Int, Int, 0, fun a c => a + c⟩).done 0 = true ∧
    executorCalls (queryWorker ⟨Int, Int, 0, fun a c => a + c⟩
        ⟨fun _ => true, fun _ => true, fun _ _ => (none, some .query)⟩ 0 0
        [⟨goString "1m", goString "host_000001", 0, 60⟩,
          ⟨goString "1m", goString "host_000002", 0, 60⟩])
      = [⟨goString "1m", goString "host_000001", 0, 60⟩] :=
  ⟨rfl, rfl⟩

/-! ## The number of workers of a run -/

theorem bucketsLoop_length {σ α : Type} (n : Int) (balance : Balancer σ α) :
    ∀ (values : List α) (buckets : List (List α)) (s : σ) (r : BucketsResult σ α),
    bucketsLoop n balance values buckets s = .ok r → r.err = none →
    ∃ bs, r.buckets = some bs ∧ bs.length = buckets.length := by
  intro values
  induction values with
  | nil =>
    intro buckets s r h _
    simp only [bucketsLoop, Except.ok.injEq] at h
    subst h
    exact ⟨buckets, rfl, rfl⟩
  | cons v rest ih =>
    intro buckets s r h herr
    rcases hb : balance s v n with ⟨res, s1⟩
    simp only [bucketsLoop, hb] at h
    rcases res with p | ⟨i, e⟩
    · simp at h
    · cases e with
      | some err =>
        simp only [Except.ok.injEq] at h
        subst h
        simp at herr
      | none =>
        simp only at h
        split at h
        · simp at h
        · obtain ⟨bs, h1, h2⟩ := ih _ s1 r h herr
          exact ⟨bs, h1, by rw [h2, List.length_set]⟩

theorem aggregateLoop_length (F : CostOps) :
    ∀ (rest : List (QueryExecutionResult F)) (st st2 : BenchmarkStats F),
    aggregateLoop F rest st = .ok st2 →
    st2.ExecTimeByWorker.length = st.ExecTimeByWorker.length ∧
      st2.CostByWorker.length = st.CostByWorker.length := by
  intro rest
  induction rest with
  | nil =>
    intro st st2 h
    simp only [aggregateLoop, Except.ok.injEq] at h
    subst h
    exact ⟨rfl, rfl⟩
  | cons r rest ih =>
    intro st st2 h
    simp only [aggregateLoop] at h
    split at h
    · simp at h
    · split at h
      · simp at h
      · split at h
        · simp at h
        · split at h
          · simp at h
          · split at h
            · simp at h
            · obtain ⟨a, b⟩ := ih _ _ h
              simp only [List.length_set] at a b
              exact ⟨a, b⟩

/-- C22, the code against the claim: whenever `Exec` returns without an error, the number
of buckets, the number of workers started and the number of per-worker statistics entries
are all the value of the package-level `concurrency` flag; the `Concurrency` field of the
command does not enter. -/
theorem exec_sizes_follow_flag (F : CostOps) (c : BenchmarkCommand) (flag : Int)
    (queries : List (Option MinMaxCPUQuery)) (results : List (QueryExecutionResult F))
    (out : ExecOutcome F) (h : Exec F c flag queries results = .ok (.ok out)) :
    out.buckets.length = flag.toNat ∧ out.workersStarted = flag.toNat ∧
      out.stats.ExecTimeByWorker.length = flag.toNat ∧
      out.stats.CostByWorker.length = flag.toNat := by
  unfold Exec at h
  rcases hd : execDispatch flag queries with p | ⟨bs, err, s⟩
  · rw [hd] at h; simp at h
  · rw [hd] at h
    cases err with
    | some e => simp at h
    | none =>
      simp only at h
      rcases ha : aggregateStats F flag results with p | stats
      · rw [ha] at h; simp at h
      · rw [ha] at h
        simp only [Except.ok.injEq] at h
        subst h
        unfold execDispatch Buckets at hd
        unfold aggregateStats at ha
        by_cases hneg : flag < 0
        · rw [if_pos hneg] at hd; simp at hd
        · rw [if_neg hneg] at hd ha
          obtain ⟨bs2, e1, e2⟩ := bucketsLoop_length _ _ _ _ _ _ hd rfl
          obtain ⟨a, b⟩ := aggregateLoop_length F _ _ _ ha
          simp only at e1
          subst e1
          simp only [List.length_replicate] at e2 a b
          exact ⟨e2, e2, a, b⟩

/-- C22, the failing input: a command with `Concurrency = 2` while the `concurrency` flag
has its default `5`, on an empty list of queries: `Exec` makes five buckets, starts five
workers and sizes the per-worker statistics to five entries. -/
theorem exec_sizes_follow_flag_witness :
    (⟨2⟩ : BenchmarkCommand).Concurrency = 2 ∧
    ∃ out : ExecOutcome ⟨Int, Int, 0, fun a c => a + c⟩,
      Exec ⟨Int, Int, 0, fun a c => a + c⟩ ⟨2⟩ 5 [] [] = .ok (.ok out) ∧
      out.buckets.length = (5 : Int).toNat ∧ out.workersStarted = (5 : Int).toNat ∧
      out.stats.ExecTimeByWorker.length = (5 : Int).toNat ∧
      out.stats.CostByWorker.length = (5 : Int).toNat :=
  ⟨rfl, ⟨List.replicate 5 [], 5,
      ⟨NewAggregator, List.replicate 5 none, 0, List.replicate 5 none⟩⟩, rfl,
    exec_sizes_follow_flag ⟨Int, Int, 0, fun a c => a + c⟩ ⟨2⟩ 5 [] []
      ⟨List.replicate 5 [], 5,
        ⟨NewAggregator, List.replicate 5 none, 0, List.replicate 5 none⟩⟩ rfl⟩

end TsQueryWorkers
